import Mathlib

/-!
# teambugs: classification, ordering and report of team bugs

A shallow embedding of `main.go`: the triage rule `ignoreBug`, the comparator
`bugStateArray.Less`, and the part of `main` that runs after a successful
`client.Search`, which groups the bugs per assignee, sorts and prints.

Strings are Lean strings, Go `int` values are `Int` (identifiers are compared
and printed, counters are bounded by the number of fetched bugs, so no
arithmetic leaves the 64-bit range), Go slices are lists.
-/

namespace Teambugs

/-! ## Data model -/

/-- The two fields of `bugzilla.Flag` that the program reads. -/
structure Flag where
  Name : String
  Requestee : String
deriving DecidableEq, Repr

/-- The fields of `bugzilla.Bug` that the program reads. -/
structure Bug where
  ID : Int
  AssignedTo : String
  Severity : String
  Status : String
  Flags : List Flag
deriving DecidableEq, Repr

/-- The Go struct `bugState`: a bug with its classification. -/
structure bugState where
  bug : Bug
  ignored : Bool
  ignoreReason : String
deriving DecidableEq, Repr

/-- The Go type `bugStateArray`, a slice of `bugState`. -/
abbrev bugStateArray := List bugState

/-- The keys of the Go map `team`. -/
def team : List String :=
  ["chuffman", "fbertina", "hekumar", "jsafrane", "tsmetana"]

/-- The `found` result of the map lookup `team[k]`. -/
def teamFound (k : String) : Bool :=
  team.contains k

/-! ## ignoreBug -/

/-- The loop `for _, flag := range bug.Flags` of `ignoreBug` together with the
final `return false, ""` that is reached when the loop runs to its end. -/
def ignoreBugFlags : List Flag → Bool × String
  | [] => (false, "")
  | flag :: rest =>
    let requesteeIsOutside := if teamFound flag.Requestee then false else true
    if flag.Name == "needinfo" && requesteeIsOutside then
      (true, "needinfo:" ++ flag.Requestee)
    else
      ignoreBugFlags rest

/-- The Go function `ignoreBug`. -/
def ignoreBug (bug : Bug) : Bool × String :=
  if bug.Severity == "low" then
    (true, "low")
  else
    ignoreBugFlags bug.Flags

/-- The condition of the `return` inside the loop of `ignoreBug`: the flag is
a needinfo request to somebody who is not a key of `team`. -/
def outsideNeedinfo (flag : Flag) : Bool :=
  flag.Name == "needinfo" && !teamFound flag.Requestee

/-! ## The comparator -/

/-- The lookup `severityCode[s]` in the map literal of `Less`: a key that is
not in the map yields the zero value of `int`. -/
def severityCode (s : String) : Int :=
  if s = "urgent" then 1
  else if s = "high" then 2
  else if s = "---" then 3
  else if s = "medium" then 4
  else if s = "low" then 5
  else 0

/-- The method `bugStateArray.Less`, on the two elements `bi = b[i]` and
`bj = b[j]` that it reads. -/
def bugStateArray.Less (bi bj : bugState) : Bool :=
  if !bi.ignored && bj.ignored then
    true
  else if bi.ignored && !bj.ignored then
    false
  else if severityCode bi.bug.Severity < severityCode bj.bug.Severity then
    true
  else
    decide (bi.bug.ID < bj.bug.ID)

/-- The keys of the map literal `severityCode` of `Less`. -/
def severityKeys : List String :=
  ["urgent", "high", "---", "medium", "low"]

/-! ## The sorting routines of the Go standard library

`sort.Sort` and `sort.Strings` belong to the Go standard library. Since Go 1.19
`sort.Sort` is a pattern-defeating quicksort: `pdqsort` with the insertion sort
for a range of at most 12 elements and the heap sort when `limit` is used up.
The functions below follow `zsortinterface.go` of the package `sort` function
by function. A slice is a list, `data.Less(i, j)` and `data.Swap(i, j)` are
`lessAt` and `swapAt`, and a loop is a recursion on the number of rounds that
it has left. -/

/-- The call `data.Less(i, j)` on a slice. -/
def lessAt {α : Type} (less : α → α → Bool) (data : List α) (i j : Nat) : Bool :=
  match data[i]?, data[j]? with
  | some x, some y => less x y
  | _, _ => false

/-- The call `data.Swap(i, j)` on a slice. -/
def swapAt {α : Type} (data : List α) (i j : Nat) : List α :=
  match data[i]?, data[j]? with
  | some x, some y => (data.set i y).set j x
  | _, _ => data

/-- The loop `for i < hi && p(i) { i++ }`, where `n` is `hi - i`. -/
def scanUp (p : Nat → Bool) : Nat → Nat → Nat
  | 0, i => i
  | n + 1, i => if p i then scanUp p n (i + 1) else i

/-- The loop `for lo <= j && p(j) { j-- }`, where `n` is `j + 1 - lo`. -/
def scanDown (p : Nat → Bool) : Nat → Nat → Nat
  | 0, j => j
  | n + 1, j => if p j then scanDown p n (j - 1) else j

/-- The inner loop of `insertionSort`,
`for j := i; j > a && data.Less(j, j-1); j-- { data.Swap(j, j-1) }`. -/
def insertionSortInner {α : Type} (less : α → α → Bool) (a : Nat) : Nat → List α → List α
  | 0, data => data
  | j + 1, data =>
    if a < j + 1 && lessAt less data (j + 1) j then
      insertionSortInner less a j (swapAt data (j + 1) j)
    else data

/-- The outer loop of `insertionSort`, `for i := a + 1; i < b; i++`, where `n`
is `b - i`. -/
def insertionSortOuter {α : Type} (less : α → α → Bool) (a : Nat) :
    Nat → Nat → List α → List α
  | 0, _, data => data
  | n + 1, i, data => insertionSortOuter less a n (i + 1) (insertionSortInner less a i data)

/-- The function `insertionSort(data, a, b)`. -/
def insertionSort {α : Type} (less : α → α → Bool) (data : List α) (a b : Nat) : List α :=
  insertionSortOuter less a (b - (a + 1)) (a + 1) data

/-- The loop of `siftDown`; `fuel` bounds the number of rounds, and `hi - root`
rounds are never exceeded because `root` grows in each round. -/
def siftDownLoop {α : Type} (less : α → α → Bool) (hi first : Nat) :
    Nat → Nat → List α → List α
  | 0, _, data => data
  | fuel + 1, root, data =>
    let child := 2 * root + 1
    if hi ≤ child then data
    else
      let child :=
        if child + 1 < hi && lessAt less data (first + child) (first + child + 1) then child + 1
        else child
      if !lessAt less data (first + root) (first + child) then data
      else siftDownLoop less hi first fuel child (swapAt data (first + root) (first + child))

/-- The function `siftDown(data, lo, hi, first)`. -/
def siftDown {α : Type} (less : α → α → Bool) (data : List α) (lo hi first : Nat) : List α :=
  siftDownLoop less hi first hi lo data

/-- The first loop of `heapSort`, `for i := (hi - 1) / 2; i >= 0; i--`, where
the argument is `i + 1`. -/
def heapSortBuild {α : Type} (less : α → α → Bool) (hi first : Nat) : Nat → List α → List α
  | 0, data => data
  | i + 1, data => heapSortBuild less hi first i (siftDown less data i hi first)

/-- The second loop of `heapSort`, `for i := hi - 1; i >= 0; i--`, where the
argument is `i + 1`. -/
def heapSortPop {α : Type} (less : α → α → Bool) (first : Nat) : Nat → List α → List α
  | 0, data => data
  | i + 1, data =>
    heapSortPop less first i (siftDown less (swapAt data first (first + i)) 0 i first)

/-- The function `heapSort(data, a, b)`. -/
def heapSort {α : Type} (less : α → α → Bool) (data : List α) (a b : Nat) : List α :=
  let first := a
  let hi := b - a
  heapSortPop less first hi (heapSortBuild less hi first ((hi - 1) / 2 + 1) data)

/-- The main loop of `partition`; `fuel` bounds the number of rounds, and
`j + 2 - i` rounds are never exceeded. -/
def partitionLoop {α : Type} (less : α → α → Bool) (a : Nat) :
    Nat → List α → Nat → Nat → List α × Nat
  | 0, data, _, j => (data, j)
  | fuel + 1, data, i, j =>
    let i := scanUp (fun k => lessAt less data k a) (j + 1 - i) i
    let j := scanDown (fun k => !lessAt less data k a) (j + 1 - i) j
    if j < i then (data, j)
    else partitionLoop less a fuel (swapAt data i j) (i + 1) (j - 1)

/-- The function `partition(data, a, b, pivot)`: the slice, `newpivot` and
`alreadyPartitioned`. -/
def partition {α : Type} (less : α → α → Bool) (data : List α) (a b pivot : Nat) :
    List α × Nat × Bool :=
  let data := swapAt data a pivot
  let i := a + 1
  let j := b - 1
  let i := scanUp (fun k => lessAt less data k a) (j + 1 - i) i
  let j := scanDown (fun k => !lessAt less data k a) (j + 1 - i) j
  if j < i then (swapAt data j a, j, true)
  else
    let r := partitionLoop less a (j + 1 - i) (swapAt data i j) (i + 1) (j - 1)
    (swapAt r.1 r.2 a, r.2, false)

/-- The loop of `partitionEqual`; `fuel` bounds the number of rounds. -/
def partitionEqualLoop {α : Type} (less : α → α → Bool) (a : Nat) :
    Nat → List α → Nat → Nat → List α × Nat
  | 0, data, i, _ => (data, i)
  | fuel + 1, data, i, j =>
    let i := scanUp (fun k => !lessAt less data a k) (j + 1 - i) i
    let j := scanDown (fun k => lessAt less data a k) (j + 1 - i) j
    if j < i then (data, i)
    else partitionEqualLoop less a fuel (swapAt data i j) (i + 1) (j - 1)

/-- The function `partitionEqual(data, a, b, pivot)`: the slice and
`newpivot`. -/
def partitionEqual {α : Type} (less : α → α → Bool) (data : List α) (a b pivot : Nat) :
    List α × Nat :=
  let data := swapAt data a pivot
  partitionEqualLoop less a (b - a + 1) data (a + 1) (b - 1)

/-- The loop `for j := i + 1; j < b; j++` of `partialInsertionSort`, where `n`
is `b - j`. -/
def shiftRight {α : Type} (less : α → α → Bool) : Nat → Nat → List α → List α
  | 0, _, data => data
  | n + 1, j, data =>
    if !lessAt less data j (j - 1) then data
    else shiftRight less n (j + 1) (swapAt data j (j - 1))

/-- The loop `for j := 0; j < maxSteps; j++` of `partialInsertionSort`, where
`steps` is `maxSteps - j`. The loop `for j := i - 1; j >= 1; j--` in it is the
inner loop of `insertionSort` with the bound 0. -/
def partialInsertionSortLoop {α : Type} (less : α → α → Bool) (a b : Nat) :
    Nat → Nat → List α → List α × Bool
  | 0, _, data => (data, false)
  | steps + 1, i, data =>
    let i := scanUp (fun k => !lessAt less data k (k - 1)) (b - i) i
    if i = b then (data, true)
    else if b - a < 50 then (data, false)
    else
      let data := swapAt data i (i - 1)
      let data := if 2 ≤ i - a then insertionSortInner less 0 (i - 1) data else data
      let data := if 2 ≤ b - i then shiftRight less (b - (i + 1)) (i + 1) data else data
      partialInsertionSortLoop less a b steps i data

/-- The function `partialInsertionSort(data, a, b)`. -/
def partialInsertionSort {α : Type} (less : α → α → Bool) (data : List α) (a b : Nat) :
    List α × Bool :=
  partialInsertionSortLoop less a b 5 (a + 1) data

/-- The method `Next` of `xorshift`, on 64 bits. -/
def xorshiftNext (r : Nat) : Nat :=
  let r := r ^^^ ((r <<< 13) % 2 ^ 64)
  let r := r ^^^ (r >>> 7)
  r ^^^ ((r <<< 17) % 2 ^ 64)

/-- The function `bits.Len`. -/
def bitsLen (x : Nat) : Nat :=
  if x = 0 then 0 else Nat.log2 x + 1

/-- The function `nextPowerOfTwo`. -/
def nextPowerOfTwo (length : Nat) : Nat :=
  2 ^ bitsLen length

/-- The loop `for i := 0; i < 3; i++` of `breakPatterns`, where `n` is
`3 - i`. -/
def breakPatternsLoop {α : Type} (a length modulus idx : Nat) :
    Nat → Nat → Nat → List α → List α
  | 0, _, _, data => data
  | n + 1, i, random, data =>
    let random := xorshiftNext random
    let other := random &&& (modulus - 1)
    let other := if length ≤ other then other - length else other
    breakPatternsLoop a length modulus idx n (i + 1) random (swapAt data (idx - 1 + i) (a + other))

/-- The function `breakPatterns(data, a, b)`. -/
def breakPatterns {α : Type} (data : List α) (a b : Nat) : List α :=
  let length := b - a
  if 8 ≤ length then
    breakPatternsLoop a length (nextPowerOfTwo length) (a + (length / 4) * 2 - 1) 3 0 length data
  else data

/-- The type `sortedHint`. -/
inductive sortedHint where
  | unknownHint
  | increasingHint
  | decreasingHint
deriving DecidableEq, Repr

/-- The function `order2(data, a, b, swaps)`: the two indices and the new
value of `*swaps`. -/
def order2 {α : Type} (less : α → α → Bool) (data : List α) (a b swaps : Nat) :
    Nat × Nat × Nat :=
  if lessAt less data b a then (b, a, swaps + 1) else (a, b, swaps)

/-- The function `median(data, a, b, c, swaps)`: the index and the new value
of `*swaps`. -/
def median {α : Type} (less : α → α → Bool) (data : List α) (a b c swaps : Nat) : Nat × Nat :=
  let r1 := order2 less data a b swaps
  let r2 := order2 less data r1.2.1 c r1.2.2
  let r3 := order2 less data r1.1 r2.1 r2.2.2
  (r3.2.1, r3.2.2)

/-- The function `medianAdjacent(data, a, swaps)`. -/
def medianAdjacent {α : Type} (less : α → α → Bool) (data : List α) (a swaps : Nat) : Nat × Nat :=
  median less data (a - 1) a (a + 1) swaps

/-- The function `choosePivot(data, a, b)`. -/
def choosePivot {α : Type} (less : α → α → Bool) (data : List α) (a b : Nat) :
    Nat × sortedHint :=
  let l := b - a
  let i := a + l / 4 * 1
  let j := a + l / 4 * 2
  let k := a + l / 4 * 3
  let r : Nat × Nat :=
    if 8 ≤ l then
      if 50 ≤ l then
        let ri := medianAdjacent less data i 0
        let rj := medianAdjacent less data j ri.2
        let rk := medianAdjacent less data k rj.2
        median less data ri.1 rj.1 rk.1 rk.2
      else median less data i j k 0
    else (j, 0)
  if r.2 = 0 then (r.1, sortedHint.increasingHint)
  else if r.2 = 4 * 3 then (r.1, sortedHint.decreasingHint)
  else (r.1, sortedHint.unknownHint)

/-- The loop of `reverseRange`, where `n` bounds the number of rounds. -/
def reverseRangeLoop {α : Type} : Nat → Nat → Nat → List α → List α
  | 0, _, _, data => data
  | n + 1, i, j, data =>
    if i < j then reverseRangeLoop n (i + 1) (j - 1) (swapAt data i j) else data

/-- The function `reverseRange(data, a, b)`. -/
def reverseRange {α : Type} (data : List α) (a b : Nat) : List α :=
  reverseRangeLoop (b - a) a (b - 1) data

/-- The part of a round of the loop of `pdqsort` that comes before the
partition, from `breakPatterns` to `partialInsertionSort`: the slice, the
variable `limit`, the index `pivot`, and whether `partialInsertionSort`
returned true, in which case `pdqsort` returns. -/
def pdqsortPrepare {α : Type} (less : α → α → Bool) (data : List α)
    (a b limit : Nat) (wasBalanced wasPartitioned : Bool) : List α × Nat × Nat × Bool :=
  let data := if !wasBalanced then breakPatterns data a b else data
  let limit := if !wasBalanced then limit - 1 else limit
  let ph := choosePivot less data a b
  let data := if ph.2 = sortedHint.decreasingHint then reverseRange data a b else data
  let pivot := if ph.2 = sortedHint.decreasingHint then (b - 1) - (ph.1 - a) else ph.1
  let hint := if ph.2 = sortedHint.decreasingHint then sortedHint.increasingHint else ph.2
  let ps : List α × Bool :=
    if wasBalanced && wasPartitioned && hint = sortedHint.increasingHint then
      partialInsertionSort less data a b
    else (data, false)
  (ps.1, limit, pivot, ps.2)

/-- The function `pdqsort(data, a, b, limit)`: one round of its loop, with the
variables `wasBalanced` and `wasPartitioned`, followed by the rest of the loop.
Each round and each recursive call works on a shorter part of the slice, so
`b - a` rounds of `fuel` are never exceeded. -/
def pdqsort {α : Type} (less : α → α → Bool) :
    Nat → List α → Nat → Nat → Nat → Bool → Bool → List α
  | 0, data, a, b, _, _, _ => insertionSort less data a b
  | fuel + 1, data, a, b, limit, wasBalanced, wasPartitioned =>
    if b - a ≤ 12 then insertionSort less data a b
    else if limit = 0 then heapSort less data a b
    else
      let st := pdqsortPrepare less data a b limit wasBalanced wasPartitioned
      if st.2.2.2 then st.1
      else if 0 < a && !lessAt less st.1 (a - 1) st.2.2.1 then
        let pe := partitionEqual less st.1 a b st.2.2.1
        pdqsort less fuel pe.1 pe.2 b st.2.1 wasBalanced wasPartitioned
      else
        let pt := partition less st.1 a b st.2.2.1
        if pt.2.1 - a < b - pt.2.1 then
          pdqsort less fuel (pdqsort less fuel pt.1 a pt.2.1 st.2.1 true true) (pt.2.1 + 1) b
            st.2.1 (decide ((b - a) / 8 ≤ pt.2.1 - a)) pt.2.2
        else
          pdqsort less fuel (pdqsort less fuel pt.1 (pt.2.1 + 1) b st.2.1 true true) a pt.2.1
            st.2.1 (decide ((b - a) / 8 ≤ b - pt.2.1)) pt.2.2

/-- The function `sort.Sort(data)` of Go 1.19 and later, where `less x y` is
`data.Less` on the elements `x` and `y`. -/
def sortSort {α : Type} (less : α → α → Bool) (data : List α) : List α :=
  let n := data.length
  if n ≤ 1 then data
  else pdqsort less n data 0 n (bitsLen n) true true

/-! ## The sorting routine of the releases before Go 1.19

Before Go 1.19 `sort.Sort` was a quicksort: `quickSort` with `doPivot`, the
heap sort when `maxDepth` is used up, and for a range of at most 12 elements a
pass of the shell sort with the gap 6 followed by the insertion sort. The
program does not fix the release it is built with, so the functions of
`sort.go` of these releases are embedded as well; `insertionSort` and
`heapSort` are the ones above. -/

/-- The loop `for ; lo < c && p(c-1); c-- {}`, where `n` is `c - lo`. -/
def scanDownBefore (p : Nat → Bool) : Nat → Nat → Nat
  | 0, c => c
  | n + 1, c => if p (c - 1) then scanDownBefore p n (c - 1) else c

/-- The function `medianOfThree(data, m1, m0, m2)` of the quicksort of the
releases before Go 1.19. -/
def medianOfThree {α : Type} (less : α → α → Bool) (data : List α) (m1 m0 m2 : Nat) : List α :=
  let data := if lessAt less data m1 m0 then swapAt data m1 m0 else data
  if lessAt less data m2 m1 then
    let data := swapAt data m2 m1
    if lessAt less data m1 m0 then swapAt data m1 m0 else data
  else data

/-- The choice of the pivot in `doPivot`: the slice after the calls of
`medianOfThree`. -/
def doPivotMedians {α : Type} (less : α → α → Bool) (data : List α) (lo hi : Nat) : List α :=
  let m := (lo + hi) / 2
  let data :=
    if 40 < hi - lo then
      let s := (hi - lo) / 8
      let data := medianOfThree less data lo (lo + s) (lo + 2 * s)
      let data := medianOfThree less data m (m - s) (m + s)
      medianOfThree less data (hi - 1) (hi - 1 - s) (hi - 1 - 2 * s)
    else data
  medianOfThree less data lo m (hi - 1)

/-- The main loop of `doPivot`: the slice and the variables `b` and `c`;
`fuel` bounds the number of rounds, and `c - b + 1` rounds are never
exceeded. -/
def doPivotLoop {α : Type} (less : α → α → Bool) (pivot : Nat) :
    Nat → List α → Nat → Nat → List α × Nat × Nat
  | 0, data, b, c => (data, b, c)
  | fuel + 1, data, b, c =>
    let b := scanUp (fun k => !lessAt less data pivot k) (c - b) b
    let c := scanDownBefore (fun k => lessAt less data pivot k) (c - b) c
    if c ≤ b then (data, b, c)
    else doPivotLoop less pivot fuel (swapAt data b (c - 1)) (b + 1) (c - 1)

/-- The part of `doPivot` that tests three elements for equality to the pivot,
entered with `protect` false: the slice, the variables `b` and `c`, and the new
value of `protect`. -/
def doPivotDups {α : Type} (less : α → α → Bool) (data : List α) (lo hi m b c : Nat) :
    List α × Nat × Nat × Bool :=
  let pivot := lo
  let s1 : List α × Nat × Nat :=
    if !lessAt less data pivot (hi - 1) then (swapAt data c (hi - 1), c + 1, 1) else (data, c, 0)
  let s2 : Nat × Nat :=
    if !lessAt less s1.1 (b - 1) pivot then (b - 1, s1.2.2 + 1) else (b, s1.2.2)
  let s3 : List α × Nat × Nat :=
    if !lessAt less s1.1 m pivot then (swapAt s1.1 m (s2.1 - 1), s2.1 - 1, s2.2 + 1)
    else (s1.1, s2.1, s2.2)
  (s3.1, s3.2.1, s1.2.1, decide (1 < s3.2.2))

/-- The loop of `doPivot` that protects against many duplicates: the slice
and the variable `b`; `fuel` bounds the number of rounds. -/
def doPivotProtect {α : Type} (less : α → α → Bool) (pivot : Nat) :
    Nat → List α → Nat → Nat → List α × Nat
  | 0, data, _, b => (data, b)
  | fuel + 1, data, a, b =>
    let b := scanDownBefore (fun k => !lessAt less data k pivot) (b - a) b
    let a := scanUp (fun k => lessAt less data k pivot) (b - a) a
    if b ≤ a then (data, b)
    else doPivotProtect less pivot fuel (swapAt data a (b - 1)) (a + 1) (b - 1)

/-- The function `doPivot(data, lo, hi)`: the slice, `midlo` and `midhi`. -/
def doPivot {α : Type} (less : α → α → Bool) (data : List α) (lo hi : Nat) :
    List α × Nat × Nat :=
  let m := (lo + hi) / 2
  let data := doPivotMedians less data lo hi
  let pivot := lo
  let a := scanUp (fun k => lessAt less data k pivot) (hi - 1 - (lo + 1)) (lo + 1)
  let r := doPivotLoop less pivot (hi - lo) data a (hi - 1)
  let protect := decide (hi - r.2.2 < 5)
  let d : List α × Nat × Nat × Bool :=
    if !protect && decide (hi - r.2.2 < (hi - lo) / 4) then
      doPivotDups less r.1 lo hi m r.2.1 r.2.2
    else (r.1, r.2.1, r.2.2, protect)
  let q : List α × Nat :=
    if d.2.2.2 then doPivotProtect less pivot (hi - lo) d.1 a d.2.1 else (d.1, d.2.1)
  (swapAt q.1 pivot (q.2 - 1), q.2 - 1, d.2.2.1)

/-- The loop `for i := a + 6; i < b; i++` of `quickSort`, a pass of the shell
sort with the gap 6, where `n` is `b - i`. -/
def shellPass {α : Type} (less : α → α → Bool) : Nat → Nat → List α → List α
  | 0, _, data => data
  | n + 1, i, data =>
    shellPass less n (i + 1) (if lessAt less data i (i - 6) then swapAt data i (i - 6) else data)

/-- The function `quickSort(data, a, b, maxDepth)`: one round of its loop
followed by the rest of the loop, and the part after the loop. Each round and
each recursive call works on a shorter part of the slice, so `b - a` rounds of
`fuel` are never exceeded. -/
def quickSort {α : Type} (less : α → α → Bool) : Nat → List α → Nat → Nat → Nat → List α
  | 0, data, a, b, _ =>
    if 1 < b - a then insertionSort less (shellPass less (b - (a + 6)) (a + 6) data) a b
    else data
  | fuel + 1, data, a, b, maxDepth =>
    if 12 < b - a then
      if maxDepth = 0 then heapSort less data a b
      else
        let r := doPivot less data a b
        if r.2.1 - a < b - r.2.2 then
          quickSort less fuel (quickSort less fuel r.1 a r.2.1 (maxDepth - 1)) r.2.2 b
            (maxDepth - 1)
        else
          quickSort less fuel (quickSort less fuel r.1 r.2.2 b (maxDepth - 1)) a r.2.1
            (maxDepth - 1)
    else if 1 < b - a then insertionSort less (shellPass less (b - (a + 6)) (a + 6) data) a b
    else data

/-- The function `sort.Sort(data)` of the releases before Go 1.19, with
`maxDepth(n)` written out. -/
def sortSortLegacy {α : Type} (less : α → α → Bool) (data : List α) : List α :=
  quickSort less data.length data 0 data.length (bitsLen data.length * 2)

/-! ## The sort of the assignees -/

/-- The method `StringSlice.Less`, `x[i] < x[j]`. Go compares strings byte by
byte; on UTF-8 text this is the order of the code points. -/
def stringLess (x y : String) : Bool :=
  decide (x.toList < y.toList)

/-- The call `sort.Strings(x)`, which is `sort.Sort(sort.StringSlice(x))`. -/
def sortStrings (x : List String) : List String :=
  sortSort stringLess x

/-! ## The query -/

/-- The constant `currentRelease`. -/
def currentRelease : String := "4.6.0"

/-- The constant `nextRelease`. -/
def nextRelease : String := "4.7.0"

/-- The variable `defaultFields`: the fields of the output of `Search` when no
`Query.IncludeFields` is used. -/
def defaultFields : List String :=
  ["actual_time", "alias", "assigned_to", "assigned_to_detail", "blocks", "cc", "cc_detail",
    "cf_build_id", "cf_clone_of", "cf_conditional_nak", "cf_cust_facing", "cf_devel_whiteboard",
    "cf_doc_type", "cf_environment", "cf_fixed_in", "cf_internal_whiteboard", "cf_last_closed",
    "cf_partner", "cf_pgm_internal", "cf_pm_score", "cf_qa_whiteboard", "cf_qe_conditional_nak",
    "cf_release_notes", "cf_target_upstream_version", "cf_verified", "classification",
    "component", "creation_time", "creator", "creator_detail", "deadline", "depends_on",
    "docs_contact", "dupe_of", "estimated_time", "groups", "id", "is_cc_accessible",
    "is_confirmed", "is_creator_accessible", "is_open", "keywords", "last_change_time", "op_sys",
    "platform", "priority", "product", "qa_contact", "qa_contact_detail", "remaining_time",
    "resolution", "see_also", "severity", "status", "summary", "target_milestone",
    "target_release", "url", "version", "whiteboard"]

/-- The fields of `bugzilla.Query` that `main` sets. -/
structure Query where
  Product : List String
  Component : List String
  Status : List String
  TargetRelease : List String
  IncludeFields : List String
deriving DecidableEq, Repr

/-- The variable `query` of `main`; `append(defaultFields, "flags",
"external_bugs")` is the slice `defaultFields` followed by the two strings. -/
def query : Query :=
  { Product := ["OpenShift Container Platform"]
    Component := ["Storage"]
    Status := ["NEW", "ASSIGNED", "POST", "ON_DEV"]
    TargetRelease := ["---", currentRelease, nextRelease]
    IncludeFields := defaultFields ++ ["flags", "external_bugs"] }

/-! ## Grouping -/

/-- A Go `map[string]bugStateArray`: `none` for a key that is absent. -/
abbrev BugStates := String → Option bugStateArray

/-- The assignment `m[k] = v`. -/
def BugStates.set (m : BugStates) (k : String) (v : bugStateArray) : BugStates :=
  fun k2 => if k2 = k then some v else m k2

/-- The read `m[k]`, which is the nil slice when `k` is absent. -/
def BugStates.get (m : BugStates) (k : String) : bugStateArray :=
  (m k).getD []

/-- The variables `bugStates` and `assignees` of `main`. -/
structure Groups where
  bugStates : BugStates
  assignees : List String

/-- One iteration of the loop `for _, bug := range bugs` of `main`. -/
def groupStep (g : Groups) (bug : Bug) : Groups :=
  let r := ignoreBug bug
  let g1 : Groups :=
    if (g.bugStates bug.AssignedTo).isSome then g
    else
      { bugStates := g.bugStates.set bug.AssignedTo []
        assignees := g.assignees ++ [bug.AssignedTo] }
  { g1 with
    bugStates := g1.bugStates.set bug.AssignedTo
      (g1.bugStates.get bug.AssignedTo ++
        [{ bug := bug, ignored := r.1, ignoreReason := r.2 }]) }

/-- The grouping loop of `main`, from the empty map and the empty slice. -/
def groupBugs (bugs : List Bug) : Groups :=
  bugs.foldl groupStep { bugStates := fun _ => none, assignees := [] }

/-! ## Printing -/

/-- The calls of `fmt.Printf` in `main`, each with its arguments. -/
inductive Printf where
  | summary (assignee : String) (active total : Int) (ids : String)
  | issue (reason status : String) (id : Int)
  | blank
  | total (active total : Int)
deriving DecidableEq, Repr

/-- The text that a call of `fmt.Printf` writes: `%s` is the string itself and
`%d` the decimal form of the integer. -/
def Printf.render : Printf → String
  | .summary assignee act tot ids =>
    assignee ++ ": " ++ toString act ++ "/" ++ toString tot ++
      ": https://bugzilla.redhat.com/buglist.cgi?f1=bug_id&list_id=11351541&o1=anyexact&v1=" ++
      ids ++ "\n"
  | .issue reason status id =>
    "\t " ++ reason ++ " " ++ status ++ " https://bugzilla.redhat.com/show_bug.cgi?id=" ++
      toString id ++ "\n"
  | .blank => "\n"
  | .total act tot => "Total: " ++ toString act ++ "/" ++ toString tot ++ "\n"

/-- The call `strings.Join(elems, sep)`. -/
def stringsJoin (elems : List String) (sep : String) : String :=
  match elems with
  | [] => ""
  | e :: es => es.foldl (fun acc s => acc ++ sep ++ s) e

/-- The variables that the first inner loop of the report updates. -/
structure Counters where
  bugIDs : List String
  ignored : Int
  total : Int
  totalIgnored : Int
deriving DecidableEq, Repr

/-- One iteration of the first loop `for _, bugState := range bugs` inside the
report loop. -/
def countStep (c : Counters) (bs : bugState) : Counters :=
  let c1 : Counters :=
    if bs.ignored then
      { c with ignored := c.ignored + 1, totalIgnored := c.totalIgnored + 1 }
    else c
  { c1 with total := c1.total + 1, bugIDs := c1.bugIDs ++ [toString bs.bug.ID] }

/-- One iteration of the second loop `for _, bugState := range bugs` inside the
report loop: the line of one bug. -/
def issueLine (bs : bugState) : Printf :=
  let reason := if bs.ignored then "[" ++ bs.ignoreReason ++ "]" else ""
  Printf.issue reason bs.bug.Status bs.bug.ID

/-- The variables that the report loop carries, and the output so far. -/
structure Report where
  total : Int
  totalIgnored : Int
  out : List Printf
deriving DecidableEq, Repr

/-- The slice `bugs` of one iteration of the report loop after
`sort.Sort(bugs)`. -/
def sortedBucket (bugStates : BugStates) (assignee : String) : bugStateArray :=
  sortSort bugStateArray.Less (bugStates.get assignee)

/-- One iteration of the loop `for _, assignee := range assignees`. -/
def reportStep (bugStates : BugStates) (r : Report) (assignee : String) : Report :=
  let bugs := sortedBucket bugStates assignee
  let c := bugs.foldl countStep
    { bugIDs := [], ignored := 0, total := r.total, totalIgnored := r.totalIgnored }
  { total := c.total
    totalIgnored := c.totalIgnored
    out := r.out ++
      [Printf.summary assignee ((bugs.length : Int) - c.ignored) (bugs.length : Int)
        (stringsJoin c.bugIDs "%2C")] ++
      bugs.map issueLine ++ [Printf.blank] }

/-- The calls of `fmt.Printf` that `main` makes when `client.Search` returned
`bugs` without an error, in order. -/
def mainPrints (bugs : List Bug) : List Printf :=
  let g := groupBugs bugs
  let assignees := sortStrings g.assignees
  let r := assignees.foldl (reportStep g.bugStates) { total := 0, totalIgnored := 0, out := [] }
  r.out ++ [Printf.total (r.total - r.totalIgnored) r.total]

/-- The standard output of `main` when `client.Search` returned `bugs`. -/
def mainOutput (bugs : List Bug) : String :=
  String.join ((mainPrints bugs).map Printf.render)

/-! ## Quantities that the statements below speak about -/

/-- The element that the grouping loop appends for `bug`. -/
def classify (bug : Bug) : bugState :=
  { bug := bug, ignored := (ignoreBug bug).1, ignoreReason := (ignoreBug bug).2 }

/-- The number of ignored elements of a slice. -/
def ignoredCount (bugs : bugStateArray) : Int :=
  (bugs.map fun s => if s.ignored then (1 : Int) else 0).sum

/-- The pairs (active, total) of the summary lines among the prints. -/
def summaryCounts (prints : List Printf) : List (Int × Int) :=
  prints.filterMap fun p =>
    match p with
    | .summary _ act tot _ => some (act, tot)
    | _ => none

/-- The assignees of the summary lines among the prints, in the order of the
prints: the assignees for which a section is printed. -/
def sectionAssignees (prints : List Printf) : List String :=
  prints.filterMap fun p =>
    match p with
    | .summary assignee _ _ _ => some assignee
    | _ => none

/-- The prints of one iteration of the report loop. -/
def sectionPrints (bugStates : BugStates) (assignee : String) : List Printf :=
  let bugs := sortedBucket bugStates assignee
  [Printf.summary assignee ((bugs.length : Int) - ignoredCount bugs) (bugs.length : Int)
      (stringsJoin (bugs.map fun s => toString s.bug.ID) "%2C")] ++
    bugs.map issueLine ++ [Printf.blank]

/-- What the grouping loop has built after the bugs `seen`: the map holds for
every assignee of `seen` the bugs of that assignee in the order of `seen`, and
`assignees` lists the keys of the map, each once. -/
structure GroupsOf (g : Groups) (seen : List Bug) : Prop where
  buckets : ∀ k, g.bugStates k =
    if k ∈ seen.map Bug.AssignedTo then
      some ((seen.filter fun b => b.AssignedTo = k).map classify)
    else none
  nodup : g.assignees.Nodup
  keys : ∀ k, k ∈ g.assignees ↔ k ∈ seen.map Bug.AssignedTo

/-! ## The keys of a slice

The order of a sorted slice is stated for a key of its elements: whether a bug
is ignored, or the string itself. -/

/-- The key of the element at index `k` of the slice, for a `key` that the
order of the slice is judged by; the default value when `k` is out of range. -/
def keyAt {α K : Type} [Inhabited K] (key : α → K) (data : List α) (k : Nat) : K :=
  ((data[k]?).map key).getD default

/-- The keys at the indices from `a` up to `b`, without `b`, ascend. -/
def SortedOn {K : Type} [LinearOrder K] (f : Nat → K) (a b : Nat) : Prop :=
  ∀ i j, a ≤ i → i ≤ j → j < b → f i ≤ f j

/-- The keys `g` are the keys `f` moved around between the indices `a` and
`b`: outside of this range they are the same, and every key in the range was
in the range before. -/
def Rearr {K : Type} (f g : Nat → K) (a b : Nat) : Prop :=
  (∀ k, k < a ∨ b ≤ k → g k = f k) ∧
    ∀ k, a ≤ k → k < b → ∃ k2, a ≤ k2 ∧ k2 < b ∧ g k = f k2

/-- The slice `data2` holds the elements of `data`, and its keys are the keys
of `data` moved around between the indices `a` and `b`. -/
structure Moves {α K : Type} [Inhabited K] (key : α → K) (a b : Nat) (data data2 : List α) :
    Prop where
  perm : data2.Perm data
  rearr : Rearr (keyAt key data) (keyAt key data2) a b

/-- The answers of `less` agree with the order of the keys: when `less x y`
holds the key of `x` is not above the key of `y`, and when it does not hold
the key of `y` is not above the key of `x`. -/
structure KeyOrder {α K : Type} [LinearOrder K] (less : α → α → Bool) (key : α → K) : Prop where
  le_of_less : ∀ x y, less x y = true → key x ≤ key y
  ge_of_not_less : ∀ x y, less x y = false → key y ≤ key x

/-- The state of the loops of `partition`: the pivot key `p` is at the index
`a`, the keys after `a` and before `i` are not above `p`, and the keys after
`j` and before `b` are not below `p`. -/
def Split {K : Type} [LinearOrder K] (f : Nat → K) (a i j b : Nat) (p : K) : Prop :=
  f a = p ∧ (∀ k, a < k → k < i → f k ≤ p) ∧ (∀ k, j < k → k < b → p ≤ f k)

/-- No key before the index `a` is above a key of the range from `a` up to
`b`. This holds whenever `pdqsort` works on a range. -/
def LeftBelow {K : Type} [LinearOrder K] (f : Nat → K) (a b : Nat) : Prop :=
  ∀ i k, i < a → a ≤ k → k < b → f i ≤ f k

/-- The heap property of the keys of the nodes from `lo` on, in the heap of
`hi` nodes that starts at the index `first`: the key of a child is not above
the key of its parent. -/
def HeapOn {K : Type} [LinearOrder K] (f : Nat → K) (first lo hi : Nat) : Prop :=
  ∀ r c, lo ≤ r → c < hi → (c = 2 * r + 1 ∨ c = 2 * r + 2) → f (first + c) ≤ f (first + r)

/-- The state of the loop of `siftDown`: the heap property holds at every node
from `lo` on except `root`, and the children of `root` are not above the parent
of `root`. -/
def SiftInv {K : Type} [LinearOrder K] (f : Nat → K) (first lo hi root : Nat) : Prop :=
  (∀ r c, lo ≤ r → r ≠ root → c < hi → (c = 2 * r + 1 ∨ c = 2 * r + 2) →
      f (first + c) ≤ f (first + r)) ∧
    ∀ r c, lo ≤ r → (root = 2 * r + 1 ∨ root = 2 * r + 2) → c < hi →
      (c = 2 * root + 1 ∨ c = 2 * root + 2) → f (first + c) ≤ f (first + r)

/-- The state of the main loop of `doPivot`: the pivot key `p` is at the index
`lo`, the keys after `lo` and before `b` are not above `p`, and the keys from
`c` up to `hi` are not below `p`. -/
def Split3 {K : Type} [LinearOrder K] (f : Nat → K) (lo b c hi : Nat) (p : K) : Prop :=
  f lo = p ∧ (∀ k, lo < k → k < b → f k ≤ p) ∧ (∀ k, c ≤ k → k < hi → p ≤ f k)

/-- The state of `doPivot` after its main loop: as `Split3`, and the keys from
`b` up to `c` are equal to `p`. -/
def Zones {K : Type} [LinearOrder K] (f : Nat → K) (lo b c hi : Nat) (p : K) : Prop :=
  f lo = p ∧ (∀ k, lo < k → k < b → f k ≤ p) ∧ (∀ k, b ≤ k → k < c → f k = p) ∧
    ∀ k, c ≤ k → k < hi → p ≤ f k

/-! ## The order that the specification describes -/

/-- The rank table of the report as the text of the specification gives it,
for the five severities it names: urgent 1, high 2, "---" 3, medium 4, low 5. -/
def specRank (s : String) : Option Nat :=
  if s = "urgent" then some 1
  else if s = "high" then some 2
  else if s = "---" then some 3
  else if s = "medium" then some 4
  else if s = "low" then some 5
  else none

/-- The order of the specification on classified bugs with the ranks `ra` and
`rb`: the triple (ignored, rank, identifier) of `a` is lexicographically
smaller than the triple of `b`, where not ignored is smaller than ignored. -/
def specLessRank (a b : bugState) (ra rb : Nat) : Bool :=
  (!a.ignored && b.ignored) ||
    (a.ignored == b.ignored &&
      (decide (ra < rb) || (decide (ra = rb) && decide (a.bug.ID < b.bug.ID))))

/-- The order of the specification on two classified bugs whose severities
are among the five known values; `none` when a severity is not. -/
def specLess (a b : bugState) : Option Bool :=
  match specRank a.bug.Severity, specRank b.bug.Severity with
  | some ra, some rb => some (specLessRank a b ra rb)
  | _, _ => none

/-! ## Sample data -/

/-- A bug with a flag that is not a needinfo, a needinfo to a member of the
team, and two needinfos to outsiders. -/
def needinfoBug : Bug :=
  ⟨101, "alice", "medium", "NEW",
    [⟨"review", "outsider0"⟩, ⟨"needinfo", "jsafrane"⟩, ⟨"needinfo", "outsider1"⟩,
      ⟨"needinfo", ""⟩]⟩

/-- A bug with identifier and severity that carries no flag, as the grouping
loop classifies it: it is not ignored unless the severity is "low". -/
def plainState (id : Int) (assignee severity : String) : bugState :=
  classify ⟨id, assignee, severity, "NEW", []⟩

/-- Two fetched bugs of one assignee, the urgent one fetched first. -/
def urgentThenMedium : List Bug :=
  [⟨2, "alice", "urgent", "NEW", []⟩, ⟨1, "alice", "medium", "ASSIGNED", []⟩]

/-- A fetched bug of severity "low" with a needinfo to an outsider. -/
def lowBug : Bug :=
  ⟨103, "bob", "low", "NEW", [⟨"needinfo", "outsider"⟩]⟩

/-- Three fetched bugs of two assignees; the second one is ignored. -/
def threeBugs : List Bug :=
  [⟨12, "bob", "high", "POST", []⟩, lowBug, ⟨7, "", "urgent", "NEW", []⟩]

/-- Thirteen classified bugs of one assignee in the order of their identifiers
1 to 13, none ignored, the odd ones urgent and the even ones high. -/
def thirteenStates : bugStateArray :=
  [plainState 1 "alice" "urgent", plainState 2 "alice" "high", plainState 3 "alice" "urgent",
    plainState 4 "alice" "high", plainState 5 "alice" "urgent", plainState 6 "alice" "high",
    plainState 7 "alice" "urgent", plainState 8 "alice" "high", plainState 9 "alice" "urgent",
    plainState 10 "alice" "high", plainState 11 "alice" "urgent", plainState 12 "alice" "high",
    plainState 13 "alice" "urgent"]

end Teambugs

namespace Teambugs

/-! ## Properties of ignoreBug -/

theorem teamFound_iff (k : String) : teamFound k = true ↔ k ∈ team := by
  simp [teamFound]

theorem outsideNeedinfo_iff (flag : Flag) :
    outsideNeedinfo flag = true ↔ flag.Name = "needinfo" ∧ flag.Requestee ∉ team := by
  simp [outsideNeedinfo, ← teamFound_iff]

theorem ignoreBugFlags_cons (flag : Flag) (rest : List Flag) :
    ignoreBugFlags (flag :: rest) =
      if outsideNeedinfo flag then (true, "needinfo:" ++ flag.Requestee)
      else ignoreBugFlags rest := by
  cases h : teamFound flag.Requestee <;> simp [ignoreBugFlags, outsideNeedinfo, h]

theorem ignoreBugFlags_none (flags : List Flag)
    (h : ∀ f ∈ flags, outsideNeedinfo f = false) : ignoreBugFlags flags = (false, "") := by
  induction flags with
  | nil => rfl
  | cons f rest ih =>
    rw [ignoreBugFlags_cons, h f (List.mem_cons_self _ _)]
    exact ih fun g hg => h g (List.mem_cons_of_mem _ hg)

theorem ignoreBugFlags_first (pre : List Flag) (f : Flag) (post : List Flag)
    (hpre : ∀ g ∈ pre, outsideNeedinfo g = false) (hf : outsideNeedinfo f = true) :
    ignoreBugFlags (pre ++ f :: post) = (true, "needinfo:" ++ f.Requestee) := by
  induction pre with
  | nil => simp [ignoreBugFlags_cons, hf]
  | cons g rest ih =>
    rw [List.cons_append, ignoreBugFlags_cons, hpre g (List.mem_cons_self _ _)]
    exact ih fun g2 hg2 => hpre g2 (List.mem_cons_of_mem _ hg2)

theorem ignoreBug_of_not_low (bug : Bug) (h : bug.Severity ≠ "low") :
    ignoreBug bug = ignoreBugFlags bug.Flags := by
  simp [ignoreBug, h]

/-- C1: a bug of severity "low" is ignored with the reason "low", whatever
flags it carries. -/
theorem ignoreBug_low (bug : Bug) (h : bug.Severity = "low") :
    ignoreBug bug = (true, "low") := by
  simp [ignoreBug, h]

theorem ignoreBug_low_witness :
    ignoreBug ⟨103, "bob", "low", "NEW", [⟨"needinfo", "outsider"⟩, ⟨"needinfo", ""⟩]⟩
      = (true, "low") :=
  ignoreBug_low ⟨103, "bob", "low", "NEW", [⟨"needinfo", "outsider"⟩, ⟨"needinfo", ""⟩]⟩ rfl

/-- C2: when the severity is not "low" and some flag is a needinfo request to
somebody outside the team, the flags split as `pre ++ f :: post` where `f` is
the first such flag, and the bug is ignored with the reason "needinfo:"
followed by the requestee of `f`; the empty requestee is outside the team. -/
theorem ignoreBug_needinfo (bug : Bug) (hsev : bug.Severity ≠ "low")
    (hex : ∃ f ∈ bug.Flags, f.Name = "needinfo" ∧ f.Requestee ∉ team) :
    "" ∉ team ∧
    ∃ pre f post, bug.Flags = pre ++ f :: post ∧
      (∀ g ∈ pre, ¬ (g.Name = "needinfo" ∧ g.Requestee ∉ team)) ∧
      (f.Name = "needinfo" ∧ f.Requestee ∉ team) ∧
      ignoreBug bug = (true, "needinfo:" ++ f.Requestee) := by
  refine ⟨by decide, ?_⟩
  obtain ⟨f0, hf0, hq0⟩ := hex
  have hsome : (bug.Flags.find? outsideNeedinfo).isSome = true := by
    rw [List.find?_isSome]
    exact ⟨f0, hf0, (outsideNeedinfo_iff f0).2 hq0⟩
  obtain ⟨f, hfind⟩ := Option.isSome_iff_exists.1 hsome
  obtain ⟨hf, pre, post, hsplit, hpre⟩ := List.find?_eq_some.1 hfind
  have hpre2 : ∀ g ∈ pre, outsideNeedinfo g = false := by
    intro g hg
    simpa using hpre g hg
  refine ⟨pre, f, post, hsplit, ?_, (outsideNeedinfo_iff f).1 hf, ?_⟩
  · intro g hg hq
    have := (outsideNeedinfo_iff g).2 hq
    rw [hpre2 g hg] at this
    exact Bool.noConfusion this
  · rw [ignoreBug_of_not_low bug hsev, hsplit]
    exact ignoreBugFlags_first pre f post hpre2 hf

theorem ignoreBug_needinfo_witness :
    "" ∉ team ∧
    ∃ pre f post, needinfoBug.Flags = pre ++ f :: post ∧
      (∀ g ∈ pre, ¬ (g.Name = "needinfo" ∧ g.Requestee ∉ team)) ∧
      (f.Name = "needinfo" ∧ f.Requestee ∉ team) ∧
      ignoreBug needinfoBug = (true, "needinfo:" ++ f.Requestee) :=
  ignoreBug_needinfo needinfoBug (by decide)
    ⟨⟨"needinfo", "outsider1"⟩, by decide, by decide, by decide⟩

/-- C3: when the severity is not "low" and no flag is a needinfo request to
somebody outside the team, the bug is not ignored and the reason is empty. -/
theorem ignoreBug_active (bug : Bug) (hsev : bug.Severity ≠ "low")
    (hno : ∀ f ∈ bug.Flags, ¬ (f.Name = "needinfo" ∧ f.Requestee ∉ team)) :
    ignoreBug bug = (false, "") := by
  rw [ignoreBug_of_not_low bug hsev]
  apply ignoreBugFlags_none
  intro f hf
  cases h : outsideNeedinfo f
  · rfl
  · exact absurd ((outsideNeedinfo_iff f).1 h) (hno f hf)

theorem ignoreBug_active_witness :
    ignoreBug ⟨102, "bob", "medium", "NEW", [⟨"needinfo", "jsafrane"⟩, ⟨"review", "outsider"⟩]⟩
      = (false, "") :=
  ignoreBug_active ⟨102, "bob", "medium", "NEW", [⟨"needinfo", "jsafrane"⟩, ⟨"review", "outsider"⟩]⟩
    (by decide) (by decide)

/-! ## Properties of the comparator -/

theorem Less_of_not_ignored_of_ignored (a b : bugState) (ha : a.ignored = false)
    (hb : b.ignored = true) : bugStateArray.Less a b = true := by
  simp [bugStateArray.Less, ha, hb]

theorem not_Less_of_ignored_of_not_ignored (a b : bugState) (ha : a.ignored = true)
    (hb : b.ignored = false) : bugStateArray.Less a b = false := by
  simp [bugStateArray.Less, ha, hb]

theorem Less_same_ignored (a b : bugState) (h : a.ignored = b.ignored) :
    bugStateArray.Less a b =
      (decide (severityCode a.bug.Severity < severityCode b.bug.Severity) ||
        decide (a.bug.ID < b.bug.ID)) := by
  cases hb : b.ignored <;> simp [bugStateArray.Less, h, hb]

/-- C4: at the not ignored bugs 1 of severity "medium" and 2 of severity
"urgent", `Less` holds although the triple (ignored, rank, identifier) of the
first is not smaller than that of the second: when the rank of the first bug
is the larger one, `Less` goes on to compare the identifiers. -/
theorem Less_not_lexicographic :
    bugStateArray.Less (plainState 1 "alice" "medium") (plainState 2 "alice" "urgent") = true ∧
    specLess (plainState 1 "alice" "medium") (plainState 2 "alice" "urgent") = some false := by
  decide

/-- C5: `Less` is not transitive: it holds from bug 3 (urgent) to bug 1 (high)
and from bug 1 (high) to bug 2 (urgent), but not from bug 3 to bug 2. -/
theorem Less_not_transitive :
    bugStateArray.Less (plainState 3 "alice" "urgent") (plainState 1 "alice" "high") = true ∧
    bugStateArray.Less (plainState 1 "alice" "high") (plainState 2 "alice" "urgent") = true ∧
    bugStateArray.Less (plainState 3 "alice" "urgent") (plainState 2 "alice" "urgent") = false := by
  decide

/-- C6: `Less` is not asymmetric: between bug 2 (urgent) and bug 1 (high) it
holds in both directions. -/
theorem Less_not_asymmetric :
    bugStateArray.Less (plainState 2 "alice" "urgent") (plainState 1 "alice" "high") = true ∧
    bugStateArray.Less (plainState 1 "alice" "high") (plainState 2 "alice" "urgent") = true := by
  decide

/-- C7: a bug that is not ignored is `Less` than an ignored one and not the
other way round, whatever the severities and the identifiers. -/
theorem Less_ignored_last (a b : bugState) (ha : a.ignored = false) (hb : b.ignored = true) :
    bugStateArray.Less a b = true ∧ bugStateArray.Less b a = false :=
  ⟨Less_of_not_ignored_of_ignored a b ha hb, not_Less_of_ignored_of_not_ignored b a hb ha⟩

theorem Less_ignored_last_witness :
    bugStateArray.Less (plainState 9 "alice" "medium")
        ⟨⟨1, "alice", "urgent", "NEW", [⟨"needinfo", "joe"⟩]⟩, true, "needinfo:joe"⟩ = true ∧
      bugStateArray.Less ⟨⟨1, "alice", "urgent", "NEW", [⟨"needinfo", "joe"⟩]⟩, true, "needinfo:joe"⟩
        (plainState 9 "alice" "medium") = false :=
  Less_ignored_last (plainState 9 "alice" "medium")
    ⟨⟨1, "alice", "urgent", "NEW", [⟨"needinfo", "joe"⟩]⟩, true, "needinfo:joe"⟩ (by decide) rfl

/-- The parts of a strict total order that `Less` does have: it is
irreflexive, and of two bugs with different identifiers one is `Less` than the
other. -/
theorem Less_irrefl_total (a b : bugState) :
    bugStateArray.Less a a = false ∧
      (a.bug.ID ≠ b.bug.ID → bugStateArray.Less a b = true ∨ bugStateArray.Less b a = true) := by
  constructor
  · rw [Less_same_ignored a a rfl]; simp
  · intro hne
    cases ha : a.ignored <;> cases hb : b.ignored
    · rw [Less_same_ignored a b (by rw [ha, hb]), Less_same_ignored b a (by rw [ha, hb])]
      rcases lt_or_gt_of_ne hne with h | h <;> simp [h]
    · exact Or.inl (Less_of_not_ignored_of_ignored a b ha hb)
    · exact Or.inr (Less_of_not_ignored_of_ignored b a hb ha)
    · rw [Less_same_ignored a b (by rw [ha, hb]), Less_same_ignored b a (by rw [ha, hb])]
      rcases lt_or_gt_of_ne hne with h | h <;> simp [h]

/-- On two bugs of the same ignored status and the same rank `Less` is the
order of the identifiers, and a bug of smaller rank is `Less` than one of
larger rank. -/
theorem Less_of_spec (a b : bugState) (ra rb : Nat)
    (ha : specRank a.bug.Severity = some ra) (hb : specRank b.bug.Severity = some rb)
    (h : specLessRank a b ra rb = true) : bugStateArray.Less a b = true := by
  have hcode : ∀ (s : String) (r : Nat), specRank s = some r → severityCode s = (r : Int) := by
    intro s r hs
    unfold specRank at hs
    unfold severityCode
    split_ifs at hs ⊢ <;> simp_all <;> omega
  have hra := hcode _ _ ha
  have hrb := hcode _ _ hb
  cases hai : a.ignored <;> cases hbi : b.ignored <;>
    simp [specLessRank, hai, hbi] at h
  · rw [Less_same_ignored a b (by rw [hai, hbi]), hra, hrb]
    rcases h with h | ⟨_, h⟩
    · simp; left; exact_mod_cast h
    · simp [h]
  · exact Less_of_not_ignored_of_ignored a b hai hbi
  · rw [Less_same_ignored a b (by rw [hai, hbi]), hra, hrb]
    rcases h with h | ⟨_, h⟩
    · simp; left; exact_mod_cast h
    · simp [h]

/-! ## Properties of the sorting routine -/

/-! ## Swaps and comparisons on a slice -/

theorem perm_cons_set {α : Type} (t : List α) (j : Nat) (y h : α) (hj : t[j]? = some y) :
    (y :: t.set j h).Perm (h :: t) := by
  induction t generalizing j with
  | nil => simp at hj
  | cons c t ih =>
    cases j with
    | zero =>
      simp only [List.getElem?_cons_zero, Option.some.injEq] at hj
      subst hj
      simpa using List.Perm.swap h c t
    | succ j =>
      simp only [List.getElem?_cons_succ] at hj
      simp only [List.set_cons_succ]
      exact ((List.Perm.swap c y _).trans ((ih j hj).cons c)).trans (List.Perm.swap h c t)

theorem perm_set_set {α : Type} (l : List α) (i j : Nat) (x y : α) (hi : l[i]? = some x)
    (hj : l[j]? = some y) : ((l.set i y).set j x).Perm l := by
  induction l generalizing i j with
  | nil => simp at hi
  | cons h t ih =>
    cases i with
    | zero =>
      simp only [List.getElem?_cons_zero, Option.some.injEq] at hi
      subst hi
      cases j with
      | zero =>
        simp only [List.getElem?_cons_zero, Option.some.injEq] at hj
        subst hj
        simp
      | succ j =>
        simp only [List.getElem?_cons_succ] at hj
        simpa using perm_cons_set t j y h hj
    | succ i =>
      simp only [List.getElem?_cons_succ] at hi
      cases j with
      | zero =>
        simp only [List.getElem?_cons_zero, Option.some.injEq] at hj
        subst hj
        simpa using perm_cons_set t i x h hi
      | succ j =>
        simp only [List.getElem?_cons_succ] at hj
        simpa using (ih i j hi hj).cons h

theorem swapAt_perm {α : Type} (data : List α) (i j : Nat) : (swapAt data i j).Perm data := by
  unfold swapAt
  split
  · rename_i x y hx hy
    exact perm_set_set data i j x y hx hy
  · exact List.Perm.refl _

theorem length_swapAt {α : Type} (data : List α) (i j : Nat) :
    (swapAt data i j).length = data.length :=
  (swapAt_perm data i j).length_eq

theorem keyAt_swapAt {α K : Type} [Inhabited K] (key : α → K) (data : List α) (i j k : Nat)
    (hi : i < data.length) (hj : j < data.length) :
    keyAt key (swapAt data i j) k =
      if k = j then keyAt key data i else if k = i then keyAt key data j else keyAt key data k := by
  unfold swapAt keyAt
  rw [List.getElem?_eq_getElem hi, List.getElem?_eq_getElem hj]
  simp only [List.getElem?_set, List.length_set]
  by_cases hkj : k = j
  · subst hkj
    simp [hj]
  · have hjk : ¬ j = k := fun e => hkj e.symm
    by_cases hki : k = i
    · subst hki
      simp [hjk, hkj, hi]
    · have hik : ¬ i = k := fun e => hki e.symm
      simp [hjk, hik, hkj, hki]

theorem keyAt_le_of_lessAt {α K : Type} [LinearOrder K] [Inhabited K] {less : α → α → Bool}
    {key : α → K} (hko : KeyOrder less key) (data : List α) (i j : Nat)
    (h : lessAt less data i j = true) : keyAt key data i ≤ keyAt key data j := by
  unfold lessAt at h
  unfold keyAt
  split at h
  · rename_i x y hx hy
    simpa [hx, hy] using hko.le_of_less x y h
  · exact Bool.noConfusion h

theorem keyAt_le_of_not_lessAt {α K : Type} [LinearOrder K] [Inhabited K] {less : α → α → Bool}
    {key : α → K} (hko : KeyOrder less key) (data : List α) (i j : Nat)
    (hi : i < data.length) (hj : j < data.length)
    (h : lessAt less data i j = false) : keyAt key data j ≤ keyAt key data i := by
  unfold lessAt at h
  unfold keyAt
  rw [List.getElem?_eq_getElem hi, List.getElem?_eq_getElem hj] at h
  rw [List.getElem?_eq_getElem hi, List.getElem?_eq_getElem hj]
  simpa using hko.ge_of_not_less _ _ h

/-! ## Keys that are moved around -/

theorem Rearr.rearr_refl {K : Type} (f : Nat → K) (a b : Nat) : Rearr f f a b :=
  ⟨fun _ _ => rfl, fun k h1 h2 => ⟨k, h1, h2, rfl⟩⟩

theorem Rearr.rearr_trans {K : Type} {f g h : Nat → K} {a b : Nat} (h1 : Rearr f g a b)
    (h2 : Rearr g h a b) : Rearr f h a b := by
  refine ⟨fun k hk => (h2.1 k hk).trans (h1.1 k hk), fun k ha hb => ?_⟩
  obtain ⟨k2, ha2, hb2, e2⟩ := h2.2 k ha hb
  obtain ⟨k3, ha3, hb3, e3⟩ := h1.2 k2 ha2 hb2
  exact ⟨k3, ha3, hb3, e2.trans e3⟩

theorem Rearr.rearr_mono {K : Type} {f g : Nat → K} {a b a2 b2 : Nat} (h : Rearr f g a b)
    (ha : a2 ≤ a) (hb : b ≤ b2) : Rearr f g a2 b2 := by
  refine ⟨fun k hk => h.1 k (by omega), fun k hka hkb => ?_⟩
  by_cases hin : a ≤ k ∧ k < b
  · obtain ⟨k2, h1, h2, e⟩ := h.2 k hin.1 hin.2
    exact ⟨k2, by omega, by omega, e⟩
  · exact ⟨k, hka, hkb, h.1 k (by omega)⟩

theorem Rearr.of_eq {K : Type} {f g : Nat → K} (a b : Nat) (h : ∀ k, g k = f k) :
    Rearr f g a b :=
  ⟨fun k _ => h k, fun k h1 h2 => ⟨k, h1, h2, h k⟩⟩

/-- A bound on the keys of a range still holds after the keys were moved
around in the range. -/
theorem Rearr.forall_range {K : Type} {f g : Nat → K} {a b : Nat} (h : Rearr f g a b)
    (P : K → Prop) (hP : ∀ k, a ≤ k → k < b → P (f k)) : ∀ k, a ≤ k → k < b → P (g k) := by
  intro k ha hb
  obtain ⟨k2, h1, h2, e⟩ := h.2 k ha hb
  rw [e]
  exact hP k2 h1 h2

theorem Moves.moves_refl {α K : Type} [Inhabited K] (key : α → K) (a b : Nat) (data : List α) :
    Moves key a b data data :=
  ⟨List.Perm.refl _, Rearr.rearr_refl _ a b⟩

theorem Moves.moves_trans {α K : Type} [Inhabited K] {key : α → K} {a b : Nat} {d1 d2 d3 : List α}
    (h1 : Moves key a b d1 d2) (h2 : Moves key a b d2 d3) : Moves key a b d1 d3 :=
  ⟨h2.perm.trans h1.perm, h1.rearr.rearr_trans h2.rearr⟩

theorem Moves.moves_mono {α K : Type} [Inhabited K] {key : α → K} {a b a2 b2 : Nat} {d1 d2 : List α}
    (h : Moves key a b d1 d2) (ha : a2 ≤ a) (hb : b ≤ b2) : Moves key a2 b2 d1 d2 :=
  ⟨h.perm, h.rearr.rearr_mono ha hb⟩

theorem Moves.length_eq {α K : Type} [Inhabited K] {key : α → K} {a b : Nat} {d1 d2 : List α}
    (h : Moves key a b d1 d2) : d2.length = d1.length :=
  h.perm.length_eq

/-- A swap of two elements of the range moves the keys around in the range. -/
theorem Moves.moves_swap {α K : Type} [Inhabited K] (key : α → K) (a b : Nat) (data : List α)
    (i j : Nat) (hai : a ≤ i) (hib : i < b) (haj : a ≤ j) (hjb : j < b)
    (hb : b ≤ data.length) : Moves key a b data (swapAt data i j) := by
  have hi : i < data.length := by omega
  have hj : j < data.length := by omega
  refine ⟨swapAt_perm data i j, fun k hk => ?_, fun k hka hkb => ?_⟩
  · rw [keyAt_swapAt key data i j k hi hj]
    have h1 : ¬ k = j := by omega
    have h2 : ¬ k = i := by omega
    simp [h1, h2]
  · rw [keyAt_swapAt key data i j k hi hj]
    by_cases h1 : k = j
    · exact ⟨i, hai, hib, by simp [h1]⟩
    · by_cases h2 : k = i
      · subst h2
        exact ⟨j, haj, hjb, by simp [h1]⟩
      · exact ⟨k, hka, hkb, by simp [h1, h2]⟩

/-- A swap of two elements with the same key leaves the keys as they are. -/
theorem keyAt_swapAt_of_eq {α K : Type} [Inhabited K] (key : α → K) (data : List α) (i j : Nat)
    (h : keyAt key data i = keyAt key data j) (k : Nat) :
    keyAt key (swapAt data i j) k = keyAt key data k := by
  by_cases hi : i < data.length
  · by_cases hj : j < data.length
    · rw [keyAt_swapAt key data i j k hi hj]
      by_cases h1 : k = j
      · simp [h1, h]
      · by_cases h2 : k = i
        · subst h2
          simp [h1, h]
        · simp [h1, h2]
    · have : data[j]? = none := List.getElem?_eq_none (by omega)
      simp [swapAt, this]
  · have : data[i]? = none := List.getElem?_eq_none (by omega)
    simp [swapAt, this]

/-! ## The scanning loops -/

theorem scanUp_spec (p : Nat → Bool) (n i : Nat) :
    i ≤ scanUp p n i ∧ scanUp p n i ≤ i + n ∧
      (∀ k, i ≤ k → k < scanUp p n i → p k = true) ∧
      (scanUp p n i < i + n → p (scanUp p n i) = false) := by
  induction n generalizing i with
  | zero =>
    simp only [scanUp]
    exact ⟨le_refl _, by omega, fun k h1 h2 => by omega, fun h => by omega⟩
  | succ n ih =>
    unfold scanUp
    split
    · rename_i hp
      obtain ⟨h1, h2, h3, h4⟩ := ih (i + 1)
      refine ⟨by omega, by omega, fun k hk1 hk2 => ?_, fun h => h4 (by omega)⟩
      by_cases hki : k = i
      · rw [hki]; exact hp
      · exact h3 k (by omega) hk2
    · rename_i hp
      refine ⟨le_refl _, by omega, fun k hk1 hk2 => by omega, fun _ => by simpa using hp⟩

theorem scanDown_spec (p : Nat → Bool) (n j : Nat) (hn : n ≤ j) :
    scanDown p n j ≤ j ∧ j ≤ scanDown p n j + n ∧
      (∀ k, scanDown p n j < k → k ≤ j → p k = true) ∧
      (j < scanDown p n j + n → p (scanDown p n j) = false) := by
  induction n generalizing j with
  | zero =>
    simp only [scanDown]
    exact ⟨le_refl _, by omega, fun k h1 h2 => by omega, fun h => by omega⟩
  | succ n ih =>
    unfold scanDown
    split
    · rename_i hp
      obtain ⟨h1, h2, h3, h4⟩ := ih (j - 1) (by omega)
      refine ⟨by omega, by omega, fun k hk1 hk2 => ?_, fun h => h4 (by omega)⟩
      by_cases hkj : k = j
      · rw [hkj]; exact hp
      · exact h3 k hk1 (by omega)
    · rename_i hp
      refine ⟨le_refl _, by omega, fun k hk1 hk2 => by omega, fun _ => by simpa using hp⟩

/-! ## The insertion sort -/

theorem SortedOn.of_le_one {K : Type} [LinearOrder K] (f : Nat → K) (a b : Nat) (h : b ≤ a + 1) :
    SortedOn f a b := by
  intro i j hi hij hj
  have : i = j := by omega
  rw [this]

theorem SortedOn.sorted_mono {K : Type} [LinearOrder K] {f : Nat → K} {a b a2 b2 : Nat}
    (h : SortedOn f a b) (ha : a ≤ a2) (hb : b2 ≤ b) : SortedOn f a2 b2 :=
  fun i j hi hij hj => h i j (by omega) hij (by omega)

theorem SortedOn.congr {K : Type} [LinearOrder K] {f g : Nat → K} {a b : Nat}
    (h : SortedOn f a b) (hfg : ∀ k, a ≤ k → k < b → g k = f k) : SortedOn g a b := by
  intro i j hi hij hj
  rw [hfg i hi (by omega), hfg j (by omega) hj]
  exact h i j hi hij hj

/-- The inner loop of the insertion sort, started at the index `j` with the
keys from `s` up to `j` ascending and no key before `s` above the key at `j`:
the keys from `s` up to `j`, with `j`, ascend afterwards, and only they were
moved. The loop may run below `s`, down to `lo`, where it swaps equal keys. -/
theorem insertionSortInner_spec {α K : Type} [LinearOrder K] [Inhabited K]
    {less : α → α → Bool} {key : α → K} (hko : KeyOrder less key) (lo s : Nat) (hlos : lo ≤ s)
    (j : Nat) (data : List α) (hj : j < data.length)
    (h1 : ∀ i, lo ≤ i → i < s → i < j → keyAt key data i ≤ keyAt key data j)
    (h2 : SortedOn (keyAt key data) s j) :
    Moves key s (j + 1) data (insertionSortInner less lo j data) ∧
      SortedOn (keyAt key (insertionSortInner less lo j data)) s (j + 1) := by
  induction j generalizing data with
  | zero =>
    exact ⟨Moves.moves_refl key _ _ data, SortedOn.of_le_one _ _ _ (by omega)⟩
  | succ j ih =>
    unfold insertionSortInner
    split
    · rename_i hc
      simp only [Bool.and_eq_true, decide_eq_true_eq] at hc
      have hmp := keyAt_le_of_lessAt hko data (j + 1) j hc.2
      have hjl : j < data.length := by omega
      have hsw := keyAt_swapAt key data (j + 1) j
      by_cases hjs : j < s
      · -- the swap is below `s`: the two keys are equal
        have heq : keyAt key data (j + 1) = keyAt key data j :=
          le_antisymm hmp (h1 j (by omega) hjs (by omega))
        have hsame := keyAt_swapAt_of_eq key data (j + 1) j heq
        have hrec := ih (swapAt data (j + 1) j) (by rw [length_swapAt]; omega)
          (fun i hi1 hi2 hi3 => by
            rw [hsame i, hsame j, ← heq]
            exact h1 i hi1 hi2 (by omega))
          (fun i k hi hik hk => by omega)
        refine ⟨⟨hrec.1.perm.trans (swapAt_perm _ _ _), Rearr.of_eq _ _ fun k => ?_⟩,
          SortedOn.of_le_one _ _ _ (by omega)⟩
        rw [← hsame k]
        by_cases hk : s ≤ k ∧ k < j + 1
        · omega
        · exact hrec.1.rearr.1 k (by omega)
      · have hsj : s ≤ j := by omega
        have hrec := ih (swapAt data (j + 1) j) (by rw [length_swapAt]; omega)
          (fun i hi1 hi2 hi3 => by
            rw [hsw i hj hjl, hsw j hj hjl]
            have e1 : ¬ i = j := by omega
            have e2 : ¬ i = j + 1 := by omega
            simp only [e1, e2, if_false, if_true]
            exact h1 i hi1 hi2 (by omega))
          (fun i k hi hik hk => by
            rw [hsw i hj hjl, hsw k hj hjl]
            have e1 : ¬ i = j := by omega
            have e2 : ¬ i = j + 1 := by omega
            have e3 : ¬ k = j := by omega
            have e4 : ¬ k = j + 1 := by omega
            simp only [e1, e2, e3, e4, if_false]
            exact h2 i k hi hik (by omega))
        have hmv : Moves key s (j + 1 + 1) data (insertionSortInner less lo j
            (swapAt data (j + 1) j)) :=
          (Moves.moves_swap key s (j + 1 + 1) data (j + 1) j (by omega) (by omega) hsj (by omega)
            (by omega)).moves_trans (hrec.1.moves_mono (le_refl _) (by omega))
        refine ⟨hmv, fun i k hi hik hk => ?_⟩
        by_cases hkj : k ≤ j
        · exact hrec.2 i k hi hik (by omega)
        · have hk1 : k = j + 1 := by omega
          subst hk1
          have hlast : keyAt key (insertionSortInner less lo j (swapAt data (j + 1) j)) (j + 1) =
              keyAt key data j := by
            rw [hrec.1.rearr.1 (j + 1) (by omega), hsw (j + 1) hj hjl]
            simp
          by_cases hij : i = j + 1
          · rw [hij]
          · obtain ⟨k2, hk2a, hk2b, e⟩ := hrec.1.rearr.2 i hi (by omega)
            rw [hlast, e, hsw k2 hj hjl]
            by_cases hk2j : k2 = j
            · simp [hk2j, hmp]
            · have e2 : ¬ k2 = j + 1 := by omega
              simp only [hk2j, e2, if_false]
              exact h2 k2 j hk2a (by omega) (by omega)
    · rename_i hc
      refine ⟨Moves.moves_refl key _ _ data, fun i k hi hik hk => ?_⟩
      by_cases hkj : k ≤ j
      · exact h2 i k hi hik (by omega)
      · have hk1 : k = j + 1 := by omega
        subst hk1
        by_cases hij : i = j + 1
        · rw [hij]
        · have hsj : s ≤ j := by omega
          have hlf : lessAt less data (j + 1) j = false := by
            cases hl : lessAt less data (j + 1) j
            · rfl
            · exact absurd (by simp [hl]; omega) hc
          have hle := keyAt_le_of_not_lessAt hko data (j + 1) j hj (by omega) hlf
          exact le_trans (h2 i j hi (by omega) (by omega)) hle

theorem insertionSortOuter_spec {α K : Type} [LinearOrder K] [Inhabited K]
    {less : α → α → Bool} {key : α → K} (hko : KeyOrder less key) (a n i : Nat)
    (data : List α) (hai : a ≤ i) (hb : i + n ≤ data.length)
    (hs : SortedOn (keyAt key data) a i) :
    Moves key a (i + n) data (insertionSortOuter less a n i data) ∧
      SortedOn (keyAt key (insertionSortOuter less a n i data)) a (i + n) := by
  induction n generalizing i data with
  | zero => exact ⟨Moves.moves_refl key _ _ data, hs⟩
  | succ n ih =>
    unfold insertionSortOuter
    have hin := insertionSortInner_spec hko a a (le_refl _) i data (by omega)
      (fun k hk1 hk2 _ => by omega) hs
    have hrec := ih (i + 1) (insertionSortInner less a i data) (by omega)
      (by rw [hin.1.length_eq]; omega) hin.2
    have e : i + 1 + n = i + (n + 1) := by omega
    rw [e] at hrec
    exact ⟨(hin.1.moves_mono (le_refl _) (by omega)).moves_trans hrec.1, hrec.2⟩

/-- The insertion sort of the part of a slice from `a` up to `b`: the keys of
the part ascend afterwards and only they were moved. -/
theorem insertionSort_spec {α K : Type} [LinearOrder K] [Inhabited K]
    {less : α → α → Bool} {key : α → K} (hko : KeyOrder less key) (data : List α) (a b : Nat)
    (hb : b ≤ data.length) :
    Moves key a b data (insertionSort less data a b) ∧
      SortedOn (keyAt key (insertionSort less data a b)) a b := by
  unfold insertionSort
  by_cases hab : a + 1 ≤ b
  · have h := insertionSortOuter_spec hko a (b - (a + 1)) (a + 1) data (by omega) (by omega)
      (SortedOn.of_le_one _ _ _ (le_refl _))
    have e : a + 1 + (b - (a + 1)) = b := by omega
    rw [e] at h
    exact h
  · have e : b - (a + 1) = 0 := by omega
    rw [e]
    exact ⟨Moves.moves_refl key _ _ data, SortedOn.of_le_one _ _ _ (by omega)⟩

/-! ## The partition around a pivot -/

theorem partition_scan {α K : Type} [LinearOrder K] [Inhabited K]
    {less : α → α → Bool} {key : α → K} (hko : KeyOrder less key) (data : List α)
    (a b i j : Nat) (p : K) (hai : a < i) (hij : i ≤ j + 1) (hjb : j < b) (hb : b ≤ data.length)
    (hs : Split (keyAt key data) a i j b p) :
    a < scanUp (fun k => lessAt less data k a) (j + 1 - i) i ∧
      scanUp (fun k => lessAt less data k a) (j + 1 - i) i ≤
        scanDown (fun k => !lessAt less data k a)
          (j + 1 - scanUp (fun k => lessAt less data k a) (j + 1 - i) i) j + 1 ∧
      scanDown (fun k => !lessAt less data k a)
          (j + 1 - scanUp (fun k => lessAt less data k a) (j + 1 - i) i) j ≤ j ∧
      i ≤ scanUp (fun k => lessAt less data k a) (j + 1 - i) i ∧
      Split (keyAt key data) a (scanUp (fun k => lessAt less data k a) (j + 1 - i) i)
        (scanDown (fun k => !lessAt less data k a)
          (j + 1 - scanUp (fun k => lessAt less data k a) (j + 1 - i) i) j) b p ∧
      (scanUp (fun k => lessAt less data k a) (j + 1 - i) i ≤
          scanDown (fun k => !lessAt less data k a)
            (j + 1 - scanUp (fun k => lessAt less data k a) (j + 1 - i) i) j →
        scanUp (fun k => lessAt less data k a) (j + 1 - i) i <
            scanDown (fun k => !lessAt less data k a)
              (j + 1 - scanUp (fun k => lessAt less data k a) (j + 1 - i) i) j ∧
          p ≤ keyAt key data (scanUp (fun k => lessAt less data k a) (j + 1 - i) i) ∧
          keyAt key data (scanDown (fun k => !lessAt less data k a)
            (j + 1 - scanUp (fun k => lessAt less data k a) (j + 1 - i) i) j) ≤ p) := by
  obtain ⟨u1, u2, u3, u4⟩ := scanUp_spec (fun k => lessAt less data k a) (j + 1 - i) i
  generalize scanUp (fun k => lessAt less data k a) (j + 1 - i) i = i2 at u1 u2 u3 u4 ⊢
  obtain ⟨v1, v2, v3, v4⟩ := scanDown_spec (fun k => !lessAt less data k a) (j + 1 - i2) j
    (by omega)
  generalize scanDown (fun k => !lessAt less data k a) (j + 1 - i2) j = j2 at v1 v2 v3 v4 ⊢
  obtain ⟨hsa, hsl, hsr⟩ := hs
  refine ⟨by omega, by omega, v1, u1, ⟨hsa, fun k hk1 hk2 => ?_, fun k hk1 hk2 => ?_⟩,
    fun hle => ?_⟩
  · by_cases hki : k < i
    · exact hsl k hk1 hki
    · have := keyAt_le_of_lessAt hko data k a (u3 k (by omega) hk2)
      rwa [hsa] at this
  · by_cases hkj : j < k
    · exact hsr k hkj hk2
    · have hf : lessAt less data k a = false := by
        have := v3 k hk1 (by omega)
        simpa using this
      have := keyAt_le_of_not_lessAt hko data k a (by omega) (by omega) hf
      rwa [hsa] at this
  · have hu : lessAt less data i2 a = false := u4 (by omega)
    have hv : lessAt less data j2 a = true := by
      have := v4 (by omega)
      simpa using this
    have hne : i2 ≠ j2 := by
      intro e
      rw [e, hv] at hu
      exact Bool.noConfusion hu
    have h1 := keyAt_le_of_not_lessAt hko data i2 a (by omega) (by omega) hu
    have h2 := keyAt_le_of_lessAt hko data j2 a hv
    rw [hsa] at h1 h2
    exact ⟨by omega, h1, h2⟩

theorem Split.split_swap {α K : Type} [LinearOrder K] [Inhabited K] {key : α → K} (data : List α)
    (a b i j : Nat) (p : K) (hai : a < i) (hij : i < j) (hjb : j < b) (hb : b ≤ data.length)
    (hs : Split (keyAt key data) a i j b p) (hi : p ≤ keyAt key data i)
    (hj : keyAt key data j ≤ p) :
    Split (keyAt key (swapAt data i j)) a (i + 1) (j - 1) b p := by
  have hsw := fun k => keyAt_swapAt key data i j k (by omega) (by omega)
  obtain ⟨hsa, hsl, hsr⟩ := hs
  refine ⟨?_, fun k hk1 hk2 => ?_, fun k hk1 hk2 => ?_⟩
  · rw [hsw]
    have e1 : ¬ a = j := by omega
    have e2 : ¬ a = i := by omega
    simp only [e1, e2, if_false]
    exact hsa
  · rw [hsw]
    have e1 : ¬ k = j := by omega
    by_cases e2 : k = i
    · subst e2
      simp only [e1, if_false, if_true]
      exact hj
    · simp only [e1, e2, if_false]
      exact hsl k hk1 (by omega)
  · rw [hsw]
    by_cases e1 : k = j
    · simp only [e1, if_true]
      exact hi
    · have e2 : ¬ k = i := by omega
      simp only [e1, e2, if_false]
      exact hsr k (by omega) hk2

/-- The main loop of `partition` ends with the keys up to the index it returns
not above the pivot key and the keys behind it not below, and moves only the
keys after `a`. -/
theorem partitionLoop_spec {α K : Type} [LinearOrder K] [Inhabited K]
    {less : α → α → Bool} {key : α → K} (hko : KeyOrder less key) (a b : Nat) (p : K)
    (fuel : Nat) (data : List α) (i j : Nat) (hfuel : j + 1 - i < fuel)
    (hai : a < i) (hij : i ≤ j + 1) (hjb : j < b) (hb : b ≤ data.length)
    (hs : Split (keyAt key data) a i j b p) :
    Moves key (a + 1) b data (partitionLoop less a fuel data i j).1 ∧
      a ≤ (partitionLoop less a fuel data i j).2 ∧ (partitionLoop less a fuel data i j).2 < b ∧
      Split (keyAt key (partitionLoop less a fuel data i j).1) a
        ((partitionLoop less a fuel data i j).2 + 1) (partitionLoop less a fuel data i j).2 b p := by
  induction fuel generalizing data i j with
  | zero => omega
  | succ fuel ih =>
    obtain ⟨s1, s2, s3, s4, s5, s6⟩ := partition_scan hko data a b i j p hai hij hjb hb hs
    unfold partitionLoop
    simp only
    generalize scanUp (fun k => lessAt less data k a) (j + 1 - i) i = i2 at s1 s2 s3 s4 s5 s6 ⊢
    generalize scanDown (fun k => !lessAt less data k a) (j + 1 - i2) j = j2
      at s1 s2 s3 s4 s5 s6 ⊢
    split
    · rename_i hlt
      refine ⟨Moves.moves_refl key _ _ data, by omega, by omega, ?_⟩
      have e : j2 + 1 = i2 := by omega
      rw [e]
      exact s5
    · rename_i hlt
      obtain ⟨t1, t2, t3⟩ := s6 (by omega)
      have hsp := Split.split_swap data a b i2 j2 p s1 t1 (by omega) hb s5 t2 t3
      have hrec := ih (swapAt data i2 j2) (i2 + 1) (j2 - 1) (by omega) (by omega) (by omega)
        (by omega) (by rw [length_swapAt]; exact hb) hsp
      refine ⟨(Moves.moves_swap key (a + 1) b data i2 j2 (by omega) (by omega) (by omega) (by omega)
        hb).moves_trans hrec.1, hrec.2.1, hrec.2.2.1, hrec.2.2.2⟩

/-- The last swap of `partition` puts the pivot at the index `j`. -/
theorem Split.finish {α K : Type} [LinearOrder K] [Inhabited K] {key : α → K} (data : List α)
    (a b j : Nat) (p : K) (haj : a ≤ j) (hjb : j < b) (hb : b ≤ data.length)
    (hs : Split (keyAt key data) a (j + 1) j b p) :
    Moves key a b data (swapAt data j a) ∧
      (∀ k, a ≤ k → k < j → keyAt key (swapAt data j a) k ≤ keyAt key (swapAt data j a) j) ∧
      (∀ k, j < k → k < b → keyAt key (swapAt data j a) j ≤ keyAt key (swapAt data j a) k) := by
  have hsw := fun k => keyAt_swapAt key data j a k (by omega) (by omega)
  obtain ⟨hsa, hsl, hsr⟩ := hs
  have hjp : keyAt key (swapAt data j a) j = p := by
    rw [hsw]
    by_cases e : j = a
    · simp only [e, if_true]
      rw [← e]
      by_cases e2 : j = a
      · rw [e2]; exact hsa
      · exact absurd e e2
    · simp only [e, if_false, if_true]
      exact hsa
  refine ⟨Moves.moves_swap key a b data j a haj hjb (le_refl _) (by omega) hb, fun k hk1 hk2 => ?_,
    fun k hk1 hk2 => ?_⟩
  · rw [hjp, hsw]
    by_cases e1 : k = a
    · simp only [e1, if_true]
      exact hsl j (by omega) (by omega)
    · have e2 : ¬ k = j := by omega
      simp only [e1, e2, if_false]
      exact hsl k (by omega) (by omega)
  · rw [hjp, hsw]
    have e1 : ¬ k = a := by omega
    have e2 : ¬ k = j := by omega
    simp only [e1, e2, if_false]
    exact hsr k hk1 hk2

/-- The function `partition`: the index it returns is in the range, the keys
before it are not above the key at it, the keys behind it are not below, and
only the keys of the range were moved. -/
theorem partition_spec {α K : Type} [LinearOrder K] [Inhabited K]
    {less : α → α → Bool} {key : α → K} (hko : KeyOrder less key) (data : List α)
    (a b pivot : Nat) (hap : a ≤ pivot) (hpb : pivot < b) (hb : b ≤ data.length) :
    Moves key a b data (partition less data a b pivot).1 ∧
      a ≤ (partition less data a b pivot).2.1 ∧ (partition less data a b pivot).2.1 < b ∧
      (∀ k, a ≤ k → k < (partition less data a b pivot).2.1 →
        keyAt key (partition less data a b pivot).1 k ≤
          keyAt key (partition less data a b pivot).1 (partition less data a b pivot).2.1) ∧
      (∀ k, (partition less data a b pivot).2.1 < k → k < b →
        keyAt key (partition less data a b pivot).1 (partition less data a b pivot).2.1 ≤
          keyAt key (partition less data a b pivot).1 k) := by
  have hm0 : Moves key a b data (swapAt data a pivot) :=
    Moves.moves_swap key a b data a pivot (le_refl _) (by omega) hap hpb hb
  have hb0 : b ≤ (swapAt data a pivot).length := by rw [length_swapAt]; exact hb
  have hs0 : Split (keyAt key (swapAt data a pivot)) a (a + 1) (b - 1) b
      (keyAt key (swapAt data a pivot) a) :=
    ⟨rfl, fun k h1 h2 => by omega, fun k h1 h2 => by omega⟩
  obtain ⟨s1, s2, s3, s4, s5, s6⟩ := partition_scan hko (swapAt data a pivot) a b (a + 1) (b - 1)
    _ (by omega) (by omega) (by omega) hb0 hs0
  unfold partition
  simp only
  generalize swapAt data a pivot = d0 at hm0 hb0 hs0 s1 s2 s3 s4 s5 s6 ⊢
  generalize scanUp (fun k => lessAt less d0 k a) (b - 1 + 1 - (a + 1)) (a + 1) = i2
    at s1 s2 s3 s4 s5 s6 ⊢
  generalize scanDown (fun k => !lessAt less d0 k a) (b - 1 + 1 - i2) (b - 1) = j2
    at s1 s2 s3 s4 s5 s6 ⊢
  split
  · rename_i hlt
    have e : j2 + 1 = i2 := by omega
    rw [← e] at s5
    obtain ⟨f1, f2, f3⟩ := Split.finish d0 a b j2 _ (by omega) (by omega) hb0 s5
    exact ⟨hm0.moves_trans f1, by dsimp only; omega, by dsimp only; omega, f2, f3⟩
  · rename_i hlt
    obtain ⟨t1, t2, t3⟩ := s6 (by omega)
    have hsp := Split.split_swap d0 a b i2 j2 _ s1 t1 (by omega) hb0 s5 t2 t3
    have hb1 : b ≤ (swapAt d0 i2 j2).length := by rw [length_swapAt]; exact hb0
    obtain ⟨l1, l2, l3, l4⟩ := partitionLoop_spec hko a b _ (j2 + 1 - i2) (swapAt d0 i2 j2)
      (i2 + 1) (j2 - 1) (by omega) (by omega) (by omega) (by omega) hb1 hsp
    have hm1 : Moves key a b d0 (swapAt d0 i2 j2) :=
      Moves.moves_swap key a b d0 i2 j2 (by omega) (by omega) (by omega) (by omega) hb0
    generalize partitionLoop less a (j2 + 1 - i2) (swapAt d0 i2 j2) (i2 + 1) (j2 - 1) = r
      at l1 l2 l3 l4 ⊢
    have hbr : b ≤ r.1.length := by rw [l1.length_eq]; exact hb1
    obtain ⟨f1, f2, f3⟩ := Split.finish r.1 a b r.2 _ l2 l3 hbr l4
    exact ⟨((hm0.moves_trans hm1).moves_trans (l1.moves_mono (by omega) (le_refl _))).moves_trans f1, l2, l3, f2, f3⟩

/-! ## The partition into keys equal to the pivot and keys above it -/

theorem partitionEqual_scan {α K : Type} [LinearOrder K] [Inhabited K]
    {less : α → α → Bool} {key : α → K} (hko : KeyOrder less key) (data : List α)
    (a b i j : Nat) (p : K) (hai : a < i) (hij : i ≤ j + 1) (hjb : j < b) (hb : b ≤ data.length)
    (hs : Split (keyAt key data) a i j b p) :
    a < scanUp (fun k => !lessAt less data a k) (j + 1 - i) i ∧
      scanUp (fun k => !lessAt less data a k) (j + 1 - i) i ≤
        scanDown (fun k => lessAt less data a k)
          (j + 1 - scanUp (fun k => !lessAt less data a k) (j + 1 - i) i) j + 1 ∧
      scanDown (fun k => lessAt less data a k)
          (j + 1 - scanUp (fun k => !lessAt less data a k) (j + 1 - i) i) j ≤ j ∧
      i ≤ scanUp (fun k => !lessAt less data a k) (j + 1 - i) i ∧
      Split (keyAt key data) a (scanUp (fun k => !lessAt less data a k) (j + 1 - i) i)
        (scanDown (fun k => lessAt less data a k)
          (j + 1 - scanUp (fun k => !lessAt less data a k) (j + 1 - i) i) j) b p ∧
      (scanUp (fun k => !lessAt less data a k) (j + 1 - i) i ≤
          scanDown (fun k => lessAt less data a k)
            (j + 1 - scanUp (fun k => !lessAt less data a k) (j + 1 - i) i) j →
        scanUp (fun k => !lessAt less data a k) (j + 1 - i) i <
            scanDown (fun k => lessAt less data a k)
              (j + 1 - scanUp (fun k => !lessAt less data a k) (j + 1 - i) i) j ∧
          p ≤ keyAt key data (scanUp (fun k => !lessAt less data a k) (j + 1 - i) i) ∧
          keyAt key data (scanDown (fun k => lessAt less data a k)
            (j + 1 - scanUp (fun k => !lessAt less data a k) (j + 1 - i) i) j) ≤ p) := by
  obtain ⟨u1, u2, u3, u4⟩ := scanUp_spec (fun k => !lessAt less data a k) (j + 1 - i) i
  generalize scanUp (fun k => !lessAt less data a k) (j + 1 - i) i = i2 at u1 u2 u3 u4 ⊢
  obtain ⟨v1, v2, v3, v4⟩ := scanDown_spec (fun k => lessAt less data a k) (j + 1 - i2) j
    (by omega)
  generalize scanDown (fun k => lessAt less data a k) (j + 1 - i2) j = j2 at v1 v2 v3 v4 ⊢
  obtain ⟨hsa, hsl, hsr⟩ := hs
  refine ⟨by omega, by omega, v1, u1, ⟨hsa, fun k hk1 hk2 => ?_, fun k hk1 hk2 => ?_⟩,
    fun hle => ?_⟩
  · by_cases hki : k < i
    · exact hsl k hk1 hki
    · have hf : lessAt less data a k = false := by
        have := u3 k (by omega) hk2
        simpa using this
      have := keyAt_le_of_not_lessAt hko data a k (by omega) (by omega) hf
      rwa [hsa] at this
  · by_cases hkj : j < k
    · exact hsr k hkj hk2
    · have := keyAt_le_of_lessAt hko data a k (v3 k hk1 (by omega))
      rwa [hsa] at this
  · have hu : lessAt less data a i2 = true := by
      have := u4 (by omega)
      simpa using this
    have hv : lessAt less data a j2 = false := v4 (by omega)
    have hne : i2 ≠ j2 := by
      intro e
      rw [e, hv] at hu
      exact Bool.noConfusion hu
    have h1 := keyAt_le_of_lessAt hko data a i2 hu
    have h2 := keyAt_le_of_not_lessAt hko data a j2 (by omega) (by omega) hv
    rw [hsa] at h1 h2
    exact ⟨by omega, h1, h2⟩

theorem partitionEqualLoop_spec {α K : Type} [LinearOrder K] [Inhabited K]
    {less : α → α → Bool} {key : α → K} (hko : KeyOrder less key) (a b : Nat) (p : K)
    (fuel : Nat) (data : List α) (i j : Nat) (hfuel : j + 1 - i < fuel)
    (hai : a < i) (hij : i ≤ j + 1) (hjb : j < b) (hb : b ≤ data.length)
    (hs : Split (keyAt key data) a i j b p) :
    Moves key (a + 1) b data (partitionEqualLoop less a fuel data i j).1 ∧
      a < (partitionEqualLoop less a fuel data i j).2 ∧
      (partitionEqualLoop less a fuel data i j).2 ≤ b ∧
      Split (keyAt key (partitionEqualLoop less a fuel data i j).1) a
        (partitionEqualLoop less a fuel data i j).2
        ((partitionEqualLoop less a fuel data i j).2 - 1) b p := by
  induction fuel generalizing data i j with
  | zero => omega
  | succ fuel ih =>
    obtain ⟨s1, s2, s3, s4, s5, s6⟩ := partitionEqual_scan hko data a b i j p hai hij hjb hb hs
    unfold partitionEqualLoop
    simp only
    generalize scanUp (fun k => !lessAt less data a k) (j + 1 - i) i = i2
      at s1 s2 s3 s4 s5 s6 ⊢
    generalize scanDown (fun k => lessAt less data a k) (j + 1 - i2) j = j2
      at s1 s2 s3 s4 s5 s6 ⊢
    split
    · rename_i hlt
      refine ⟨Moves.moves_refl key _ _ data, by dsimp only; omega, by dsimp only; omega, ?_⟩
      have e : i2 - 1 = j2 := by omega
      dsimp only
      rw [e]
      exact s5
    · rename_i hlt
      obtain ⟨t1, t2, t3⟩ := s6 (by omega)
      have hsp := Split.split_swap data a b i2 j2 p s1 t1 (by omega) hb s5 t2 t3
      have hrec := ih (swapAt data i2 j2) (i2 + 1) (j2 - 1) (by omega) (by omega) (by omega)
        (by omega) (by rw [length_swapAt]; exact hb) hsp
      refine ⟨(Moves.moves_swap key (a + 1) b data i2 j2 (by omega) (by omega) (by omega) (by omega)
        hb).moves_trans hrec.1, hrec.2.1, hrec.2.2.1, hrec.2.2.2⟩

/-- The function `partitionEqual`: the index it returns is behind `a`, the
keys before it are not above the key of the pivot, the keys from it on are
not below, and only the keys of the range were moved. -/
theorem partitionEqual_spec {α K : Type} [LinearOrder K] [Inhabited K]
    {less : α → α → Bool} {key : α → K} (hko : KeyOrder less key) (data : List α)
    (a b pivot : Nat) (hap : a ≤ pivot) (hpb : pivot < b) (hb : b ≤ data.length) :
    Moves key a b data (partitionEqual less data a b pivot).1 ∧
      a < (partitionEqual less data a b pivot).2 ∧ (partitionEqual less data a b pivot).2 ≤ b ∧
      (∀ k, a ≤ k → k < (partitionEqual less data a b pivot).2 →
        keyAt key (partitionEqual less data a b pivot).1 k ≤ keyAt key data pivot) ∧
      (∀ k, (partitionEqual less data a b pivot).2 ≤ k → k < b →
        keyAt key data pivot ≤ keyAt key (partitionEqual less data a b pivot).1 k) := by
  have hm0 : Moves key a b data (swapAt data a pivot) :=
    Moves.moves_swap key a b data a pivot (le_refl _) (by omega) hap hpb hb
  have hb0 : b ≤ (swapAt data a pivot).length := by rw [length_swapAt]; exact hb
  have hp0 : keyAt key (swapAt data a pivot) a = keyAt key data pivot := by
    rw [keyAt_swapAt key data a pivot a (by omega) (by omega)]
    by_cases e : a = pivot
    · simp [e]
    · simp [e]
  have hs0 : Split (keyAt key (swapAt data a pivot)) a (a + 1) (b - 1) b
      (keyAt key data pivot) :=
    ⟨hp0, fun k h1 h2 => by omega, fun k h1 h2 => by omega⟩
  obtain ⟨l1, l2, l3, l4, l5, l6⟩ := partitionEqualLoop_spec hko a b _ (b - a + 1)
    (swapAt data a pivot) (a + 1) (b - 1) (by omega) (by omega) (by omega) (by omega) hb0 hs0
  unfold partitionEqual
  simp only
  generalize partitionEqualLoop less a (b - a + 1) (swapAt data a pivot) (a + 1) (b - 1) = r
    at l1 l2 l3 l4 l5 l6 ⊢
  refine ⟨hm0.moves_trans (l1.moves_mono (by omega) (le_refl _)), l2, l3, fun k hk1 hk2 => ?_,
    fun k hk1 hk2 => l6 k (by omega) hk2⟩
  by_cases e : k = a
  · rw [e, l4]
  · exact l5 k (by omega) hk2

/-! ## The partial insertion sort -/

theorem LeftBelow.of_rearr {K : Type} [LinearOrder K] {f g : Nat → K} {a b : Nat}
    (h : LeftBelow f a b) (hr : Rearr f g a b) : LeftBelow g a b := by
  intro i k hi hk1 hk2
  obtain ⟨k2, h1, h2, e⟩ := hr.2 k hk1 hk2
  rw [hr.1 i (by omega), e]
  exact h i k2 hi h1 h2

theorem SortedOn.extend {K : Type} [LinearOrder K] {f : Nat → K} {a i : Nat} (i2 : Nat)
    (h : SortedOn f a i)
    (hstep : ∀ k, i ≤ k → k < i2 → f (k - 1) ≤ f k) : SortedOn f a i2 := by
  have key : ∀ y x, a ≤ x → x ≤ y → y < i2 → f x ≤ f y := by
    intro y
    induction y with
    | zero =>
      intro x hx hxy hy
      have : x = 0 := by omega
      rw [this]
    | succ y ih =>
      intro x hx hxy hy
      by_cases hyi : y + 1 < i
      · exact h x (y + 1) hx hxy hyi
      · by_cases hxe : x = y + 1
        · rw [hxe]
        · have h1 := ih x hx (by omega) (by omega)
          have h2 := hstep (y + 1) (by omega) hy
          simp only [Nat.add_sub_cancel] at h2
          exact le_trans h1 h2
  exact fun x y hx hxy hy => key y x hx hxy hy

theorem shiftRight_moves {α K : Type} [Inhabited K] (less : α → α → Bool) (key : α → K)
    (i b n j : Nat) (data : List α) (hij : i < j) (hjn : j + n ≤ b) (hb : b ≤ data.length) :
    Moves key i b data (shiftRight less n j data) := by
  induction n generalizing j data with
  | zero => exact Moves.moves_refl key _ _ data
  | succ n ih =>
    unfold shiftRight
    split
    · exact Moves.moves_refl key _ _ data
    · exact (Moves.moves_swap key i b data j (j - 1) (by omega) (by omega) (by omega) (by omega)
        hb).moves_trans (ih (j + 1) _ (by omega) (by omega) (by rw [length_swapAt]; exact hb))

theorem partialInsertionSortLoop_spec {α K : Type} [LinearOrder K] [Inhabited K]
    {less : α → α → Bool} {key : α → K} (hko : KeyOrder less key) (a b steps i : Nat)
    (data : List α) (hai : a < i) (hib : i ≤ b) (hb : b ≤ data.length)
    (hs : SortedOn (keyAt key data) a i) (hl : LeftBelow (keyAt key data) a b) :
    Moves key a b data (partialInsertionSortLoop less a b steps i data).1 ∧
      ((partialInsertionSortLoop less a b steps i data).2 = true →
        SortedOn (keyAt key (partialInsertionSortLoop less a b steps i data).1) a b) := by
  induction steps generalizing i data with
  | zero =>
    exact ⟨Moves.moves_refl key _ _ data, fun h => Bool.noConfusion h⟩
  | succ steps ih =>
    obtain ⟨u1, u2, u3, u4⟩ := scanUp_spec (fun k => !lessAt less data k (k - 1)) (b - i) i
    unfold partialInsertionSortLoop
    simp only
    generalize scanUp (fun k => !lessAt less data k (k - 1)) (b - i) i = i2 at u1 u2 u3 u4 ⊢
    have hs2 : SortedOn (keyAt key data) a i2 := by
      refine SortedOn.extend i2 hs fun k hk1 hk2 => ?_
      have hf : lessAt less data k (k - 1) = false := by
        have := u3 k hk1 hk2
        simpa using this
      exact keyAt_le_of_not_lessAt hko data k (k - 1) (by omega) (by omega) hf
    split
    · rename_i he
      refine ⟨Moves.moves_refl key _ _ data, fun _ => ?_⟩
      dsimp only
      rw [← he]
      exact hs2
    · rename_i he
      split
      · exact ⟨Moves.moves_refl key _ _ data, fun h => Bool.noConfusion h⟩
      · have hi2b : i2 < b := by omega
        have ht : lessAt less data i2 (i2 - 1) = true := by
          have := u4 (by omega)
          simpa using this
        have hmM := keyAt_le_of_lessAt hko data i2 (i2 - 1) ht
        have hsw := fun k => keyAt_swapAt key data i2 (i2 - 1) k (by omega) (by omega)
        have hm1 : Moves key a b data (swapAt data i2 (i2 - 1)) :=
          Moves.moves_swap key a b data i2 (i2 - 1) (by omega) hi2b (by omega) (by omega) hb
        have hb1 : b ≤ (swapAt data i2 (i2 - 1)).length := by rw [length_swapAt]; exact hb
        -- the shift of the smaller element to the left
        have hleft : Moves key a i2 (swapAt data i2 (i2 - 1))
              (if 2 ≤ i2 - a then insertionSortInner less 0 (i2 - 1) (swapAt data i2 (i2 - 1))
                else swapAt data i2 (i2 - 1)) ∧
            SortedOn (keyAt key
              (if 2 ≤ i2 - a then insertionSortInner less 0 (i2 - 1) (swapAt data i2 (i2 - 1))
                else swapAt data i2 (i2 - 1))) a i2 := by
          split
          · have hin := insertionSortInner_spec hko 0 a (Nat.zero_le _) (i2 - 1)
              (swapAt data i2 (i2 - 1)) (by omega)
              (fun k hk1 hk2 hk3 => by
                rw [hsw k, hsw (i2 - 1)]
                have e1 : ¬ k = i2 - 1 := by omega
                have e2 : ¬ k = i2 := by omega
                simp only [e1, e2, if_false, if_true]
                exact hl k i2 hk2 (by omega) hi2b)
              (fun x y hx hxy hy => by
                rw [hsw x, hsw y]
                have e1 : ¬ x = i2 - 1 := by omega
                have e2 : ¬ x = i2 := by omega
                have e3 : ¬ y = i2 - 1 := by omega
                have e4 : ¬ y = i2 := by omega
                simp only [e1, e2, e3, e4, if_false]
                exact hs2 x y hx hxy (by omega))
            have e : i2 - 1 + 1 = i2 := by omega
            rw [e] at hin
            exact hin
          · exact ⟨Moves.moves_refl key _ _ _, SortedOn.of_le_one _ _ _ (by omega)⟩
        generalize (if 2 ≤ i2 - a then insertionSortInner less 0 (i2 - 1) (swapAt data i2 (i2 - 1))
          else swapAt data i2 (i2 - 1)) = d2 at hleft ⊢
        have hb2 : b ≤ d2.length := by rw [hleft.1.length_eq]; exact hb1
        -- the shift of the greater element to the right
        have hright : Moves key i2 b d2
            (if 2 ≤ b - i2 then shiftRight less (b - (i2 + 1)) (i2 + 1) d2 else d2) := by
          split
          · exact shiftRight_moves less key i2 b _ _ d2 (by omega) (by omega) hb2
          · exact Moves.moves_refl key _ _ _
        generalize (if 2 ≤ b - i2 then shiftRight less (b - (i2 + 1)) (i2 + 1) d2 else d2) = d3
          at hright ⊢
        have hm3 : Moves key a b data d3 :=
          (hm1.moves_trans (hleft.1.moves_mono (le_refl _) (by omega))).moves_trans
            (hright.moves_mono (by omega) (le_refl _))
        have hs3 : SortedOn (keyAt key d3) a i2 :=
          hleft.2.congr fun k _ hk2 => hright.rearr.1 k (by omega)
        have hrec := ih i2 d3 (by omega) (by omega) (by rw [hm3.length_eq]; exact hb) hs3
          (hl.of_rearr hm3.rearr)
        exact ⟨hm3.moves_trans hrec.1, hrec.2⟩

/-- The function `partialInsertionSort`: only the keys of the range are moved,
and when it returns true the keys of the range ascend. -/
theorem partialInsertionSort_spec {α K : Type} [LinearOrder K] [Inhabited K]
    {less : α → α → Bool} {key : α → K} (hko : KeyOrder less key) (data : List α) (a b : Nat)
    (hab : a < b) (hb : b ≤ data.length) (hl : LeftBelow (keyAt key data) a b) :
    Moves key a b data (partialInsertionSort less data a b).1 ∧
      ((partialInsertionSort less data a b).2 = true →
        SortedOn (keyAt key (partialInsertionSort less data a b).1) a b) :=
  partialInsertionSortLoop_spec hko a b 5 (a + 1) data (by omega) (by omega) hb
    (SortedOn.of_le_one _ _ _ (le_refl _)) hl

/-! ## The heap sort -/

theorem siftDownLoop_spec {α K : Type} [LinearOrder K] [Inhabited K]
    {less : α → α → Bool} {key : α → K} (hko : KeyOrder less key) (hi first lo : Nat)
    (fuel root : Nat) (data : List α) (hlo : lo ≤ root) (hfuel : hi ≤ fuel + root)
    (hlen : first + hi ≤ data.length) (hinv : SiftInv (keyAt key data) first lo hi root) :
    Moves key (first + lo) (first + hi) data (siftDownLoop less hi first fuel root data) ∧
      HeapOn (keyAt key (siftDownLoop less hi first fuel root data)) first lo hi := by
  induction fuel generalizing root data with
  | zero =>
    refine ⟨Moves.moves_refl key _ _ data, fun r c hr hc hrc => ?_⟩
    exact hinv.1 r c hr (by omega) hc hrc
  | succ fuel ih =>
    unfold siftDownLoop
    simp only
    split
    · rename_i hch
      refine ⟨Moves.moves_refl key _ _ data, fun r c hr hc hrc => ?_⟩
      exact hinv.1 r c hr (by omega) hc hrc
    · rename_i hch
      -- the child with the greater key
      have hc0 : ∃ c0, c0 = (if 2 * root + 1 + 1 < hi &&
            lessAt less data (first + (2 * root + 1)) (first + (2 * root + 1) + 1) then
            2 * root + 1 + 1 else 2 * root + 1) ∧
          c0 < hi ∧ (c0 = 2 * root + 1 ∨ c0 = 2 * root + 2) ∧
          ∀ c, c < hi → (c = 2 * root + 1 ∨ c = 2 * root + 2) →
            keyAt key data (first + c) ≤ keyAt key data (first + c0) := by
        refine ⟨_, rfl, ?_⟩
        split
        · rename_i hcond
          simp only [Bool.and_eq_true, decide_eq_true_eq] at hcond
          refine ⟨hcond.1, Or.inr rfl, fun c hc hcc => ?_⟩
          rcases hcc with e | e
          · rw [e]
            exact keyAt_le_of_lessAt hko data _ _ hcond.2
          · rw [e]
        · rename_i hcond
          refine ⟨by omega, Or.inl rfl, fun c hc hcc => ?_⟩
          rcases hcc with e | e
          · rw [e]
          · rw [e]
            have h2 : 2 * root + 1 + 1 < hi := by omega
            have hf : lessAt less data (first + (2 * root + 1)) (first + (2 * root + 1) + 1)
                = false := by
              cases hl : lessAt less data (first + (2 * root + 1)) (first + (2 * root + 1) + 1)
              · rfl
              · exact absurd (by simp [hl, h2]) hcond
            exact keyAt_le_of_not_lessAt hko data _ _ (by omega) (by omega) hf
      obtain ⟨c0, hc0e, hc0hi, hc0c, hc0max⟩ := hc0
      rw [← hc0e]
      split
      · rename_i hnl
        have hf : lessAt less data (first + root) (first + c0) = false := by
          simpa using hnl
        have hle := keyAt_le_of_not_lessAt hko data _ _ (by omega) (by omega) hf
        refine ⟨Moves.moves_refl key _ _ data, fun r c hr hc hrc => ?_⟩
        by_cases hrr : r = root
        · subst hrr
          exact le_trans (hc0max c hc hrc) hle
        · exact hinv.1 r c hr hrr hc hrc
      · rename_i hnl
        have ht : lessAt less data (first + root) (first + c0) = true := by
          simpa using hnl
        have hvw := keyAt_le_of_lessAt hko data _ _ ht
        have hsw := fun k => keyAt_swapAt key data (first + root) (first + c0) k (by omega)
          (by omega)
        have hsw2 : ∀ x, keyAt key (swapAt data (first + root) (first + c0)) (first + x) =
            if x = c0 then keyAt key data (first + root)
            else if x = root then keyAt key data (first + c0) else keyAt key data (first + x) := by
          intro x
          rw [hsw]
          by_cases e1 : x = c0
          · simp [e1]
          · have e1b : ¬ first + x = first + c0 := by omega
            by_cases e2 : x = root
            · simp [e1, e2, e1b]
            · have e2b : ¬ first + x = first + root := by omega
              simp [e1, e2, e1b, e2b]
        have hinv2 : SiftInv (keyAt key (swapAt data (first + root) (first + c0))) first lo hi
            c0 := by
          refine ⟨fun r c hr hrc0 hc hrc => ?_, fun r c hr hrc0 hc hcc => ?_⟩
          · rw [hsw2 c, hsw2 r]
            by_cases hrr : r = root
            · subst hrr
              have e1 : ¬ r = c0 := by omega
              simp only [e1, if_false, if_true]
              by_cases hcc0 : c = c0
              · simp only [hcc0, if_true]
                exact hvw
              · have e2 : ¬ c = r := by omega
                simp only [hcc0, e2, if_false]
                exact hc0max c hc hrc
            · simp only [hrc0, hrr, if_false]
              by_cases hcr : c = root
              · subst hcr
                have e1 : ¬ c = c0 := by omega
                simp only [e1, if_false, if_true]
                exact hinv.2 r c0 hr hrc hc0hi hc0c
              · have e1 : ¬ c = c0 := by omega
                simp only [e1, hcr, if_false]
                exact hinv.1 r c hr hrr hc hrc
          · have hrr : r = root := by omega
            subst hrr
            rw [hsw2 c, hsw2 r]
            have e1 : ¬ c = c0 := by omega
            have e2 : ¬ c = r := by omega
            have e3 : ¬ r = c0 := by omega
            simp only [e1, e2, e3, if_false, if_true]
            exact hinv.1 c0 c (by omega) (by omega) hc hcc
        have hrec := ih c0 (swapAt data (first + root) (first + c0)) (by omega) (by omega)
          (by rw [length_swapAt]; exact hlen) hinv2
        exact ⟨(Moves.moves_swap key (first + lo) (first + hi) data (first + root) (first + c0)
          (by omega) (by omega) (by omega) (by omega) hlen).moves_trans hrec.1, hrec.2⟩

/-- The function `siftDown` on a heap whose nodes behind `lo` have the heap
property: afterwards the nodes from `lo` on have it. -/
theorem siftDown_spec {α K : Type} [LinearOrder K] [Inhabited K]
    {less : α → α → Bool} {key : α → K} (hko : KeyOrder less key) (data : List α)
    (lo hi first : Nat) (hlen : first + hi ≤ data.length)
    (hheap : HeapOn (keyAt key data) first (lo + 1) hi) :
    Moves key (first + lo) (first + hi) data (siftDown less data lo hi first) ∧
      HeapOn (keyAt key (siftDown less data lo hi first)) first lo hi := by
  unfold siftDown
  refine siftDownLoop_spec hko hi first lo hi lo data (le_refl _) (by omega) hlen
    ⟨fun r c hr hrl hc hrc => hheap r c (by omega) hc hrc, fun r c hr hrl hc hcc => ?_⟩
  omega

theorem heapSortBuild_spec {α K : Type} [LinearOrder K] [Inhabited K]
    {less : α → α → Bool} {key : α → K} (hko : KeyOrder less key) (hi first i : Nat)
    (data : List α) (hlen : first + hi ≤ data.length)
    (hheap : HeapOn (keyAt key data) first i hi) :
    Moves key first (first + hi) data (heapSortBuild less hi first i data) ∧
      HeapOn (keyAt key (heapSortBuild less hi first i data)) first 0 hi := by
  induction i generalizing data with
  | zero => exact ⟨Moves.moves_refl key _ _ data, hheap⟩
  | succ i ih =>
    unfold heapSortBuild
    have hs := siftDown_spec hko data i hi first hlen hheap
    have hrec := ih (siftDown less data i hi first) (by rw [hs.1.length_eq]; exact hlen) hs.2
    exact ⟨(hs.1.moves_mono (by omega) (le_refl _)).moves_trans hrec.1, hrec.2⟩

theorem HeapOn.root_max {K : Type} [LinearOrder K] {f : Nat → K} {first n : Nat}
    (h : HeapOn f first 0 n) : ∀ k, k < n → f (first + k) ≤ f first := by
  intro k
  induction k using Nat.strong_induction_on with
  | _ k ih =>
    intro hk
    cases k with
    | zero => simp
    | succ k =>
      have hpar := ih (k / 2) (by omega) (by omega)
      have hch := h (k / 2) (k + 1) (Nat.zero_le _) hk (by omega)
      exact le_trans hch hpar

theorem heapSortPop_spec {α K : Type} [LinearOrder K] [Inhabited K]
    {less : α → α → Bool} {key : α → K} (hko : KeyOrder less key) (first hi i : Nat)
    (data : List α) (hi1 : i ≤ hi) (hlen : first + hi ≤ data.length)
    (hheap : HeapOn (keyAt key data) first 0 i)
    (hsorted : SortedOn (keyAt key data) (first + i) (first + hi))
    (hcross : ∀ x y, x < i → i ≤ y → y < hi →
      keyAt key data (first + x) ≤ keyAt key data (first + y)) :
    Moves key first (first + hi) data (heapSortPop less first i data) ∧
      SortedOn (keyAt key (heapSortPop less first i data)) first (first + hi) := by
  induction i generalizing data with
  | zero =>
    refine ⟨Moves.moves_refl key _ _ data, ?_⟩
    simpa using hsorted
  | succ i ih =>
    unfold heapSortPop
    have hmax := hheap.root_max
    have hsw := fun k => keyAt_swapAt key data first (first + i) k (by omega) (by omega)
    have hm1 : Moves key first (first + hi) data (swapAt data first (first + i)) :=
      Moves.moves_swap key first (first + hi) data first (first + i) (le_refl _) (by omega) (by omega)
        (by omega) hlen
    have hlen1 : first + hi ≤ (swapAt data first (first + i)).length := by
      rw [length_swapAt]; exact hlen
    have hheap1 : HeapOn (keyAt key (swapAt data first (first + i))) first (0 + 1) i := by
      intro r c hr hc hrc
      rw [hsw, hsw]
      have e1 : ¬ first + c = first + i := by omega
      have e2 : ¬ first + c = first := by omega
      have e3 : ¬ first + r = first + i := by omega
      have e4 : ¬ first + r = first := by omega
      simp only [e1, e2, e3, e4, if_false]
      exact hheap r c (Nat.zero_le _) (by omega) hrc
    have hs := siftDown_spec hko (swapAt data first (first + i)) 0 i first (by omega) hheap1
    have hms : Moves key first (first + hi) (swapAt data first (first + i))
        (siftDown less (swapAt data first (first + i)) 0 i first) :=
      hs.1.moves_mono (by omega) (by omega)
    -- the keys after the sift, in terms of the keys before the swap
    have hout : ∀ y, i ≤ y →
        keyAt key (siftDown less (swapAt data first (first + i)) 0 i first) (first + y) =
          if y = i then keyAt key data first else keyAt key data (first + y) := by
      intro y hy
      rw [hs.1.rearr.1 (first + y) (by omega), hsw]
      by_cases e : y = i
      · simp [e]
      · have e1 : ¬ first + y = first + i := by omega
        have e2 : ¬ first + y = first := by omega
        simp [e, e1, e2]
    have hin : ∀ x, x < i → ∃ x2, x2 < i + 1 ∧
        keyAt key (siftDown less (swapAt data first (first + i)) 0 i first) (first + x) =
          keyAt key data (first + x2) := by
      intro x hx
      obtain ⟨k2, h1, h2, e⟩ := hs.1.rearr.2 (first + x) (by omega) (by omega)
      rw [e, hsw]
      have e1 : ¬ k2 = first + i := by omega
      by_cases e2 : k2 = first
      · subst e2
        by_cases hi0 : i = 0
        · exact ⟨0, by omega, by simp [hi0]⟩
        · have e3 : ¬ k2 = k2 + i := by omega
          exact ⟨i, by omega, by simp [e3]⟩
      · refine ⟨k2 - first, by omega, ?_⟩
        have e3 : first + (k2 - first) = k2 := by omega
        simp [e1, e2, e3]
    have hrec := ih (siftDown less (swapAt data first (first + i)) 0 i first) (by omega)
      (by rw [hs.1.length_eq]; exact hlen1) hs.2
      (fun x y hx hxy hy => by
        have ex : first + (x - first) = x := by omega
        have ey : first + (y - first) = y := by omega
        rw [← ex, ← ey, hout (x - first) (by omega), hout (y - first) (by omega)]
        by_cases e1 : x - first = i
        · simp only [e1, if_true]
          by_cases e2 : y - first = i
          · simp [e2]
          · simp only [e2, if_false]
            have := hcross 0 (y - first) (by omega) (by omega) (by omega)
            simpa using this
        · have e2 : ¬ y - first = i := by omega
          simp only [e1, e2, if_false]
          rw [ex, ey]
          exact hsorted x y (by omega) hxy hy)
      (fun x y hx hxy hy => by
        obtain ⟨x2, hx2, e⟩ := hin x hx
        rw [e, hout y hxy]
        by_cases e1 : y = i
        · simp only [e1, if_true]
          exact hmax x2 hx2
        · simp only [e1, if_false]
          exact hcross x2 y hx2 (by omega) hy)
    exact ⟨(hm1.moves_trans hms).moves_trans hrec.1, hrec.2⟩

/-- The function `heapSort`: the keys of the range ascend afterwards and only
they were moved. -/
theorem heapSort_spec {α K : Type} [LinearOrder K] [Inhabited K]
    {less : α → α → Bool} {key : α → K} (hko : KeyOrder less key) (data : List α) (a b : Nat)
    (hab : a ≤ b) (hb : b ≤ data.length) :
    Moves key a b data (heapSort less data a b) ∧
      SortedOn (keyAt key (heapSort less data a b)) a b := by
  unfold heapSort
  simp only
  have hbuild := heapSortBuild_spec hko (b - a) a ((b - a - 1) / 2 + 1) data (by omega)
    (fun r c hr hc hrc => by omega)
  have hpop := heapSortPop_spec hko a (b - a) (b - a)
    (heapSortBuild less (b - a) a ((b - a - 1) / 2 + 1) data) (le_refl _)
    (by rw [hbuild.1.length_eq]; omega) hbuild.2 (fun x y hx hxy hy => by omega)
    (fun x y hx hxy hy => by omega)
  have e : a + (b - a) = b := by omega
  rw [e] at hbuild hpop
  exact ⟨hbuild.1.moves_trans hpop.1, hpop.2⟩

/-! ## The steps of pdqsort that only move elements -/

theorem reverseRangeLoop_moves {α K : Type} [Inhabited K] (key : α → K) (a b n i j : Nat)
    (data : List α) (hai : a ≤ i) (hjb : j < b) (hb : b ≤ data.length) :
    Moves key a b data (reverseRangeLoop n i j data) := by
  induction n generalizing i j data with
  | zero => exact Moves.moves_refl key _ _ data
  | succ n ih =>
    unfold reverseRangeLoop
    split
    · exact (Moves.moves_swap key a b data i j hai (by omega) (by omega) hjb hb).moves_trans
        (ih (i + 1) (j - 1) _ (by omega) (by omega) (by rw [length_swapAt]; exact hb))
    · exact Moves.moves_refl key _ _ data

theorem reverseRange_moves {α K : Type} [Inhabited K] (key : α → K) (data : List α) (a b : Nat)
    (hab : a < b) (hb : b ≤ data.length) : Moves key a b data (reverseRange data a b) :=
  reverseRangeLoop_moves key a b (b - a) a (b - 1) data (le_refl _) (by omega) hb

theorem nextPowerOfTwo_le (length : Nat) (h : 0 < length) :
    0 < nextPowerOfTwo length ∧ nextPowerOfTwo length ≤ 2 * length := by
  unfold nextPowerOfTwo bitsLen
  have hne : length ≠ 0 := by omega
  rw [if_neg hne, Nat.pow_succ]
  have := Nat.log2_self_le hne
  have hpos : 0 < 2 ^ length.log2 := Nat.pow_pos (by omega)
  omega

theorem breakPatternsLoop_moves {α K : Type} [Inhabited K] (key : α → K)
    (a b length modulus idx : Nat) (hl8 : 8 ≤ length) (hab : a + length = b)
    (hm0 : 0 < modulus) (hm : modulus ≤ 2 * length) (hidx : idx = a + (length / 4) * 2 - 1)
    (n i random : Nat) (data : List α) (hin : i + n ≤ 3) (hb : b ≤ data.length) :
    Moves key a b data (breakPatternsLoop a length modulus idx n i random data) := by
  induction n generalizing i random data with
  | zero => exact Moves.moves_refl key _ _ data
  | succ n ih =>
    unfold breakPatternsLoop
    simp only
    have hand : xorshiftNext random &&& (modulus - 1) ≤ modulus - 1 := Nat.and_le_right
    have hother : (if length ≤ xorshiftNext random &&& (modulus - 1) then
        (xorshiftNext random &&& (modulus - 1)) - length
        else xorshiftNext random &&& (modulus - 1)) < length := by
      split <;> omega
    generalize (if length ≤ xorshiftNext random &&& (modulus - 1) then
        (xorshiftNext random &&& (modulus - 1)) - length
        else xorshiftNext random &&& (modulus - 1)) = other at hother ⊢
    exact (Moves.moves_swap key a b data (idx - 1 + i) (a + other) (by omega) (by omega) (by omega)
      (by omega) hb).moves_trans (ih (i + 1) _ _ (by omega) (by rw [length_swapAt]; exact hb))

theorem breakPatterns_moves {α K : Type} [Inhabited K] (key : α → K) (data : List α) (a b : Nat)
    (hab : a ≤ b) (hb : b ≤ data.length) : Moves key a b data (breakPatterns data a b) := by
  unfold breakPatterns
  simp only
  split
  · rename_i h8
    have hp := nextPowerOfTwo_le (b - a) (by omega)
    exact breakPatternsLoop_moves key a b (b - a) _ _ h8 (by omega) hp.1 hp.2 rfl 3 0 _ data
      (by omega) hb
  · exact Moves.moves_refl key _ _ data

/-! ## The choice of the pivot -/

theorem order2_mem {α : Type} (less : α → α → Bool) (data : List α) (a b swaps : Nat) :
    ((order2 less data a b swaps).1 = a ∧ (order2 less data a b swaps).2.1 = b) ∨
      ((order2 less data a b swaps).1 = b ∧ (order2 less data a b swaps).2.1 = a) := by
  unfold order2
  split
  · exact Or.inr ⟨rfl, rfl⟩
  · exact Or.inl ⟨rfl, rfl⟩

theorem median_mem {α : Type} (less : α → α → Bool) (data : List α) (a b c swaps : Nat) :
    (median less data a b c swaps).1 = a ∨ (median less data a b c swaps).1 = b ∨
      (median less data a b c swaps).1 = c := by
  unfold median
  simp only
  rcases order2_mem less data a b swaps with ⟨h1, h2⟩ | ⟨h1, h2⟩ <;>
  rcases order2_mem less data (order2 less data a b swaps).2.1 c
    (order2 less data a b swaps).2.2 with ⟨h3, h4⟩ | ⟨h3, h4⟩ <;>
  rcases order2_mem less data (order2 less data a b swaps).1
    (order2 less data (order2 less data a b swaps).2.1 c (order2 less data a b swaps).2.2).1
    (order2 less data (order2 less data a b swaps).2.1 c
      (order2 less data a b swaps).2.2).2.2 with ⟨h5, h6⟩ | ⟨h5, h6⟩ <;>
  simp_all

theorem median_bounds {α : Type} (less : α → α → Bool) (data : List α) (a b c swaps lo hi : Nat)
    (ha : lo ≤ a ∧ a < hi) (hb : lo ≤ b ∧ b < hi) (hc : lo ≤ c ∧ c < hi) :
    lo ≤ (median less data a b c swaps).1 ∧ (median less data a b c swaps).1 < hi := by
  rcases median_mem less data a b c swaps with h | h | h <;> rw [h] <;> assumption

/-- The index that `choosePivot` returns is in the range. -/
theorem choosePivot_bounds {α : Type} (less : α → α → Bool) (data : List α) (a b : Nat)
    (h8 : 8 ≤ b - a) :
    a ≤ (choosePivot less data a b).1 ∧ (choosePivot less data a b).1 < b := by
  have hr : ∀ r : Nat × Nat, (a ≤ r.1 ∧ r.1 < b) →
      a ≤ (if r.2 = 0 then (r.1, sortedHint.increasingHint)
        else if r.2 = 4 * 3 then (r.1, sortedHint.decreasingHint)
        else (r.1, sortedHint.unknownHint)).1 ∧
      (if r.2 = 0 then (r.1, sortedHint.increasingHint)
        else if r.2 = 4 * 3 then (r.1, sortedHint.decreasingHint)
        else (r.1, sortedHint.unknownHint)).1 < b := by
    intro r hr
    split
    · exact hr
    · split <;> exact hr
  unfold choosePivot
  simp only
  apply hr
  rw [if_pos h8]
  split
  · unfold medianAdjacent
    apply median_bounds
    · apply median_bounds <;> omega
    · apply median_bounds <;> omega
    · apply median_bounds <;> omega
  · apply median_bounds <;> omega

/-! ## The pattern-defeating quicksort -/

theorem SortedOn.join3 {K : Type} [LinearOrder K] {f : Nat → K} {a m b : Nat}
    (h1 : SortedOn f a m) (h2 : SortedOn f (m + 1) b)
    (hl : ∀ x, a ≤ x → x < m → f x ≤ f m) (hr : ∀ y, m < y → y < b → f m ≤ f y) :
    SortedOn f a b := by
  intro x y hx hxy hy
  by_cases hym : y < m
  · exact h1 x y hx hxy hym
  · by_cases hye : y = m
    · subst hye
      by_cases hxe : x = y
      · rw [hxe]
      · exact hl x hx (by omega)
    · by_cases hxm : x < m
      · exact le_trans (hl x hx hxm) (hr y (by omega) hy)
      · by_cases hxe : x = m
        · subst hxe
          exact hr y (by omega) hy
        · exact h2 x y (by omega) hxy hy

/-- The part of a round of `pdqsort` before the partition moves only the keys
of the range, the pivot is in the range, and when the round returns the keys
of the range ascend. -/
theorem pdqsortPrepare_spec {α K : Type} [LinearOrder K] [Inhabited K]
    {less : α → α → Bool} {key : α → K} (hko : KeyOrder less key) (data : List α)
    (a b limit : Nat) (wasBalanced wasPartitioned : Bool) (h12 : 12 < b - a)
    (hb : b ≤ data.length) (hl : LeftBelow (keyAt key data) a b) :
    Moves key a b data (pdqsortPrepare less data a b limit wasBalanced wasPartitioned).1 ∧
      a ≤ (pdqsortPrepare less data a b limit wasBalanced wasPartitioned).2.2.1 ∧
      (pdqsortPrepare less data a b limit wasBalanced wasPartitioned).2.2.1 < b ∧
      ((pdqsortPrepare less data a b limit wasBalanced wasPartitioned).2.2.2 = true →
        SortedOn (keyAt key (pdqsortPrepare less data a b limit wasBalanced wasPartitioned).1)
          a b) := by
  unfold pdqsortPrepare
  dsimp only
  have hd1 : Moves key a b data (if (!wasBalanced) = true then breakPatterns data a b else data) := by
    split
    · exact breakPatterns_moves key data a b (by omega) hb
    · exact Moves.moves_refl key _ _ data
  generalize (if (!wasBalanced) = true then breakPatterns data a b else data) = d1 at hd1 ⊢
  have hb1 : b ≤ d1.length := by rw [hd1.length_eq]; exact hb
  have hph := choosePivot_bounds less d1 a b (by omega)
  generalize choosePivot less d1 a b = ph at hph ⊢
  have hd2 : Moves key a b d1
      (if ph.2 = sortedHint.decreasingHint then reverseRange d1 a b else d1) := by
    split
    · exact reverseRange_moves key d1 a b (by omega) hb1
    · exact Moves.moves_refl key _ _ d1
  generalize (if ph.2 = sortedHint.decreasingHint then reverseRange d1 a b else d1) = d2
    at hd2 ⊢
  have hb2 : b ≤ d2.length := by rw [hd2.length_eq]; exact hb1
  have hpiv : a ≤ (if ph.2 = sortedHint.decreasingHint then b - 1 - (ph.1 - a) else ph.1) ∧
      (if ph.2 = sortedHint.decreasingHint then b - 1 - (ph.1 - a) else ph.1) < b := by
    split <;> omega
  generalize (if ph.2 = sortedHint.decreasingHint then b - 1 - (ph.1 - a) else ph.1) = pivot
    at hpiv ⊢
  generalize (if ph.2 = sortedHint.decreasingHint then sortedHint.increasingHint else ph.2) = hint
  have hm2 : Moves key a b data d2 := hd1.moves_trans hd2
  have hps : Moves key a b d2
        (if (wasBalanced && wasPartitioned && decide (hint = sortedHint.increasingHint)) = true
          then partialInsertionSort less d2 a b else (d2, false)).1 ∧
      ((if (wasBalanced && wasPartitioned && decide (hint = sortedHint.increasingHint)) = true
          then partialInsertionSort less d2 a b else (d2, false)).2 = true →
        SortedOn (keyAt key
          (if (wasBalanced && wasPartitioned && decide (hint = sortedHint.increasingHint)) = true
            then partialInsertionSort less d2 a b else (d2, false)).1) a b) := by
    split
    · exact partialInsertionSort_spec hko d2 a b (by omega) hb2 (hl.of_rearr hm2.rearr)
    · exact ⟨Moves.moves_refl key _ _ d2, fun h => Bool.noConfusion h⟩
  generalize (if (wasBalanced && wasPartitioned && decide (hint = sortedHint.increasingHint)) = true
      then partialInsertionSort less d2 a b else (d2, false)) = ps at hps ⊢
  exact ⟨hm2.moves_trans hps.1, hpiv.1, hpiv.2, hps.2⟩

/-- The function `pdqsort` on a range that no key before it is above: the keys
of the range ascend afterwards and only they were moved. -/
theorem pdqsort_spec {α K : Type} [LinearOrder K] [Inhabited K]
    {less : α → α → Bool} {key : α → K} (hko : KeyOrder less key) (fuel : Nat)
    (data : List α) (a b limit : Nat) (wasBalanced wasPartitioned : Bool)
    (hab : a ≤ b) (hb : b ≤ data.length) (hfuel : b - a ≤ fuel)
    (hl : LeftBelow (keyAt key data) a b) :
    Moves key a b data (pdqsort less fuel data a b limit wasBalanced wasPartitioned) ∧
      SortedOn (keyAt key (pdqsort less fuel data a b limit wasBalanced wasPartitioned)) a b := by
  induction fuel generalizing data a b limit wasBalanced wasPartitioned with
  | zero =>
    unfold pdqsort
    exact insertionSort_spec hko data a b hb
  | succ fuel ih =>
    unfold pdqsort
    split
    · exact insertionSort_spec hko data a b hb
    · rename_i h12
      split
      · exact heapSort_spec hko data a b hab hb
      · rename_i hlim
        obtain ⟨hst1, hst2, hst3, hst4⟩ := pdqsortPrepare_spec hko data a b limit wasBalanced
          wasPartitioned (by omega) hb hl
        generalize pdqsortPrepare less data a b limit wasBalanced wasPartitioned = st
          at hst1 hst2 hst3 hst4 ⊢
        dsimp only
        have hb3 : b ≤ st.1.length := by rw [hst1.length_eq]; exact hb
        have hl3 : LeftBelow (keyAt key st.1) a b := hl.of_rearr hst1.rearr
        split
        · rename_i hdone
          exact ⟨hst1, hst4 hdone⟩
        · rename_i hdone
          split
          · -- the keys before the range hold one that is not below the pivot
            rename_i htrig
            simp only [Bool.and_eq_true, decide_eq_true_eq, Bool.not_eq_true'] at htrig
            have hpa := keyAt_le_of_not_lessAt hko st.1 (a - 1) st.2.2.1 (by omega) (by omega)
              htrig.2
            obtain ⟨e1, e2, e3, e4, e5⟩ := partitionEqual_spec hko st.1 a b st.2.2.1 hst2 hst3 hb3
            generalize partitionEqual less st.1 a b st.2.2.1 = pe at e1 e2 e3 e4 e5 ⊢
            have hmin : ∀ k, a ≤ k → k < b → keyAt key st.1 st.2.2.1 ≤ keyAt key pe.1 k :=
              e1.rearr.forall_range (fun x => keyAt key st.1 st.2.2.1 ≤ x)
                (fun k hk1 hk2 => le_trans hpa (hl3 (a - 1) k (by omega) hk1 hk2))
            have hlpe : LeftBelow (keyAt key pe.1) pe.2 b := by
              intro i k hi hk1 hk2
              by_cases hia : i < a
              · exact (hl3.of_rearr e1.rearr) i k hia (by omega) hk2
              · exact le_trans (e4 i (by omega) hi) (e5 k hk1 hk2)
            obtain ⟨r1, r2⟩ := ih pe.1 pe.2 b st.2.1 wasBalanced wasPartitioned e3
              (by rw [e1.length_eq]; exact hb3) (by omega) hlpe
            refine ⟨(hst1.moves_trans e1).moves_trans (r1.moves_mono (by omega) (le_refl _)), ?_⟩
            intro x y hx hxy hy
            by_cases hxm : pe.2 ≤ x
            · exact r2 x y hxm hxy hy
            · have hxe : keyAt key (pdqsort less fuel pe.1 pe.2 b st.2.1 wasBalanced
                  wasPartitioned) x = keyAt key st.1 st.2.2.1 := by
                rw [r1.rearr.1 x (by omega)]
                exact le_antisymm (e4 x hx (by omega)) (hmin x hx (by omega))
              rw [hxe]
              by_cases hym : pe.2 ≤ y
              · obtain ⟨y2, hy1, hy2, ey⟩ := r1.rearr.2 y hym hy
                rw [ey]
                exact e5 y2 hy1 hy2
              · rw [r1.rearr.1 y (by omega)]
                exact hmin y (by omega) hy
          · rename_i htrig
            obtain ⟨t1, t2, t3, t4, t5⟩ := partition_spec hko st.1 a b st.2.2.1 hst2 hst3 hb3
            generalize partition less st.1 a b st.2.2.1 = pt at t1 t2 t3 t4 t5 ⊢
            have hb4 : b ≤ pt.1.length := by rw [t1.length_eq]; exact hb3
            have hl4 : LeftBelow (keyAt key pt.1) a b := hl3.of_rearr t1.rearr
            split
            · -- the left part first, then the right part
              obtain ⟨q1, q2⟩ := ih pt.1 a pt.2.1 st.2.1 true true t2 (by omega) (by omega)
                (fun i k hi hk1 hk2 => hl4 i k hi hk1 (by omega))
              generalize pdqsort less fuel pt.1 a pt.2.1 st.2.1 true true = d5 at q1 q2 ⊢
              have hl5 : LeftBelow (keyAt key d5) (pt.2.1 + 1) b := by
                intro i k hi hk1 hk2
                rw [q1.rearr.1 k (by omega)]
                by_cases hia : i < a
                · rw [q1.rearr.1 i (by omega)]
                  exact hl4 i k hia (by omega) hk2
                · by_cases him : i < pt.2.1
                  · obtain ⟨i2, hi1, hi2, ei⟩ := q1.rearr.2 i (by omega) him
                    rw [ei]
                    exact le_trans (t4 i2 hi1 hi2) (t5 k (by omega) hk2)
                  · have : i = pt.2.1 := by omega
                    rw [this, q1.rearr.1 pt.2.1 (by omega)]
                    exact t5 k (by omega) hk2
              obtain ⟨s1, s2⟩ := ih d5 (pt.2.1 + 1) b st.2.1
                (decide ((b - a) / 8 ≤ pt.2.1 - a)) pt.2.2 (by omega)
                (by rw [q1.length_eq]; exact hb4) (by omega) hl5
              generalize pdqsort less fuel d5 (pt.2.1 + 1) b st.2.1
                (decide ((b - a) / 8 ≤ pt.2.1 - a)) pt.2.2 = d6 at s1 s2 ⊢
              refine ⟨((hst1.moves_trans t1).moves_trans (q1.moves_mono (le_refl _) (by omega))).moves_trans
                (s1.moves_mono (by omega) (le_refl _)), ?_⟩
              have hmid : keyAt key d6 pt.2.1 = keyAt key pt.1 pt.2.1 := by
                rw [s1.rearr.1 _ (by omega), q1.rearr.1 _ (by omega)]
              refine SortedOn.join3 (q2.congr fun k hk1 hk2 => s1.rearr.1 k (by omega)) s2
                (fun x hx1 hx2 => ?_) (fun y hy1 hy2 => ?_)
              · rw [hmid, s1.rearr.1 x (by omega)]
                obtain ⟨x2, h1, h2, e⟩ := q1.rearr.2 x hx1 hx2
                rw [e]
                exact t4 x2 h1 h2
              · rw [hmid]
                obtain ⟨y2, h1, h2, e⟩ := s1.rearr.2 y (by omega) hy2
                rw [e, q1.rearr.1 y2 (by omega)]
                exact t5 y2 (by omega) h2
            · -- the right part first, then the left part
              have hl4r : LeftBelow (keyAt key pt.1) (pt.2.1 + 1) b := by
                intro i k hi hk1 hk2
                by_cases hia : i < a
                · exact hl4 i k hia (by omega) hk2
                · by_cases him : i < pt.2.1
                  · exact le_trans (t4 i (by omega) him) (t5 k (by omega) hk2)
                  · have : i = pt.2.1 := by omega
                    rw [this]
                    exact t5 k (by omega) hk2
              obtain ⟨q1, q2⟩ := ih pt.1 (pt.2.1 + 1) b st.2.1 true true (by omega) hb4
                (by omega) hl4r
              generalize pdqsort less fuel pt.1 (pt.2.1 + 1) b st.2.1 true true = d5 at q1 q2 ⊢
              have hl5 : LeftBelow (keyAt key d5) a pt.2.1 := by
                intro i k hi hk1 hk2
                rw [q1.rearr.1 k (by omega), q1.rearr.1 i (by omega)]
                exact hl4 i k hi hk1 (by omega)
              obtain ⟨s1, s2⟩ := ih d5 a pt.2.1 st.2.1
                (decide ((b - a) / 8 ≤ b - pt.2.1)) pt.2.2 t2
                (by rw [q1.length_eq]; omega) (by omega) hl5
              generalize pdqsort less fuel d5 a pt.2.1 st.2.1
                (decide ((b - a) / 8 ≤ b - pt.2.1)) pt.2.2 = d6 at s1 s2 ⊢
              refine ⟨((hst1.moves_trans t1).moves_trans (q1.moves_mono (by omega) (le_refl _))).moves_trans
                (s1.moves_mono (le_refl _) (by omega)), ?_⟩
              have hmid : keyAt key d6 pt.2.1 = keyAt key pt.1 pt.2.1 := by
                rw [s1.rearr.1 _ (by omega), q1.rearr.1 _ (by omega)]
              refine SortedOn.join3 s2 (q2.congr fun k hk1 hk2 => s1.rearr.1 k (by omega))
                (fun x hx1 hx2 => ?_) (fun y hy1 hy2 => ?_)
              · rw [hmid]
                obtain ⟨x2, h1, h2, e⟩ := s1.rearr.2 x hx1 hx2
                rw [e, q1.rearr.1 x2 (by omega)]
                exact t4 x2 h1 h2
              · rw [hmid, s1.rearr.1 y (by omega)]
                obtain ⟨y2, h1, h2, e⟩ := q1.rearr.2 y (by omega) hy2
                rw [e]
                exact t5 y2 (by omega) h2

/-! ## The call of sort.Sort -/

theorem KeyOrder.trivial {α : Type} (less : α → α → Bool) :
    KeyOrder less (fun _ : α => ()) :=
  ⟨fun _ _ _ => le_refl _, fun _ _ _ => le_refl _⟩

theorem LeftBelow.zero {K : Type} [LinearOrder K] (f : Nat → K) (b : Nat) : LeftBelow f 0 b :=
  fun i _ hi _ _ => absurd hi (Nat.not_lt_zero i)

/-- The call `sort.Sort` returns the elements of the slice, in some order. -/
theorem sortSort_perm {α : Type} (less : α → α → Bool) (data : List α) :
    (sortSort less data).Perm data := by
  unfold sortSort
  dsimp only
  split
  · exact List.Perm.refl _
  · exact (pdqsort_spec (KeyOrder.trivial less) data.length data 0 data.length
      (bitsLen data.length) true true (Nat.zero_le _) (le_refl _) (by omega)
      (LeftBelow.zero _ _)).1.perm

theorem keyAt_eq_getElem {α K : Type} [Inhabited K] (key : α → K) (data : List α) (i : Nat)
    (h : i < data.length) : keyAt key data i = key (data.get ⟨i, h⟩) := by
  unfold keyAt
  rw [List.getElem?_eq_getElem h]
  rfl

/-- When the answers of `less` agree with the order of a key, the call
`sort.Sort` leaves the keys ascending. -/
theorem sortSort_sorted {α K : Type} [LinearOrder K] [Inhabited K] {less : α → α → Bool}
    {key : α → K} (hko : KeyOrder less key) (data : List α) :
    (sortSort less data).Pairwise fun earlier later => key earlier ≤ key later := by
  have hsorted : SortedOn (keyAt key (sortSort less data)) 0 (sortSort less data).length := by
    unfold sortSort
    dsimp only
    split
    · exact SortedOn.of_le_one _ _ _ (by omega)
    · have h := pdqsort_spec hko data.length data 0 data.length (bitsLen data.length) true true
        (Nat.zero_le _) (le_refl _) (by omega) (LeftBelow.zero _ _)
      rw [h.1.length_eq]
      exact h.2
  rw [List.pairwise_iff_get]
  intro i j hij
  have h := hsorted i.1 j.1 (Nat.zero_le _) (le_of_lt hij) j.2
  rwa [keyAt_eq_getElem key _ i.1 i.2, keyAt_eq_getElem key _ j.1 j.2] at h

/-- A comparator that puts every element with `key` false before every element
with `key` true agrees with the order of `key`, where false is below true. -/
theorem KeyOrder.of_bool {α : Type} (less : α → α → Bool) (key : α → Bool)
    (h : ∀ x y, key x = true → key y = false → less x y = false)
    (h2 : ∀ x y, key x = false → key y = true → less x y = true) : KeyOrder less key := by
  refine ⟨fun x y hxy => ?_, fun x y hxy => ?_⟩
  · cases hx : key x <;> cases hy : key y <;> try decide
    rw [h x y hx hy] at hxy
    exact Bool.noConfusion hxy
  · cases hx : key x <;> cases hy : key y <;> try decide
    rw [h2 x y hx hy] at hxy
    exact Bool.noConfusion hxy

/-- When `less` puts every element with `key` false before every element with
`key` true, the sorted slice has the elements with `key` true at the end. -/
theorem sortSort_partition {α : Type} (less : α → α → Bool) (key : α → Bool)
    (h : ∀ x y, key x = true → key y = false → less x y = false)
    (h2 : ∀ x y, key x = false → key y = true → less x y = true) (data : List α) :
    (sortSort less data).Pairwise fun earlier later => key earlier = true → key later = true := by
  refine (sortSort_sorted (KeyOrder.of_bool less key h h2) data).imp ?_
  intro x y hle hx
  rw [hx] at hle
  cases hy : key y
  · rw [hy] at hle
    exact absurd hle (by decide)
  · rfl

/-! ## The quicksort of the releases before Go 1.19 -/

theorem scanDownBefore_spec (p : Nat → Bool) (n c : Nat) (hn : n ≤ c) :
    scanDownBefore p n c ≤ c ∧ c ≤ scanDownBefore p n c + n ∧
      (∀ k, scanDownBefore p n c ≤ k → k < c → p k = true) ∧
      (c < scanDownBefore p n c + n → p (scanDownBefore p n c - 1) = false) := by
  induction n generalizing c with
  | zero =>
    simp only [scanDownBefore]
    exact ⟨le_refl _, by omega, fun k h1 h2 => by omega, fun h => by omega⟩
  | succ n ih =>
    unfold scanDownBefore
    split
    · rename_i hp
      obtain ⟨h1, h2, h3, h4⟩ := ih (c - 1) (by omega)
      refine ⟨by omega, by omega, fun k hk1 hk2 => ?_, fun h => h4 (by omega)⟩
      by_cases hkc : k = c - 1
      · rw [hkc]; exact hp
      · exact h3 k hk1 (by omega)
    · rename_i hp
      refine ⟨le_refl _, by omega, fun k hk1 hk2 => by omega, fun _ => by simpa using hp⟩

theorem medianOfThree_moves {α K : Type} [Inhabited K] (less : α → α → Bool) (key : α → K)
    (data : List α) (lo hi m1 m0 m2 : Nat) (h1 : lo ≤ m1 ∧ m1 < hi) (h0 : lo ≤ m0 ∧ m0 < hi)
    (h2 : lo ≤ m2 ∧ m2 < hi) (hlen : hi ≤ data.length) :
    Moves key lo hi data (medianOfThree less data m1 m0 m2) := by
  unfold medianOfThree
  dsimp only
  have hd1 : Moves key lo hi data (if lessAt less data m1 m0 = true then swapAt data m1 m0
      else data) := by
    split
    · exact Moves.moves_swap key lo hi data m1 m0 h1.1 h1.2 h0.1 h0.2 hlen
    · exact Moves.moves_refl key _ _ data
  generalize (if lessAt less data m1 m0 = true then swapAt data m1 m0 else data) = d1 at hd1 ⊢
  have hlen1 : hi ≤ d1.length := by rw [hd1.length_eq]; exact hlen
  split
  · have hd2 : Moves key lo hi d1 (swapAt d1 m2 m1) :=
      Moves.moves_swap key lo hi d1 m2 m1 h2.1 h2.2 h1.1 h1.2 hlen1
    split
    · exact (hd1.moves_trans hd2).moves_trans (Moves.moves_swap key lo hi _ m1 m0 h1.1 h1.2
        h0.1 h0.2 (by rw [length_swapAt]; exact hlen1))
    · exact hd1.moves_trans hd2
  · exact hd1

/-- After `medianOfThree(data, m1, m0, m2)` the key at `m1` is not above the
key at `m2`. -/
theorem medianOfThree_le {α K : Type} [LinearOrder K] [Inhabited K] {less : α → α → Bool}
    {key : α → K} (hko : KeyOrder less key) (data : List α) (m1 m0 m2 : Nat)
    (h1 : m1 < data.length) (h0 : m0 < data.length) (h2 : m2 < data.length)
    (h10 : m1 ≠ m0) (h12 : m1 ≠ m2) (h02 : m0 ≠ m2) :
    keyAt key (medianOfThree less data m1 m0 m2) m1 ≤
      keyAt key (medianOfThree less data m1 m0 m2) m2 := by
  unfold medianOfThree
  dsimp only
  have hd1 : (if lessAt less data m1 m0 = true then swapAt data m1 m0 else data).length =
        data.length ∧
      keyAt key (if lessAt less data m1 m0 = true then swapAt data m1 m0 else data) m0 ≤
        keyAt key (if lessAt less data m1 m0 = true then swapAt data m1 m0 else data) m1 := by
    split
    · rename_i hl
      refine ⟨length_swapAt _ _ _, ?_⟩
      rw [keyAt_swapAt key data m1 m0 m0 h1 h0, keyAt_swapAt key data m1 m0 m1 h1 h0]
      simp only [if_true, h10, if_false]
      exact keyAt_le_of_lessAt hko data m1 m0 hl
    · rename_i hl
      refine ⟨rfl, ?_⟩
      have hf : lessAt less data m1 m0 = false := by simpa using hl
      exact keyAt_le_of_not_lessAt hko data m1 m0 h1 h0 hf
  generalize (if lessAt less data m1 m0 = true then swapAt data m1 m0 else data) = d1 at hd1 ⊢
  obtain ⟨hlen1, hA⟩ := hd1
  have g1 : m1 < d1.length := by omega
  have g0 : m0 < d1.length := by omega
  have g2 : m2 < d1.length := by omega
  have h21 : ¬ m2 = m1 := fun e => h12 e.symm
  have h01 : ¬ m0 = m1 := fun e => h10 e.symm
  have h20 : ¬ m2 = m0 := fun e => h02 e.symm
  split
  · rename_i hl2
    have hB := keyAt_le_of_lessAt hko d1 m2 m1 hl2
    have hsw := fun k => keyAt_swapAt key d1 m2 m1 k g2 g1
    have gl : (swapAt d1 m2 m1).length = d1.length := length_swapAt _ _ _
    split
    · rw [keyAt_swapAt key _ m1 m0 m1 (by omega) (by omega),
        keyAt_swapAt key _ m1 m0 m2 (by omega) (by omega), hsw m0, hsw m2]
      simp only [h10, h20, h21, h01, h02, h12, if_false, if_true]
      exact hA
    · rw [hsw m1, hsw m2]
      simp only [h21, if_false, if_true]
      exact hB
  · rename_i hl2
    have hf : lessAt less d1 m2 m1 = false := by simpa using hl2
    exact keyAt_le_of_not_lessAt hko d1 m2 m1 g2 g1 hf

theorem doPivotMedians_spec {α K : Type} [LinearOrder K] [Inhabited K] {less : α → α → Bool}
    {key : α → K} (hko : KeyOrder less key) (data : List α) (lo hi : Nat) (h12 : 12 < hi - lo)
    (hlen : hi ≤ data.length) :
    Moves key lo hi data (doPivotMedians less data lo hi) ∧
      keyAt key (doPivotMedians less data lo hi) lo ≤
        keyAt key (doPivotMedians less data lo hi) (hi - 1) := by
  unfold doPivotMedians
  dsimp only
  have hd1 : Moves key lo hi data
      (if 40 < hi - lo then
        medianOfThree less
          (medianOfThree less (medianOfThree less data lo (lo + (hi - lo) / 8)
            (lo + 2 * ((hi - lo) / 8))) ((lo + hi) / 2) ((lo + hi) / 2 - (hi - lo) / 8)
            ((lo + hi) / 2 + (hi - lo) / 8))
          (hi - 1) (hi - 1 - (hi - lo) / 8) (hi - 1 - 2 * ((hi - lo) / 8))
      else data) := by
    split
    · have m1 := medianOfThree_moves less key data lo hi lo (lo + (hi - lo) / 8)
        (lo + 2 * ((hi - lo) / 8)) (by omega) (by omega) (by omega) hlen
      have m2 := medianOfThree_moves less key _ lo hi ((lo + hi) / 2)
        ((lo + hi) / 2 - (hi - lo) / 8) ((lo + hi) / 2 + (hi - lo) / 8) (by omega) (by omega)
        (by omega) (by rw [m1.length_eq]; exact hlen)
      have m3 := medianOfThree_moves less key _ lo hi (hi - 1) (hi - 1 - (hi - lo) / 8)
        (hi - 1 - 2 * ((hi - lo) / 8)) (by omega) (by omega) (by omega)
        (by rw [m2.length_eq, m1.length_eq]; exact hlen)
      exact (m1.moves_trans m2).moves_trans m3
    · exact Moves.moves_refl key _ _ data
  generalize (if 40 < hi - lo then
        medianOfThree less
          (medianOfThree less (medianOfThree less data lo (lo + (hi - lo) / 8)
            (lo + 2 * ((hi - lo) / 8))) ((lo + hi) / 2) ((lo + hi) / 2 - (hi - lo) / 8)
            ((lo + hi) / 2 + (hi - lo) / 8))
          (hi - 1) (hi - 1 - (hi - lo) / 8) (hi - 1 - 2 * ((hi - lo) / 8))
      else data) = d1 at hd1 ⊢
  have hlen1 : hi ≤ d1.length := by rw [hd1.length_eq]; exact hlen
  exact ⟨hd1.moves_trans (medianOfThree_moves less key d1 lo hi lo ((lo + hi) / 2) (hi - 1)
      (by omega) (by omega) (by omega) hlen1),
    medianOfThree_le hko d1 lo ((lo + hi) / 2) (hi - 1) (by omega) (by omega) (by omega)
      (by omega) (by omega) (by omega)⟩

theorem doPivotLoop_spec {α K : Type} [LinearOrder K] [Inhabited K] {less : α → α → Bool}
    {key : α → K} (hko : KeyOrder less key) (lo hi : Nat) (p : K) (fuel : Nat) (data : List α)
    (b c : Nat) (hfuel : c - b < fuel) (hlob : lo < b) (hbc : b ≤ c) (hchi : c < hi)
    (hlen : hi ≤ data.length) (hs : Split3 (keyAt key data) lo b c hi p) :
    Moves key (lo + 1) (hi - 1) data (doPivotLoop less lo fuel data b c).1 ∧
      b ≤ (doPivotLoop less lo fuel data b c).2.1 ∧
      (doPivotLoop less lo fuel data b c).2.1 = (doPivotLoop less lo fuel data b c).2.2 ∧
      (doPivotLoop less lo fuel data b c).2.2 ≤ c ∧
      Split3 (keyAt key (doPivotLoop less lo fuel data b c).1) lo
        (doPivotLoop less lo fuel data b c).2.1 (doPivotLoop less lo fuel data b c).2.2 hi p := by
  induction fuel generalizing data b c with
  | zero => omega
  | succ fuel ih =>
    obtain ⟨u1, u2, u3, u4⟩ := scanUp_spec (fun k => !lessAt less data lo k) (c - b) b
    unfold doPivotLoop
    dsimp only
    generalize scanUp (fun k => !lessAt less data lo k) (c - b) b = b2 at u1 u2 u3 u4 ⊢
    obtain ⟨v1, v2, v3, v4⟩ := scanDownBefore_spec (fun k => lessAt less data lo k) (c - b2) c
      (by omega)
    generalize scanDownBefore (fun k => lessAt less data lo k) (c - b2) c = c2 at v1 v2 v3 v4 ⊢
    obtain ⟨hsa, hsl, hsr⟩ := hs
    have hs2 : Split3 (keyAt key data) lo b2 c2 hi p := by
      refine ⟨hsa, fun k hk1 hk2 => ?_, fun k hk1 hk2 => ?_⟩
      · by_cases hkb : k < b
        · exact hsl k hk1 hkb
        · have hf : lessAt less data lo k = false := by
            have := u3 k (by omega) hk2
            simpa using this
          have := keyAt_le_of_not_lessAt hko data lo k (by omega) (by omega) hf
          rwa [hsa] at this
      · by_cases hkc : c ≤ k
        · exact hsr k hkc hk2
        · have := keyAt_le_of_lessAt hko data lo k (v3 k hk1 (by omega))
          rwa [hsa] at this
    split
    · exact ⟨Moves.moves_refl key _ _ data, by dsimp only; omega, by dsimp only; omega,
        by dsimp only; omega, hs2⟩
    · rename_i hcb
      have hu : lessAt less data lo b2 = true := by
        have := u4 (by omega)
        simpa using this
      have hv : lessAt less data lo (c2 - 1) = false := v4 (by omega)
      have hne : b2 ≠ c2 - 1 := by
        intro e
        rw [e, hv] at hu
        exact Bool.noConfusion hu
      have hb2 := keyAt_le_of_lessAt hko data lo b2 hu
      have hc2 := keyAt_le_of_not_lessAt hko data lo (c2 - 1) (by omega) (by omega) hv
      rw [hsa] at hb2 hc2
      have hsw := fun k => keyAt_swapAt key data b2 (c2 - 1) k (by omega) (by omega)
      have hs3 : Split3 (keyAt key (swapAt data b2 (c2 - 1))) lo (b2 + 1) (c2 - 1) hi p := by
        refine ⟨?_, fun k hk1 hk2 => ?_, fun k hk1 hk2 => ?_⟩
        · rw [hsw]
          have e1 : ¬ lo = c2 - 1 := by omega
          have e2 : ¬ lo = b2 := by omega
          simp only [e1, e2, if_false]
          exact hsa
        · rw [hsw]
          have e1 : ¬ k = c2 - 1 := by omega
          by_cases e2 : k = b2
          · subst e2
            simp only [e1, if_false, if_true]
            exact hc2
          · simp only [e1, e2, if_false]
            exact hs2.2.1 k hk1 (by omega)
        · rw [hsw]
          by_cases e1 : k = c2 - 1
          · simp only [e1, if_true]
            exact hb2
          · have e2 : ¬ k = b2 := by omega
            simp only [e1, e2, if_false]
            exact hs2.2.2 k (by omega) hk2
      obtain ⟨r1, r2, r3, r4, r5⟩ := ih (swapAt data b2 (c2 - 1)) (b2 + 1) (c2 - 1) (by omega)
        (by omega) (by omega) (by omega) (by rw [length_swapAt]; exact hlen) hs3
      exact ⟨(Moves.moves_swap key (lo + 1) (hi - 1) data b2 (c2 - 1) (by omega) (by omega)
        (by omega) (by omega) (by omega)).moves_trans r1, by omega, r3, by omega, r5⟩

theorem Zones.of_split3 {K : Type} [LinearOrder K] {f : Nat → K} {lo b hi : Nat} {p : K}
    (h : Split3 f lo b b hi p) : Zones f lo b b hi p :=
  ⟨h.1, h.2.1, fun k h1 h2 => by omega, h.2.2⟩

/-- The tests of three elements for equality to the pivot keep the keys in
their zones and leave `b` behind `lo`. -/
theorem doPivotDups_spec {α K : Type} [LinearOrder K] [Inhabited K] {less : α → α → Bool}
    {key : α → K} (hko : KeyOrder less key) (data : List α) (lo hi b : Nat) (p : K)
    (h12 : 12 < hi - lo) (h5 : 5 ≤ hi - b) (h4 : hi - b < (hi - lo) / 4)
    (hlen : hi ≤ data.length) (hz : Zones (keyAt key data) lo b b hi p) :
    Moves key (lo + 1) hi data (doPivotDups less data lo hi ((lo + hi) / 2) b b).1 ∧
      lo < (doPivotDups less data lo hi ((lo + hi) / 2) b b).2.1 ∧
      (doPivotDups less data lo hi ((lo + hi) / 2) b b).2.1 ≤
        (doPivotDups less data lo hi ((lo + hi) / 2) b b).2.2.1 ∧
      (doPivotDups less data lo hi ((lo + hi) / 2) b b).2.2.1 ≤ hi ∧
      Zones (keyAt key (doPivotDups less data lo hi ((lo + hi) / 2) b b).1) lo
        (doPivotDups less data lo hi ((lo + hi) / 2) b b).2.1
        (doPivotDups less data lo hi ((lo + hi) / 2) b b).2.2.1 hi p := by
  unfold doPivotDups
  dsimp only
  obtain ⟨z0, z1, z2, z3⟩ := hz
  -- the element at `hi - 1`
  have hs1 : ∃ s1 : List α × Nat × Nat,
      s1 = (if (!lessAt less data lo (hi - 1)) = true then (swapAt data b (hi - 1), b + 1, 1)
        else (data, b, 0)) ∧
      Moves key (lo + 1) hi data s1.1 ∧ b ≤ s1.2.1 ∧ s1.2.1 ≤ b + 1 ∧
      Zones (keyAt key s1.1) lo b s1.2.1 hi p := by
    refine ⟨_, rfl, ?_⟩
    split
    · rename_i hl
      have hf : lessAt less data lo (hi - 1) = false := by simpa using hl
      have hle := keyAt_le_of_not_lessAt hko data lo (hi - 1) (by omega) (by omega) hf
      rw [z0] at hle
      have heq : keyAt key data (hi - 1) = p := le_antisymm hle (z3 (hi - 1) (by omega) (by omega))
      have hsw := fun k => keyAt_swapAt key data b (hi - 1) k (by omega) (by omega)
      refine ⟨Moves.moves_swap key (lo + 1) hi data b (hi - 1) (by omega) (by omega) (by omega)
        (by omega) hlen, by dsimp only; omega, by dsimp only; omega, ?_, fun k hk1 hk2 => ?_,
        fun k hk1 hk2 => ?_, fun k hk1 hk2 => ?_⟩
      · dsimp only
        rw [hsw]
        have e1 : ¬ lo = hi - 1 := by omega
        have e2 : ¬ lo = b := by omega
        simp only [e1, e2, if_false]
        exact z0
      · dsimp only
        rw [hsw]
        have e1 : ¬ k = hi - 1 := by omega
        have e2 : ¬ k = b := by omega
        simp only [e1, e2, if_false]
        exact z1 k hk1 hk2
      · dsimp only at hk2 ⊢
        have e : k = b := by omega
        rw [hsw, e]
        have e1 : ¬ b = hi - 1 := by omega
        simp only [e1, if_false, if_true]
        exact heq
      · dsimp only at hk1 ⊢
        rw [hsw]
        by_cases e1 : k = hi - 1
        · simp only [e1, if_true]
          exact z3 b (le_refl _) (by omega)
        · have e2 : ¬ k = b := by omega
          simp only [e1, e2, if_false]
          exact z3 k (by omega) hk2
    · exact ⟨Moves.moves_refl key _ _ data, le_refl _, by dsimp only; omega,
        ⟨z0, z1, fun k hk1 hk2 => by dsimp only at hk2; omega, z3⟩⟩
  obtain ⟨s1, hs1e, hm1, hc1, hc2, hz1⟩ := hs1
  rw [← hs1e]
  have hlen1 : hi ≤ s1.1.length := by rw [hm1.length_eq]; exact hlen
  obtain ⟨y0, y1, y2, y3⟩ := hz1
  -- the element at `b - 1`
  have hs2 : ∃ s2 : Nat × Nat,
      s2 = (if (!lessAt less s1.1 (b - 1) lo) = true then (b - 1, s1.2.2 + 1)
        else (b, s1.2.2)) ∧
      b ≤ s2.1 + 1 ∧ s2.1 ≤ b ∧ Zones (keyAt key s1.1) lo s2.1 s1.2.1 hi p := by
    refine ⟨_, rfl, ?_⟩
    split
    · rename_i hl
      have hf : lessAt less s1.1 (b - 1) lo = false := by simpa using hl
      have hle := keyAt_le_of_not_lessAt hko s1.1 (b - 1) lo (by omega) (by omega) hf
      rw [y0] at hle
      have heq : keyAt key s1.1 (b - 1) = p := le_antisymm (y1 (b - 1) (by omega) (by omega)) hle
      refine ⟨by dsimp only; omega, by dsimp only; omega, y0, fun k hk1 hk2 => ?_,
        fun k hk1 hk2 => ?_, y3⟩
      · dsimp only at hk2
        exact y1 k hk1 (by omega)
      · dsimp only at hk1
        by_cases e : k = b - 1
        · rw [e]; exact heq
        · exact y2 k (by omega) hk2
    · exact ⟨by dsimp only; omega, le_refl _, y0, y1, y2, y3⟩
  obtain ⟨s2, hs2e, hb1, hb2, hz2⟩ := hs2
  rw [← hs2e]
  obtain ⟨x0, x1, x2, x3⟩ := hz2
  -- the element in the middle
  split
  · rename_i hl
    have hf : lessAt less s1.1 ((lo + hi) / 2) lo = false := by simpa using hl
    have hle := keyAt_le_of_not_lessAt hko s1.1 ((lo + hi) / 2) lo (by omega) (by omega) hf
    rw [x0] at hle
    have heq : keyAt key s1.1 ((lo + hi) / 2) = p :=
      le_antisymm (x1 ((lo + hi) / 2) (by omega) (by omega)) hle
    have hsw := fun k => keyAt_swapAt key s1.1 ((lo + hi) / 2) (s2.1 - 1) k (by omega) (by omega)
    refine ⟨hm1.moves_trans (Moves.moves_swap key (lo + 1) hi s1.1 ((lo + hi) / 2) (s2.1 - 1)
      (by omega) (by omega) (by omega) (by omega) hlen1), by dsimp only; omega,
      by dsimp only; omega, by omega, ?_, fun k hk1 hk2 => ?_,
      fun k hk1 hk2 => ?_, fun k hk1 hk2 => ?_⟩
    · dsimp only
      rw [hsw]
      have e1 : ¬ lo = s2.1 - 1 := by omega
      have e2 : ¬ lo = (lo + hi) / 2 := by omega
      simp only [e1, e2, if_false]
      exact x0
    · dsimp only at hk2 ⊢
      rw [hsw]
      have e1 : ¬ k = s2.1 - 1 := by omega
      by_cases e2 : k = (lo + hi) / 2
      · subst e2
        simp only [e1, if_false, if_true]
        exact x1 (s2.1 - 1) (by omega) (by omega)
      · simp only [e1, e2, if_false]
        exact x1 k hk1 (by omega)
    · dsimp only at hk1 hk2 ⊢
      rw [hsw]
      by_cases e1 : k = s2.1 - 1
      · simp only [e1, if_true]
        exact heq
      · have e2 : ¬ k = (lo + hi) / 2 := by omega
        simp only [e1, e2, if_false]
        exact x2 k (by omega) hk2
    · dsimp only at hk1 ⊢
      rw [hsw]
      have e1 : ¬ k = s2.1 - 1 := by omega
      have e2 : ¬ k = (lo + hi) / 2 := by omega
      simp only [e1, e2, if_false]
      exact x3 k hk1 hk2
  · exact ⟨hm1, by dsimp only; omega, by dsimp only; omega, by omega,
      x0, x1, x2, x3⟩

theorem doPivotProtect_spec {α K : Type} [LinearOrder K] [Inhabited K] {less : α → α → Bool}
    {key : α → K} (hko : KeyOrder less key) (lo hi c : Nat) (p : K) (fuel : Nat)
    (data : List α) (a b : Nat) (hfuel : b - a < fuel) (hloa : lo < a) (hlob : lo < b)
    (hbc : b ≤ c) (hchi : c ≤ hi) (hlen : hi ≤ data.length)
    (hz : Zones (keyAt key data) lo b c hi p) :
    Moves key (lo + 1) hi data (doPivotProtect less lo fuel data a b).1 ∧
      lo < (doPivotProtect less lo fuel data a b).2 ∧
      (doPivotProtect less lo fuel data a b).2 ≤ b ∧
      Zones (keyAt key (doPivotProtect less lo fuel data a b).1) lo
        (doPivotProtect less lo fuel data a b).2 c hi p := by
  induction fuel generalizing data a b with
  | zero => omega
  | succ fuel ih =>
    obtain ⟨v1, v2, v3, v4⟩ := scanDownBefore_spec (fun k => !lessAt less data k lo) (b - a) b
      (by omega)
    unfold doPivotProtect
    dsimp only
    generalize scanDownBefore (fun k => !lessAt less data k lo) (b - a) b = b2 at v1 v2 v3 v4 ⊢
    obtain ⟨u1, u2, u3, u4⟩ := scanUp_spec (fun k => lessAt less data k lo) (b2 - a) a
    generalize scanUp (fun k => lessAt less data k lo) (b2 - a) a = a2 at u1 u2 u3 u4 ⊢
    obtain ⟨z0, z1, z2, z3⟩ := hz
    have hz2 : Zones (keyAt key data) lo b2 c hi p := by
      refine ⟨z0, fun k hk1 hk2 => z1 k hk1 (by omega), fun k hk1 hk2 => ?_, z3⟩
      by_cases hkb : b ≤ k
      · exact z2 k hkb hk2
      · have hf : lessAt less data k lo = false := by
          have := v3 k hk1 (by omega)
          simpa using this
        have hle := keyAt_le_of_not_lessAt hko data k lo (by omega) (by omega) hf
        rw [z0] at hle
        exact le_antisymm (z1 k (by omega) (by omega)) hle
    split
    · exact ⟨Moves.moves_refl key _ _ data, by dsimp only; omega, by dsimp only; omega, hz2⟩
    · rename_i hba
      have hu : lessAt less data a2 lo = false := u4 (by omega)
      have hv : lessAt less data (b2 - 1) lo = true := by
        have := v4 (by omega)
        simpa using this
      have hne : a2 ≠ b2 - 1 := by
        intro e
        rw [e, hv] at hu
        exact Bool.noConfusion hu
      have ha2 := keyAt_le_of_not_lessAt hko data a2 lo (by omega) (by omega) hu
      have hb2 := keyAt_le_of_lessAt hko data (b2 - 1) lo hv
      rw [z0] at ha2 hb2
      have heq : keyAt key data a2 = p := le_antisymm (hz2.2.1 a2 (by omega) (by omega)) ha2
      have hsw := fun k => keyAt_swapAt key data a2 (b2 - 1) k (by omega) (by omega)
      have hz3 : Zones (keyAt key (swapAt data a2 (b2 - 1))) lo (b2 - 1) c hi p := by
        refine ⟨?_, fun k hk1 hk2 => ?_, fun k hk1 hk2 => ?_, fun k hk1 hk2 => ?_⟩
        · rw [hsw]
          have e1 : ¬ lo = b2 - 1 := by omega
          have e2 : ¬ lo = a2 := by omega
          simp only [e1, e2, if_false]
          exact z0
        · rw [hsw]
          have e1 : ¬ k = b2 - 1 := by omega
          by_cases e2 : k = a2
          · subst e2
            simp only [e1, if_false, if_true]
            exact hb2
          · simp only [e1, e2, if_false]
            exact hz2.2.1 k hk1 (by omega)
        · rw [hsw]
          by_cases e1 : k = b2 - 1
          · simp only [e1, if_true]
            exact heq
          · have e2 : ¬ k = a2 := by omega
            simp only [e1, e2, if_false]
            exact hz2.2.2.1 k (by omega) hk2
        · rw [hsw]
          have e1 : ¬ k = b2 - 1 := by omega
          have e2 : ¬ k = a2 := by omega
          simp only [e1, e2, if_false]
          exact z3 k hk1 hk2
      obtain ⟨r1, r2, r3, r4⟩ := ih (swapAt data a2 (b2 - 1)) (a2 + 1) (b2 - 1) (by omega)
        (by omega) (by omega) (by omega) (by rw [length_swapAt]; exact hlen) hz3
      exact ⟨(Moves.moves_swap key (lo + 1) hi data a2 (b2 - 1) (by omega) (by omega) (by omega)
        (by omega) hlen).moves_trans r1, r2, by omega, r4⟩

/-- The function `doPivot` on a range of more than 12 elements: the two
indices it returns bound a part of the range that is not empty and whose keys
are one key `p`; the keys before it are not above `p`, the keys behind it are
not below `p`, and only the keys of the range were moved. -/
theorem doPivot_spec {α K : Type} [LinearOrder K] [Inhabited K] {less : α → α → Bool}
    {key : α → K} (hko : KeyOrder less key) (data : List α) (lo hi : Nat) (h12 : 12 < hi - lo)
    (hlen : hi ≤ data.length) :
    Moves key lo hi data (doPivot less data lo hi).1 ∧
      lo ≤ (doPivot less data lo hi).2.1 ∧
      (doPivot less data lo hi).2.1 < (doPivot less data lo hi).2.2 ∧
      (doPivot less data lo hi).2.2 ≤ hi ∧
      ∃ p, (∀ k, lo ≤ k → k < (doPivot less data lo hi).2.1 →
          keyAt key (doPivot less data lo hi).1 k ≤ p) ∧
        (∀ k, (doPivot less data lo hi).2.1 ≤ k → k < (doPivot less data lo hi).2.2 →
          keyAt key (doPivot less data lo hi).1 k = p) ∧
        ∀ k, (doPivot less data lo hi).2.2 ≤ k → k < hi →
          p ≤ keyAt key (doPivot less data lo hi).1 k := by
  unfold doPivot
  dsimp only
  obtain ⟨m1, m2⟩ := doPivotMedians_spec hko data lo hi h12 hlen
  generalize doPivotMedians less data lo hi = d0 at m1 m2 ⊢
  have hlen0 : hi ≤ d0.length := by rw [m1.length_eq]; exact hlen
  obtain ⟨u1, u2, u3, u4⟩ := scanUp_spec (fun k => lessAt less d0 k lo) (hi - 1 - (lo + 1))
    (lo + 1)
  generalize scanUp (fun k => lessAt less d0 k lo) (hi - 1 - (lo + 1)) (lo + 1) = a
    at u1 u2 u3 u4 ⊢
  have hs0 : Split3 (keyAt key d0) lo a (hi - 1) hi (keyAt key d0 lo) := by
    refine ⟨rfl, fun k hk1 hk2 => keyAt_le_of_lessAt hko d0 k lo (u3 k (by omega) hk2),
      fun k hk1 hk2 => ?_⟩
    have e : k = hi - 1 := by omega
    rw [e]
    exact m2
  obtain ⟨l1, l2, l3, l4, l5⟩ := doPivotLoop_spec hko lo hi _ (hi - lo) d0 a (hi - 1) (by omega)
    (by omega) (by omega) (by omega) hlen0 hs0
  generalize doPivotLoop less lo (hi - lo) d0 a (hi - 1) = r at l1 l2 l3 l4 l5 ⊢
  have hlenr : hi ≤ r.1.length := by rw [l1.length_eq]; exact hlen0
  rw [← l3] at l5
  have hzr : Zones (keyAt key r.1) lo r.2.1 r.2.1 hi (keyAt key d0 lo) := Zones.of_split3 l5
  -- the tests for duplicates
  have hd : ∃ d : List α × Nat × Nat × Bool,
      d = (if (!decide (hi - r.2.2 < 5) && decide (hi - r.2.2 < (hi - lo) / 4)) = true then
          doPivotDups less r.1 lo hi ((lo + hi) / 2) r.2.1 r.2.2
        else (r.1, r.2.1, r.2.2, decide (hi - r.2.2 < 5))) ∧
      Moves key (lo + 1) hi r.1 d.1 ∧ lo < d.2.1 ∧ d.2.1 ≤ d.2.2.1 ∧ d.2.2.1 ≤ hi ∧
      Zones (keyAt key d.1) lo d.2.1 d.2.2.1 hi (keyAt key d0 lo) := by
    refine ⟨_, rfl, ?_⟩
    split
    · rename_i hc
      simp only [Bool.and_eq_true, Bool.not_eq_true', decide_eq_false_iff_not,
        decide_eq_true_eq] at hc
      rw [← l3]
      exact doPivotDups_spec hko r.1 lo hi r.2.1 _ h12 (by omega) (by omega) hlenr hzr
    · exact ⟨Moves.moves_refl key _ _ r.1, by dsimp only; omega, by dsimp only; omega,
        by dsimp only; omega, by dsimp only; rw [← l3]; exact hzr⟩
  obtain ⟨d, hde, d1, d2, d3, d4, d5⟩ := hd
  rw [← hde]
  have hlend : hi ≤ d.1.length := by rw [d1.length_eq]; exact hlenr
  -- the loop that protects against duplicates
  have hq : ∃ q : List α × Nat,
      q = (if d.2.2.2 = true then doPivotProtect less lo (hi - lo) d.1 a d.2.1
        else (d.1, d.2.1)) ∧
      Moves key (lo + 1) hi d.1 q.1 ∧ lo < q.2 ∧ q.2 ≤ d.2.2.1 ∧
      Zones (keyAt key q.1) lo q.2 d.2.2.1 hi (keyAt key d0 lo) := by
    refine ⟨_, rfl, ?_⟩
    split
    · obtain ⟨p1, p2, p3, p4⟩ := doPivotProtect_spec hko lo hi d.2.2.1 _ (hi - lo) d.1 a d.2.1
        (by omega) (by omega) d2 d3 d4 hlend d5
      exact ⟨p1, p2, by omega, p4⟩
    · exact ⟨Moves.moves_refl key _ _ d.1, d2, d3, d5⟩
  obtain ⟨q, hqe, q1, q2, q3, q4⟩ := hq
  rw [← hqe]
  have hlenq : hi ≤ q.1.length := by rw [q1.length_eq]; exact hlend
  obtain ⟨z0, z1, z2, z3⟩ := q4
  have hsw := fun k => keyAt_swapAt key q.1 lo (q.2 - 1) k (by omega) (by omega)
  refine ⟨(((m1.moves_trans (l1.moves_mono (by omega) (by omega))).moves_trans
      (d1.moves_mono (by omega) (le_refl _))).moves_trans
      (q1.moves_mono (by omega) (le_refl _))).moves_trans
      (Moves.moves_swap key lo hi q.1 lo (q.2 - 1) (le_refl _) (by omega) (by omega) (by omega)
        hlenq), by omega, by omega, d4, keyAt key d0 lo, fun k hk1 hk2 => ?_,
    fun k hk1 hk2 => ?_, fun k hk1 hk2 => ?_⟩
  · rw [hsw]
    have e1 : ¬ k = q.2 - 1 := by omega
    by_cases e2 : k = lo
    · simp only [e1, e2, if_false, if_true]
      by_cases e3 : lo = q.2 - 1
      · simp only [e3, if_true]
        rw [← e3]
        exact le_of_eq z0
      · simp only [e3, if_false]
        exact z1 (q.2 - 1) (by omega) (by omega)
    · simp only [e1, e2, if_false]
      exact z1 k (by omega) (by omega)
  · rw [hsw]
    by_cases e1 : k = q.2 - 1
    · simp only [e1, if_true]
      exact z0
    · have e2 : ¬ k = lo := by omega
      simp only [e1, e2, if_false]
      exact z2 k (by omega) hk2
  · rw [hsw]
    have e1 : ¬ k = q.2 - 1 := by omega
    have e2 : ¬ k = lo := by omega
    simp only [e1, e2, if_false]
    exact z3 k hk1 hk2

/-- The pass of the shell sort only swaps elements of the range. -/
theorem shellPass_moves {α K : Type} [Inhabited K] (less : α → α → Bool) (key : α → K)
    (a b n i : Nat) (data : List α) (hai : a + 6 ≤ i) (hib : i + n ≤ b) (hb : b ≤ data.length) :
    Moves key a b data (shellPass less n i data) := by
  induction n generalizing i data with
  | zero => exact Moves.moves_refl key a b data
  | succ n ih =>
    unfold shellPass
    split
    · exact (Moves.moves_swap key a b data i (i - 6) (by omega) (by omega) (by omega) (by omega)
        hb).moves_trans (ih (i + 1) _ (by omega) (by omega) (by rw [length_swapAt]; exact hb))
    · exact ih (i + 1) data (by omega) (by omega) hb

/-- The end of `quickSort`, on a range of at most 12 elements: the keys of the
range ascend afterwards and only they were moved. -/
theorem quickSort_small {α K : Type} [LinearOrder K] [Inhabited K] {less : α → α → Bool}
    {key : α → K} (hko : KeyOrder less key) (data : List α) (a b : Nat)
    (hb : b ≤ data.length) :
    Moves key a b data
        (if 1 < b - a then insertionSort less (shellPass less (b - (a + 6)) (a + 6) data) a b
          else data) ∧
      SortedOn (keyAt key
        (if 1 < b - a then insertionSort less (shellPass less (b - (a + 6)) (a + 6) data) a b
          else data)) a b := by
  split
  · by_cases h6 : a + 6 ≤ b
    · have hs := shellPass_moves less key a b (b - (a + 6)) (a + 6) data (le_refl _) (by omega) hb
      have hi := insertionSort_spec hko (shellPass less (b - (a + 6)) (a + 6) data) a b
        (by rw [hs.length_eq]; exact hb)
      exact ⟨hs.moves_trans hi.1, hi.2⟩
    · have e : b - (a + 6) = 0 := by omega
      rw [e]
      unfold shellPass
      exact insertionSort_spec hko data a b hb
  · exact ⟨Moves.moves_refl key a b data, SortedOn.of_le_one _ _ _ (by omega)⟩

/-- Two ranges with ascending keys and, between them, a range that holds one
key `p` that is not below the keys before it and not above the keys behind it
make one range with ascending keys. -/
theorem SortedOn.join_equal {K : Type} [LinearOrder K] {f : Nat → K} {a m n b : Nat} (p : K)
    (h1 : SortedOn f a m) (h2 : SortedOn f n b)
    (hl : ∀ x, a ≤ x → x < m → f x ≤ p) (hm : ∀ x, m ≤ x → x < n → f x = p)
    (hr : ∀ y, n ≤ y → y < b → p ≤ f y) : SortedOn f a b := by
  intro x y hx hxy hy
  by_cases hym : y < m
  · exact h1 x y hx hxy hym
  · by_cases hxn : n ≤ x
    · exact h2 x y hxn hxy hy
    · have hxp : f x ≤ p := by
        by_cases hxm : x < m
        · exact hl x hx hxm
        · exact le_of_eq (hm x (by omega) (by omega))
      have hyp : p ≤ f y := by
        by_cases hyn : n ≤ y
        · exact hr y hyn hy
        · exact le_of_eq (hm y (by omega) (by omega)).symm
      exact le_trans hxp hyp

/-- The function `quickSort` on the range from `a` up to `b`: the keys of the
range ascend afterwards, and only the keys of the range were moved. -/
theorem quickSort_spec {α K : Type} [LinearOrder K] [Inhabited K] {less : α → α → Bool}
    {key : α → K} (hko : KeyOrder less key) (fuel : Nat) (data : List α) (a b maxDepth : Nat)
    (hab : a ≤ b) (hb : b ≤ data.length) (hfuel : b - a ≤ fuel) :
    Moves key a b data (quickSort less fuel data a b maxDepth) ∧
      SortedOn (keyAt key (quickSort less fuel data a b maxDepth)) a b := by
  induction fuel generalizing data a b maxDepth with
  | zero =>
    unfold quickSort
    exact quickSort_small hko data a b hb
  | succ fuel ih =>
    unfold quickSort
    split
    · rename_i h12
      split
      · exact heapSort_spec hko data a b hab hb
      · obtain ⟨t1, t2, t3, t4, p, t5, t6, t7⟩ := doPivot_spec hko data a b h12 hb
        generalize doPivot less data a b = r at t1 t2 t3 t4 t5 t6 t7 ⊢
        dsimp only
        have hbr : b ≤ r.1.length := by rw [t1.length_eq]; exact hb
        split
        · -- the part before the pivot first, then the part behind it
          obtain ⟨q1, q2⟩ := ih r.1 a r.2.1 (maxDepth - 1) t2 (by omega) (by omega)
          generalize quickSort less fuel r.1 a r.2.1 (maxDepth - 1) = d5 at q1 q2 ⊢
          obtain ⟨s1, s2⟩ := ih d5 r.2.2 b (maxDepth - 1) t4
            (by rw [q1.length_eq]; exact hbr) (by omega)
          generalize quickSort less fuel d5 r.2.2 b (maxDepth - 1) = d6 at s1 s2 ⊢
          refine ⟨(t1.moves_trans (q1.moves_mono (le_refl _) (by omega))).moves_trans
            (s1.moves_mono (by omega) (le_refl _)), ?_⟩
          refine SortedOn.join_equal p (q2.congr fun k hk1 hk2 => s1.rearr.1 k (by omega)) s2
            (fun x hx1 hx2 => ?_) (fun x hx1 hx2 => ?_) (fun y hy1 hy2 => ?_)
          · rw [s1.rearr.1 x (by omega)]
            obtain ⟨x2, h1, h2, e⟩ := q1.rearr.2 x hx1 hx2
            rw [e]
            exact t5 x2 h1 h2
          · rw [s1.rearr.1 x (by omega), q1.rearr.1 x (by omega)]
            exact t6 x hx1 hx2
          · obtain ⟨y2, h1, h2, e⟩ := s1.rearr.2 y hy1 hy2
            rw [e, q1.rearr.1 y2 (by omega)]
            exact t7 y2 h1 h2
        · -- the part behind the pivot first, then the part before it
          obtain ⟨q1, q2⟩ := ih r.1 r.2.2 b (maxDepth - 1) t4 hbr (by omega)
          generalize quickSort less fuel r.1 r.2.2 b (maxDepth - 1) = d5 at q1 q2 ⊢
          obtain ⟨s1, s2⟩ := ih d5 a r.2.1 (maxDepth - 1) t2
            (by rw [q1.length_eq]; omega) (by omega)
          generalize quickSort less fuel d5 a r.2.1 (maxDepth - 1) = d6 at s1 s2 ⊢
          refine ⟨(t1.moves_trans (q1.moves_mono (by omega) (le_refl _))).moves_trans
            (s1.moves_mono (le_refl _) (by omega)), ?_⟩
          refine SortedOn.join_equal p s2 (q2.congr fun k hk1 hk2 => s1.rearr.1 k (by omega))
            (fun x hx1 hx2 => ?_) (fun x hx1 hx2 => ?_) (fun y hy1 hy2 => ?_)
          · obtain ⟨x2, h1, h2, e⟩ := s1.rearr.2 x hx1 hx2
            rw [e, q1.rearr.1 x2 (by omega)]
            exact t5 x2 h1 h2
          · rw [s1.rearr.1 x (by omega), q1.rearr.1 x (by omega)]
            exact t6 x hx1 hx2
          · rw [s1.rearr.1 y (by omega)]
            obtain ⟨y2, h1, h2, e⟩ := q1.rearr.2 y hy1 hy2
            rw [e]
            exact t7 y2 h1 h2
    · exact quickSort_small hko data a b hb

/-- The call `sort.Sort` of the releases before Go 1.19 returns the elements
of the slice, in some order. -/
theorem sortSortLegacy_perm {α : Type} (less : α → α → Bool) (data : List α) :
    (sortSortLegacy less data).Perm data :=
  (quickSort_spec (KeyOrder.trivial less) data.length data 0 data.length
    (bitsLen data.length * 2) (Nat.zero_le _) (le_refl _) (by omega)).1.perm

/-- When the answers of `less` agree with the order of a key, the call
`sort.Sort` of the releases before Go 1.19 leaves the keys ascending. -/
theorem sortSortLegacy_sorted {α K : Type} [LinearOrder K] [Inhabited K] {less : α → α → Bool}
    {key : α → K} (hko : KeyOrder less key) (data : List α) :
    (sortSortLegacy less data).Pairwise fun earlier later => key earlier ≤ key later := by
  have h := quickSort_spec hko data.length data 0 data.length (bitsLen data.length * 2)
    (Nat.zero_le _) (le_refl _) (by omega)
  have hsorted : SortedOn (keyAt key (sortSortLegacy less data)) 0
      (sortSortLegacy less data).length := by
    unfold sortSortLegacy
    rw [h.1.length_eq]
    exact h.2
  rw [List.pairwise_iff_get]
  intro i j hij
  have h := hsorted i.1 j.1 (Nat.zero_le _) (le_of_lt hij) j.2
  rwa [keyAt_eq_getElem key _ i.1 i.2, keyAt_eq_getElem key _ j.1 j.2] at h

/-- When `less` puts every element with `key` false before every element with
`key` true, the slice sorted by the releases before Go 1.19 has the elements
with `key` true at the end. -/
theorem sortSortLegacy_partition {α : Type} (less : α → α → Bool) (key : α → Bool)
    (h : ∀ x y, key x = true → key y = false → less x y = false)
    (h2 : ∀ x y, key x = false → key y = true → less x y = true) (data : List α) :
    (sortSortLegacy less data).Pairwise fun earlier later =>
      key earlier = true → key later = true := by
  refine (sortSortLegacy_sorted (KeyOrder.of_bool less key h h2) data).imp ?_
  intro x y hle hx
  rw [hx] at hle
  cases hy : key y
  · rw [hy] at hle
    exact absurd hle (by decide)
  · rfl

/-! ## The fuel of the recursions -/

theorem LeftBelow.of_unit {α : Type} (data : List α) (a b : Nat) :
    LeftBelow (keyAt (fun _ : α => ()) data) a b :=
  fun _ _ _ _ _ => le_of_eq (Subsingleton.elim _ _)

/-- One more than enough `fuel` does not change the result of `pdqsort`: the
case of no `fuel` left is only reached with an empty range. -/
theorem pdqsort_fuel_succ {α : Type} (less : α → α → Bool) (fuel : Nat) (data : List α)
    (a b limit : Nat) (wasBalanced wasPartitioned : Bool) (hab : a ≤ b)
    (hb : b ≤ data.length) (hfuel : b - a ≤ fuel) :
    pdqsort less (fuel + 1) data a b limit wasBalanced wasPartitioned =
      pdqsort less fuel data a b limit wasBalanced wasPartitioned := by
  induction fuel generalizing data a b limit wasBalanced wasPartitioned with
  | zero =>
    unfold pdqsort
    rw [if_pos (by omega)]
  | succ fuel ih =>
    rw [pdqsort, pdqsort]
    by_cases h12 : b - a ≤ 12
    · rw [if_pos h12, if_pos h12]
    · rw [if_neg h12, if_neg h12]
      by_cases hlim : limit = 0
      · rw [if_pos hlim, if_pos hlim]
      · rw [if_neg hlim, if_neg hlim]
        have hko := KeyOrder.trivial less
        obtain ⟨hst1, hst2, hst3, -⟩ := pdqsortPrepare_spec hko data a b limit wasBalanced
          wasPartitioned (by omega) hb (LeftBelow.of_unit data a b)
        generalize pdqsortPrepare less data a b limit wasBalanced wasPartitioned = st
          at hst1 hst2 hst3 ⊢
        dsimp only
        have hb3 : b ≤ st.1.length := by rw [hst1.length_eq]; exact hb
        obtain ⟨e1, e2, e3, -, -⟩ := partitionEqual_spec hko st.1 a b st.2.2.1 hst2 hst3 hb3
        generalize partitionEqual less st.1 a b st.2.2.1 = pe at e1 e2 e3 ⊢
        obtain ⟨t1, t2, t3, -, -⟩ := partition_spec hko st.1 a b st.2.2.1 hst2 hst3 hb3
        generalize partition less st.1 a b st.2.2.1 = pt at t1 t2 t3 ⊢
        have hb4 : b ≤ pt.1.length := by rw [t1.length_eq]; exact hb3
        rw [ih pe.1 pe.2 b st.2.1 wasBalanced wasPartitioned e3
          (by rw [e1.length_eq]; exact hb3) (by omega)]
        rw [ih pt.1 a pt.2.1 st.2.1 true true t2 (by omega) (by omega)]
        rw [ih pt.1 (pt.2.1 + 1) b st.2.1 true true (by omega) hb4 (by omega)]
        have q1 := (pdqsort_spec hko fuel pt.1 a pt.2.1 st.2.1 true true t2 (by omega) (by omega)
          (LeftBelow.of_unit _ _ _)).1
        have q2 := (pdqsort_spec hko fuel pt.1 (pt.2.1 + 1) b st.2.1 true true (by omega) hb4
          (by omega) (LeftBelow.of_unit _ _ _)).1
        rw [ih (pdqsort less fuel pt.1 a pt.2.1 st.2.1 true true) (pt.2.1 + 1) b st.2.1 _ _
          (by omega) (by rw [q1.length_eq]; exact hb4) (by omega)]
        rw [ih (pdqsort less fuel pt.1 (pt.2.1 + 1) b st.2.1 true true) a pt.2.1 st.2.1 _ _
          t2 (by rw [q2.length_eq]; omega) (by omega)]

/-- Every amount of `fuel` from the length of the range on gives the same
result of `pdqsort`. -/
theorem pdqsort_fuel {α : Type} (less : α → α → Bool) (fuel : Nat) (data : List α)
    (a b limit : Nat) (wasBalanced wasPartitioned : Bool) (hab : a ≤ b)
    (hb : b ≤ data.length) (hfuel : b - a ≤ fuel) :
    pdqsort less fuel data a b limit wasBalanced wasPartitioned =
      pdqsort less (b - a) data a b limit wasBalanced wasPartitioned := by
  induction fuel with
  | zero =>
    have e : b - a = 0 := by omega
    rw [e]
  | succ fuel ih =>
    by_cases h : b - a ≤ fuel
    · rw [pdqsort_fuel_succ less fuel data a b limit wasBalanced wasPartitioned hab hb h]
      exact ih h
    · have e : b - a = fuel + 1 := by omega
      rw [e]

/-- One more than enough `fuel` does not change the result of `quickSort`. -/
theorem quickSort_fuel_succ {α : Type} (less : α → α → Bool) (fuel : Nat) (data : List α)
    (a b maxDepth : Nat) (hab : a ≤ b) (hb : b ≤ data.length) (hfuel : b - a ≤ fuel) :
    quickSort less (fuel + 1) data a b maxDepth = quickSort less fuel data a b maxDepth := by
  induction fuel generalizing data a b maxDepth with
  | zero =>
    unfold quickSort
    rw [if_neg (by omega)]
  | succ fuel ih =>
    rw [quickSort, quickSort]
    by_cases h12 : 12 < b - a
    · rw [if_pos h12, if_pos h12]
      by_cases hd : maxDepth = 0
      · rw [if_pos hd, if_pos hd]
      · rw [if_neg hd, if_neg hd]
        have hko := KeyOrder.trivial less
        obtain ⟨t1, t2, t3, t4, -⟩ := doPivot_spec hko data a b h12 hb
        generalize doPivot less data a b = r at t1 t2 t3 t4 ⊢
        dsimp only
        have hbr : b ≤ r.1.length := by rw [t1.length_eq]; exact hb
        rw [ih r.1 a r.2.1 (maxDepth - 1) t2 (by omega) (by omega)]
        rw [ih r.1 r.2.2 b (maxDepth - 1) t4 hbr (by omega)]
        have q1 := (quickSort_spec hko fuel r.1 a r.2.1 (maxDepth - 1) t2 (by omega)
          (by omega)).1
        have q2 := (quickSort_spec hko fuel r.1 r.2.2 b (maxDepth - 1) t4 hbr (by omega)).1
        rw [ih (quickSort less fuel r.1 a r.2.1 (maxDepth - 1)) r.2.2 b (maxDepth - 1) t4
          (by rw [q1.length_eq]; exact hbr) (by omega)]
        rw [ih (quickSort less fuel r.1 r.2.2 b (maxDepth - 1)) a r.2.1 (maxDepth - 1) t2
          (by rw [q2.length_eq]; omega) (by omega)]
    · rw [if_neg h12, if_neg h12]

/-- Every amount of `fuel` from the length of the range on gives the same
result of `quickSort`. -/
theorem quickSort_fuel {α : Type} (less : α → α → Bool) (fuel : Nat) (data : List α)
    (a b maxDepth : Nat) (hab : a ≤ b) (hb : b ≤ data.length) (hfuel : b - a ≤ fuel) :
    quickSort less fuel data a b maxDepth = quickSort less (b - a) data a b maxDepth := by
  induction fuel with
  | zero =>
    have e : b - a = 0 := by omega
    rw [e]
  | succ fuel ih =>
    by_cases h : b - a ≤ fuel
    · rw [quickSort_fuel_succ less fuel data a b maxDepth hab hb h]
      exact ih h
    · have e : b - a = fuel + 1 := by omega
      rw [e]

/-! ## The sorting routines on a bucket of thirteen bugs -/

set_option maxRecDepth 100000 in
/-- On thirteen bugs `sort.Sort` leaves the insertion sort: `pdqsort` chooses
a pivot and partitions the slice. With the comparator of the program the bugs
do not come out in the order of rank and identifier. -/
theorem sortSort_thirteen :
    (sortSort bugStateArray.Less thirteenStates).map (fun s => s.bug.ID) =
      [1, 3, 5, 2, 4, 6, 7, 9, 11, 13, 8, 10, 12] := by
  decide

set_option maxRecDepth 100000 in
/-- The quicksort of the releases before Go 1.19 on the same thirteen bugs. -/
theorem sortSortLegacy_thirteen :
    (sortSortLegacy bugStateArray.Less thirteenStates).map (fun s => s.bug.ID) =
      [1, 3, 5, 2, 4, 6, 7, 9, 11, 13, 8, 10, 12] := by
  decide

/-! ## Properties of the grouping loop -/

theorem filter_assignee_eq_nil (seen : List Bug) (k : String)
    (h : k ∉ seen.map Bug.AssignedTo) : (seen.filter fun b => b.AssignedTo = k) = [] := by
  rw [List.filter_eq_nil_iff]
  intro b hb hk
  exact h (List.mem_map.2 ⟨b, hb, by simpa using hk⟩)

theorem groupStep_GroupsOf (g : Groups) (seen : List Bug) (bug : Bug) (h : GroupsOf g seen) :
    GroupsOf (groupStep g bug) (seen ++ [bug]) := by
  by_cases hk : bug.AssignedTo ∈ seen.map Bug.AssignedTo
  · have hsome : g.bugStates bug.AssignedTo =
        some ((seen.filter fun b => b.AssignedTo = bug.AssignedTo).map classify) := by
      rw [h.buckets, if_pos hk]
    refine ⟨?_, ?_, ?_⟩
    · intro k
      by_cases hkk : k = bug.AssignedTo
      · subst hkk
        simp [groupStep, hsome, BugStates.set, BugStates.get, List.filter_append, classify]
      · have hkk2 : ¬ bug.AssignedTo = k := fun e => hkk e.symm
        simp [groupStep, hsome, BugStates.set, hkk, hkk2, List.filter_append, h.buckets k]
    · simpa [groupStep, hsome] using h.nodup
    · intro k
      by_cases hkk : k = bug.AssignedTo
      · subst hkk
        simpa [groupStep, hsome, h.keys] using hk
      · simp [groupStep, hsome, h.keys, hkk]
  · have hnone : g.bugStates bug.AssignedTo = none := by
      rw [h.buckets, if_neg hk]
    have hnil := filter_assignee_eq_nil seen bug.AssignedTo hk
    refine ⟨?_, ?_, ?_⟩
    · intro k
      by_cases hkk : k = bug.AssignedTo
      · subst hkk
        simp [groupStep, hnone, BugStates.set, BugStates.get, List.filter_append, classify, hnil]
      · have hkk2 : ¬ bug.AssignedTo = k := fun e => hkk e.symm
        simp [groupStep, hnone, BugStates.set, hkk, hkk2, List.filter_append, h.buckets k]
    · have : bug.AssignedTo ∉ g.assignees := fun hm => hk ((h.keys _).1 hm)
      simp only [groupStep, hnone, Option.isSome_none, Bool.false_eq_true, if_false]
      exact List.Nodup.append h.nodup (List.nodup_singleton _) (by simpa using this)
    · intro k
      simp [groupStep, hnone, h.keys]

theorem foldl_groupStep_GroupsOf (bugs : List Bug) (g : Groups) (seen : List Bug)
    (h : GroupsOf g seen) : GroupsOf (bugs.foldl groupStep g) (seen ++ bugs) := by
  induction bugs generalizing g seen with
  | nil => simpa using h
  | cons b bs ih =>
    have := ih (groupStep g b) (seen ++ [b]) (groupStep_GroupsOf g seen b h)
    simpa using this

theorem groupBugs_GroupsOf (bugs : List Bug) : GroupsOf (groupBugs bugs) bugs := by
  have h0 : GroupsOf { bugStates := fun _ => none, assignees := [] } [] :=
    ⟨fun k => by simp, List.nodup_nil, fun k => by simp⟩
  simpa [groupBugs] using foldl_groupStep_GroupsOf bugs _ [] h0

/-- The bucket of `assignee` before it is sorted: the fetched bugs of that
assignee, in the order in which they were fetched, each with its
classification. -/
theorem groupBugs_get (bugs : List Bug) (k : String) :
    (groupBugs bugs).bugStates.get k = (bugs.filter fun b => b.AssignedTo = k).map classify := by
  have h := (groupBugs_GroupsOf bugs).buckets k
  unfold BugStates.get
  rw [h]
  split
  · rfl
  · rename_i hk
    simp [filter_assignee_eq_nil bugs k hk]

/-! ## The order of the printed bugs -/

/-- C8: when bug 2 of severity "urgent" and bug 1 of severity "medium" are
fetched in this order for one assignee, neither ignored, the report prints the
medium bug before the urgent one: the sort asks `Less` whether the medium bug
goes before the urgent one, and `Less` answers by the identifiers. -/
theorem sortedBucket_not_by_rank :
    (sortedBucket (groupBugs urgentThenMedium).bugStates "alice").map
        (fun s => (s.ignored, s.bug.Severity, s.bug.ID)) =
      [(false, "medium", 1), (false, "urgent", 2)] ∧
    mainPrints urgentThenMedium =
      [Printf.summary "alice" 2 2 "1%2C2",
        Printf.issue "" "ASSIGNED" 1,
        Printf.issue "" "NEW" 2,
        Printf.blank,
        Printf.total 2 2] := by
  decide

/-- C9: in the bucket of an assignee as it is printed, after the sort, no
ignored bug stands before a bug that is not ignored. This holds for a bucket
of any length, with `sort.Sort` of Go 1.19 and later, and also with `sort.Sort`
of the releases before it. -/
theorem sortedBucket_ignored_last (bugs : List Bug) (assignee : String) :
    ((sortedBucket (groupBugs bugs).bugStates assignee).Pairwise
        fun earlier later => earlier.ignored = true → later.ignored = true) ∧
      (sortSortLegacy bugStateArray.Less ((groupBugs bugs).bugStates.get assignee)).Pairwise
        fun earlier later => earlier.ignored = true → later.ignored = true :=
  ⟨sortSort_partition bugStateArray.Less (fun s => s.ignored)
      (fun x y hx hy => not_Less_of_ignored_of_not_ignored x y hx hy)
      (fun x y hx hy => Less_of_not_ignored_of_ignored x y hx hy) _,
    sortSortLegacy_partition bugStateArray.Less (fun s => s.ignored)
      (fun x y hx hy => not_Less_of_ignored_of_not_ignored x y hx hy)
      (fun x y hx hy => Less_of_not_ignored_of_ignored x y hx hy) _⟩

/-! ## Properties of the report loop -/

theorem ignoredCount_append (l1 l2 : bugStateArray) :
    ignoredCount (l1 ++ l2) = ignoredCount l1 + ignoredCount l2 := by
  simp [ignoredCount]

theorem foldl_countStep (bugs : bugStateArray) (c : Counters) :
    bugs.foldl countStep c =
      { bugIDs := c.bugIDs ++ bugs.map (fun s => toString s.bug.ID)
        ignored := c.ignored + ignoredCount bugs
        total := c.total + (bugs.length : Int)
        totalIgnored := c.totalIgnored + ignoredCount bugs } := by
  induction bugs generalizing c with
  | nil => simp [ignoredCount]
  | cons b bs ih =>
    rw [List.foldl_cons, ih]
    cases hb : b.ignored <;>
      simp [countStep, hb, ignoredCount, add_assoc, add_comm, add_left_comm]

theorem reportStep_eq (bugStates : BugStates) (r : Report) (assignee : String) :
    reportStep bugStates r assignee =
      { total := r.total + ((sortedBucket bugStates assignee).length : Int)
        totalIgnored := r.totalIgnored + ignoredCount (sortedBucket bugStates assignee)
        out := r.out ++ sectionPrints bugStates assignee } := by
  simp [reportStep, foldl_countStep, sectionPrints]

theorem foldl_reportStep (bugStates : BugStates) (assignees : List String) (r : Report) :
    assignees.foldl (reportStep bugStates) r =
      { total := r.total + (assignees.map fun k => ((sortedBucket bugStates k).length : Int)).sum
        totalIgnored :=
          r.totalIgnored + (assignees.map fun k => ignoredCount (sortedBucket bugStates k)).sum
        out := r.out ++ assignees.flatMap (sectionPrints bugStates) } := by
  induction assignees generalizing r with
  | nil => simp
  | cons k ks ih =>
    rw [List.foldl_cons, ih, reportStep_eq]
    simp [add_assoc]

/-- The prints of `main`: one section per assignee, in the sorted order of the
assignees, and the line of the totals. -/
theorem mainPrints_eq (bugs : List Bug) :
    mainPrints bugs =
      (sortStrings (groupBugs bugs).assignees).flatMap (sectionPrints (groupBugs bugs).bugStates) ++
        [Printf.total
          (((sortStrings (groupBugs bugs).assignees).map fun k =>
              ((sortedBucket (groupBugs bugs).bugStates k).length : Int)).sum -
            ((sortStrings (groupBugs bugs).assignees).map fun k =>
              ignoredCount (sortedBucket (groupBugs bugs).bugStates k)).sum)
          (((sortStrings (groupBugs bugs).assignees).map fun k =>
              ((sortedBucket (groupBugs bugs).bugStates k).length : Int)).sum)] := by
  simp [mainPrints, foldl_reportStep]

/-! ## The totals -/

theorem sum_map_ite_eq_of_mem (ks : List String) (k0 : String) (c : Int) (hnd : ks.Nodup)
    (hk : k0 ∈ ks) : (ks.map fun k => if k0 = k then c else 0).sum = c := by
  induction ks with
  | nil => simp at hk
  | cons k ks ih =>
    rw [List.nodup_cons] at hnd
    have hzero : ∀ l : List String, k0 ∉ l → (l.map fun k => if k0 = k then c else 0).sum = 0 := by
      intro l hl
      induction l with
      | nil => rfl
      | cons a l ihl =>
        have ha : ¬ k0 = a := fun e => hl (e ▸ List.mem_cons_self _ _)
        simp [ha, ihl fun hm => hl (List.mem_cons_of_mem _ hm)]
    rcases List.mem_cons.1 hk with rfl | hk
    · simp [hzero ks hnd.1]
    · have hne : ¬ k0 = k := fun e => hnd.1 (e ▸ hk)
      simp [hne, ih hnd.2 hk]

/-- Summing a weight over the buckets of a list of keys that has each assignee
once gives the sum of the weight over all the bugs. -/
theorem sum_buckets (w : Bug → Int) (ks : List String) (bugs : List Bug) (hnd : ks.Nodup)
    (hcov : ∀ b ∈ bugs, b.AssignedTo ∈ ks) :
    (ks.map fun k => ((bugs.filter fun b => b.AssignedTo = k).map w).sum).sum =
      (bugs.map w).sum := by
  induction bugs with
  | nil => simp
  | cons b bs ih =>
    have hb := hcov b (List.mem_cons_self _ _)
    have hstep : ∀ k, (((b :: bs).filter fun b => b.AssignedTo = k).map w).sum =
        (if b.AssignedTo = k then w b else 0) +
          ((bs.filter fun b => b.AssignedTo = k).map w).sum := by
      intro k
      by_cases hk : b.AssignedTo = k <;> simp [List.filter_cons, hk]
    simp only [hstep]
    rw [List.sum_map_add, sum_map_ite_eq_of_mem ks b.AssignedTo (w b) hnd hb,
      ih fun b2 hb2 => hcov b2 (List.mem_cons_of_mem _ hb2)]
    simp

theorem ignoredCount_perm (l1 l2 : bugStateArray) (h : l1.Perm l2) :
    ignoredCount l1 = ignoredCount l2 :=
  (h.map _).sum_eq

theorem sortedBucket_perm (bugs : List Bug) (k : String) :
    (sortedBucket (groupBugs bugs).bugStates k).Perm
      ((bugs.filter fun b => b.AssignedTo = k).map classify) := by
  rw [← groupBugs_get]
  exact sortSort_perm _ _

theorem sortedBucket_length (bugs : List Bug) (k : String) :
    ((sortedBucket (groupBugs bugs).bugStates k).length : Int) =
      ((bugs.filter fun b => b.AssignedTo = k).map fun _ => (1 : Int)).sum := by
  rw [(sortedBucket_perm bugs k).length_eq]
  simp

theorem sortedBucket_ignoredCount (bugs : List Bug) (k : String) :
    ignoredCount (sortedBucket (groupBugs bugs).bugStates k) =
      ((bugs.filter fun b => b.AssignedTo = k).map
        fun b => if (ignoreBug b).1 then (1 : Int) else 0).sum := by
  rw [ignoredCount_perm _ _ (sortedBucket_perm bugs k)]
  simp [ignoredCount, classify, Function.comp_def]

theorem sortStrings_nodup_cover (bugs : List Bug) :
    (sortStrings (groupBugs bugs).assignees).Nodup ∧
      ∀ b ∈ bugs, b.AssignedTo ∈ sortStrings (groupBugs bugs).assignees := by
  have hp : (sortStrings (groupBugs bugs).assignees).Perm (groupBugs bugs).assignees :=
    sortSort_perm _ _
  have hg := groupBugs_GroupsOf bugs
  refine ⟨hp.nodup_iff.2 hg.nodup, fun b hb => hp.mem_iff.2 ((hg.keys _).2 ?_)⟩
  exact List.mem_map.2 ⟨b, hb, rfl⟩

theorem sum_lengths (bugs : List Bug) :
    ((sortStrings (groupBugs bugs).assignees).map fun k =>
        ((sortedBucket (groupBugs bugs).bugStates k).length : Int)).sum = (bugs.length : Int) := by
  simp only [sortedBucket_length]
  rw [sum_buckets _ _ _ (sortStrings_nodup_cover bugs).1 (sortStrings_nodup_cover bugs).2]
  simp

theorem sum_map_ite_eq_countP (p : Bug → Bool) (bugs : List Bug) :
    (bugs.map fun b => if p b then (1 : Int) else 0).sum = (bugs.countP p : Int) := by
  induction bugs with
  | nil => rfl
  | cons b bs ih =>
    cases hb : p b <;> simp [List.countP_cons, hb, ih]
    omega

theorem sum_ignoredCounts (bugs : List Bug) :
    ((sortStrings (groupBugs bugs).assignees).map fun k =>
        ignoredCount (sortedBucket (groupBugs bugs).bugStates k)).sum =
      (bugs.countP (fun b => (ignoreBug b).1) : Int) := by
  simp only [sortedBucket_ignoredCount]
  rw [sum_buckets _ _ _ (sortStrings_nodup_cover bugs).1 (sortStrings_nodup_cover bugs).2]
  exact sum_map_ite_eq_countP _ bugs

theorem summaryCounts_sectionPrints (bugStates : BugStates) (k : String) :
    summaryCounts (sectionPrints bugStates k) =
      [(((sortedBucket bugStates k).length : Int) - ignoredCount (sortedBucket bugStates k),
        ((sortedBucket bugStates k).length : Int))] := by
  have hmap : ∀ l : bugStateArray, summaryCounts (l.map issueLine) = [] := by
    intro l
    induction l with
    | nil => rfl
    | cons a l _ => simp [summaryCounts, issueLine]
  simp only [sectionPrints, summaryCounts, List.filterMap_append] at hmap ⊢
  rw [hmap]
  rfl

theorem summaryCounts_flatMap (bugStates : BugStates) (ks : List String) :
    summaryCounts (ks.flatMap (sectionPrints bugStates)) =
      ks.map fun k =>
        (((sortedBucket bugStates k).length : Int) - ignoredCount (sortedBucket bugStates k),
          ((sortedBucket bugStates k).length : Int)) := by
  induction ks with
  | nil => rfl
  | cons k ks ih =>
    have happ : ∀ l1 l2, summaryCounts (l1 ++ l2) = summaryCounts l1 ++ summaryCounts l2 := by
      intro l1 l2
      simp [summaryCounts, List.filterMap_append]
    rw [List.flatMap_cons, happ, ih, summaryCounts_sectionPrints]
    rfl

theorem String_join_concat (l : List String) (x : String) :
    String.join (l ++ [x]) = String.join l ++ x := by
  apply String.ext
  simp [String.join_eq]

theorem sum_map_sub_int (l : List String) (f g : String → Int) :
    (l.map fun k => f k - g k).sum = (l.map f).sum - (l.map g).sum := by
  induction l with
  | nil => rfl
  | cons k ks ih =>
    simp only [List.map_cons, List.sum_cons, ih]
    omega

/-- C10: the last print of `main` is the line "Total: A/G" where `G` is the
number of fetched bugs and `A` the number of those that `ignoreBug` does not
ignore; `A` plus the number of ignored bugs is `G`, `A` is not negative, and
`G` and `A` are the sums of the total and of the active counts of the summary
lines. -/
theorem total_line (bugs : List Bug) :
    ∃ (front : List Printf) (A G : Int),
      mainPrints bugs = front ++ [Printf.total A G] ∧
      mainOutput bugs =
        String.join (front.map Printf.render) ++
          ("Total: " ++ toString A ++ "/" ++ toString G ++ "\n") ∧
      G = (bugs.length : Int) ∧
      A = (bugs.countP (fun b => !(ignoreBug b).1) : Int) ∧
      A + (bugs.countP (fun b => (ignoreBug b).1) : Int) = G ∧
      0 ≤ A ∧
      G = ((summaryCounts (mainPrints bugs)).map Prod.snd).sum ∧
      A = ((summaryCounts (mainPrints bugs)).map Prod.fst).sum := by
  have hlen := sum_lengths bugs
  have hign := sum_ignoredCounts bugs
  have hsplit : (bugs.length : Int) =
      (bugs.countP (fun b => (ignoreBug b).1) : Int) +
        (bugs.countP (fun b => !(ignoreBug b).1) : Int) := by
    have h := List.length_eq_countP_add_countP (fun b : Bug => (ignoreBug b).1) bugs
    have h2 : List.countP (fun a => decide ¬(ignoreBug a).1 = true) bugs =
        List.countP (fun b => !(ignoreBug b).1) bugs := by
      congr 1
      funext b
      cases (ignoreBug b).1 <;> rfl
    rw [h2] at h
    exact_mod_cast h
  have hprints := mainPrints_eq bugs
  rw [hlen, hign] at hprints
  have hA : (bugs.length : Int) - (bugs.countP (fun b => (ignoreBug b).1) : Int) =
      (bugs.countP (fun b => !(ignoreBug b).1) : Int) := by omega
  rw [hA] at hprints
  have hcounts : summaryCounts (mainPrints bugs) =
      (sortStrings (groupBugs bugs).assignees).map fun k =>
        (((sortedBucket (groupBugs bugs).bugStates k).length : Int) -
            ignoredCount (sortedBucket (groupBugs bugs).bugStates k),
          ((sortedBucket (groupBugs bugs).bugStates k).length : Int)) := by
    rw [hprints]
    have happ : ∀ l1 l2, summaryCounts (l1 ++ l2) = summaryCounts l1 ++ summaryCounts l2 := by
      intro l1 l2
      simp [summaryCounts, List.filterMap_append]
    rw [happ, summaryCounts_flatMap]
    simp [summaryCounts]
  refine ⟨_, _, _, hprints, ?_, rfl, rfl, by omega, by omega, ?_, ?_⟩
  · unfold mainOutput
    rw [hprints, List.map_append, List.map_singleton, String_join_concat]
    rfl
  · rw [hcounts, List.map_map, ← hlen]
    rfl
  · rw [hcounts, List.map_map, ← hA, ← hlen, ← hign]
    simp only [Function.comp_def]
    exact (sum_map_sub_int _ _ _).symm

/-! ## The sections of the report -/

theorem stringLess_iff (x y : String) : stringLess x y = true ↔ x < y := by
  simp [stringLess, String.lt_iff_toList_lt]

theorem stringLess_eq_false_iff (x y : String) : stringLess x y = false ↔ y ≤ x := by
  rw [← not_lt, ← stringLess_iff]
  cases stringLess x y <;> simp

/-- The call `sort.Strings` on a slice without duplicates gives a strictly
ascending slice. -/
theorem sortStrings_strict (x : List String) (hnd : x.Nodup) :
    (sortStrings x).Pairwise fun a b => a < b := by
  have hko : KeyOrder stringLess (fun s : String => s) :=
    ⟨fun a b h => le_of_lt ((stringLess_iff a b).1 h),
      fun a b h => (stringLess_eq_false_iff a b).1 h⟩
  have hsorted : (sortStrings x).Pairwise fun a b => a ≤ b := sortSort_sorted hko x
  have hnd2 : (sortStrings x).Pairwise fun a b => a ≠ b :=
    (sortSort_perm stringLess x).nodup_iff.2 hnd
  exact List.Pairwise.imp₂ (fun a b hle hne => lt_of_le_of_ne hle hne) hsorted hnd2

theorem sectionAssignees_sectionPrints (bugStates : BugStates) (k : String) :
    sectionAssignees (sectionPrints bugStates k) = [k] := by
  have hmap : ∀ l : bugStateArray, sectionAssignees (l.map issueLine) = [] := by
    intro l
    induction l with
    | nil => rfl
    | cons a l _ => simp [sectionAssignees, issueLine]
  simp only [sectionPrints, sectionAssignees, List.filterMap_append] at hmap ⊢
  rw [hmap]
  rfl

theorem sectionAssignees_append (l1 l2 : List Printf) :
    sectionAssignees (l1 ++ l2) = sectionAssignees l1 ++ sectionAssignees l2 := by
  simp [sectionAssignees, List.filterMap_append]

theorem sectionAssignees_flatMap (bugStates : BugStates) (ks : List String) :
    sectionAssignees (ks.flatMap (sectionPrints bugStates)) = ks := by
  induction ks with
  | nil => rfl
  | cons k ks ih =>
    rw [List.flatMap_cons, sectionAssignees_append, ih, sectionAssignees_sectionPrints]
    rfl

theorem sectionAssignees_mainPrints (bugs : List Bug) :
    sectionAssignees (mainPrints bugs) = sortStrings (groupBugs bugs).assignees := by
  rw [mainPrints_eq, sectionAssignees_append, sectionAssignees_flatMap]
  simp [sectionAssignees]

/-- C11: the assignees of the printed sections are strictly ascending in the
order of strings, none occurs twice, and they are the strings that are the
assignee of a fetched bug, the empty string among them when a bug has it. -/
theorem sections_ascending (bugs : List Bug) :
    (sectionAssignees (mainPrints bugs)).Pairwise (fun a b => a < b) ∧
      (sectionAssignees (mainPrints bugs)).Nodup ∧
      ∀ k, k ∈ sectionAssignees (mainPrints bugs) ↔ ∃ b ∈ bugs, b.AssignedTo = k := by
  rw [sectionAssignees_mainPrints]
  have hg := groupBugs_GroupsOf bugs
  have hp : (sortStrings (groupBugs bugs).assignees).Perm (groupBugs bugs).assignees :=
    sortSort_perm _ _
  refine ⟨sortStrings_strict _ hg.nodup, hp.nodup_iff.2 hg.nodup, fun k => ?_⟩
  rw [hp.mem_iff, hg.keys, List.mem_map]

/-! ## The buckets before the sort -/

/-- C12: after the grouping loop the bucket of an assignee `k` is the list of
the fetched bugs whose assignee is `k`, in the order of the fetch, each with
the result of `ignoreBug`; a key is in the map exactly when a fetched bug has
it as assignee; a fetched bug is in the bucket of `k` exactly when `k` is its
assignee; `assignees` holds the keys, each once, and the sizes of the buckets
sum to the number of fetched bugs. -/
theorem grouping_buckets (bugs : List Bug) :
    (∀ k, (groupBugs bugs).bugStates.get k =
      (bugs.filter fun b => b.AssignedTo = k).map
        fun b => { bug := b, ignored := (ignoreBug b).1, ignoreReason := (ignoreBug b).2 }) ∧
    (∀ k, ((groupBugs bugs).bugStates k).isSome = true ↔ ∃ b ∈ bugs, b.AssignedTo = k) ∧
    (∀ b ∈ bugs, ∀ k, classify b ∈ (groupBugs bugs).bugStates.get k ↔ b.AssignedTo = k) ∧
    (groupBugs bugs).assignees.Nodup ∧
    (∀ k, k ∈ (groupBugs bugs).assignees ↔ ((groupBugs bugs).bugStates k).isSome = true) ∧
    ((groupBugs bugs).assignees.map fun k => ((groupBugs bugs).bugStates.get k).length).sum =
      bugs.length := by
  have hg := groupBugs_GroupsOf bugs
  have hsome : ∀ k, ((groupBugs bugs).bugStates k).isSome = true ↔
      k ∈ bugs.map Bug.AssignedTo := by
    intro k
    rw [hg.buckets k]
    split <;> simp_all
  refine ⟨fun k => groupBugs_get bugs k, ?_, ?_, hg.nodup, ?_, ?_⟩
  · intro k
    rw [hsome, List.mem_map]
  · intro b hb k
    rw [groupBugs_get, List.mem_map]
    constructor
    · rintro ⟨b2, hb2, heq⟩
      have hbb : b2 = b := congrArg bugState.bug heq
      subst hbb
      simpa using (List.mem_filter.1 hb2).2
    · intro hk
      exact ⟨b, List.mem_filter.2 ⟨hb, by simpa using hk⟩, rfl⟩
  · intro k
    rw [hg.keys, hsome]
  · have hcov : ∀ b ∈ bugs, b.AssignedTo ∈ (groupBugs bugs).assignees :=
      fun b hb => (hg.keys _).2 (List.mem_map.2 ⟨b, hb, rfl⟩)
    have hsum := sum_buckets (fun _ => 1) (groupBugs bugs).assignees bugs hg.nodup hcov
    have hcast : (((groupBugs bugs).assignees.map
        fun k => ((groupBugs bugs).bugStates.get k).length).sum : Int) = (bugs.length : Int) := by
      rw [Nat.cast_list_sum, List.map_map]
      simp only [Function.comp_def, groupBugs_get]
      simpa using hsum
    exact_mod_cast hcast

theorem grouping_buckets_witness :
    (classify lowBug ∈ (groupBugs threeBugs).bugStates.get "bob" ↔ lowBug.AssignedTo = "bob") ∧
      (classify lowBug ∈ (groupBugs threeBugs).bugStates.get "" ↔ lowBug.AssignedTo = "") :=
  ⟨(grouping_buckets threeBugs).2.2.1 lowBug (by decide) "bob",
    (grouping_buckets threeBugs).2.2.1 lowBug (by decide) ""⟩

/-! ## The empty report and the query -/

/-- C13: when no bug was fetched the program prints no section, and its whole
output is the line "Total: 0/0". -/
theorem no_bugs :
    mainPrints [] = [Printf.total 0 0] ∧
      sectionAssignees (mainPrints []) = [] ∧
      mainOutput [] = "Total: 0/0\n" := by
  decide

/-- C15: the list of included fields is `defaultFields` followed by "flags"
and "external_bugs", it holds the five fields that the program reads, and the
lists of statuses and of target releases are the ones of the source. -/
theorem query_fields :
    query.IncludeFields = defaultFields ++ ["flags", "external_bugs"] ∧
      (∀ f ∈ ["id", "assigned_to", "severity", "status", "flags"], f ∈ query.IncludeFields) ∧
      query.Status = ["NEW", "ASSIGNED", "POST", "ON_DEV"] ∧
      query.TargetRelease = ["---", currentRelease, nextRelease] ∧
      query.TargetRelease = ["---", "4.6.0", "4.7.0"] := by
  refine ⟨rfl, ?_, rfl, rfl, rfl⟩
  decide

theorem query_fields_witness :
    "flags" ∈ query.IncludeFields ∧ "severity" ∈ query.IncludeFields :=
  ⟨query_fields.2.1 "flags" (by decide), query_fields.2.1 "severity" (by decide)⟩

/-! ## The reason and the ignored status -/

theorem ignoreBugFlags_cases (flags : List Flag) :
    ignoreBugFlags flags = (false, "") ∨
      ∃ r, ignoreBugFlags flags = (true, "needinfo:" ++ r) := by
  induction flags with
  | nil => exact Or.inl rfl
  | cons f rest ih =>
    rw [ignoreBugFlags_cons]
    cases outsideNeedinfo f
    · simpa using ih
    · exact Or.inr ⟨f.Requestee, by simp⟩

theorem ignoreBug_cases (bug : Bug) :
    ignoreBug bug = (false, "") ∨ (bug.Severity = "low" ∧ ignoreBug bug = (true, "low")) ∨
      ∃ r, ignoreBug bug = (true, "needinfo:" ++ r) := by
  by_cases h : bug.Severity = "low"
  · exact Or.inr (Or.inl ⟨h, by simp [ignoreBug, h]⟩)
  · rw [ignoreBug_of_not_low bug h]
    rcases ignoreBugFlags_cases bug.Flags with h1 | h1
    · exact Or.inl h1
    · exact Or.inr (Or.inr h1)

theorem needinfo_append_ne_empty (r : String) : "needinfo:" ++ r ≠ "" := by
  intro h
  have hlen := congrArg String.length h
  rw [String.length_append] at hlen
  have h9 : "needinfo:".length = 9 := by decide
  have h0 : "".length = 0 := by decide
  omega

/-- The reason that `ignoreBug` returns is empty exactly when it returns
false. -/
theorem ignoreBug_reason_eq_empty_iff (bug : Bug) :
    (ignoreBug bug).2 = "" ↔ (ignoreBug bug).1 = false := by
  rcases ignoreBug_cases bug with h | ⟨_, h⟩ | ⟨r, h⟩
  · simp [h]
  · rw [h]
    decide
  · rw [h]
    simp [needinfo_append_ne_empty]

/-- C16: when `ignoreBug` returns true the reason is "low" or starts with
"needinfo:" and is not empty, when it returns false the reason is empty; and
for every element of a printed bucket the reason is empty exactly when the
element is not ignored, and an element of severity "low" is ignored. -/
theorem reason_iff_ignored :
    (∀ bug : Bug,
      ((ignoreBug bug).1 = true →
        ((ignoreBug bug).2 = "low" ∨ ∃ r, (ignoreBug bug).2 = "needinfo:" ++ r) ∧
          (ignoreBug bug).2 ≠ "") ∧
      ((ignoreBug bug).1 = false → (ignoreBug bug).2 = "")) ∧
    (∀ (bugs : List Bug) (k : String) (s : bugState),
      s ∈ sortedBucket (groupBugs bugs).bugStates k →
        (s.ignoreReason = "" ↔ s.ignored = false) ∧
          (s.bug.Severity = "low" → s.ignored = true)) := by
  constructor
  · intro bug
    rcases ignoreBug_cases bug with h | ⟨_, h⟩ | ⟨r, h⟩
    · simp [h]
    · rw [h]
      exact ⟨fun _ => ⟨Or.inl rfl, by decide⟩, fun h2 => Bool.noConfusion h2⟩
    · rw [h]
      exact ⟨fun _ => ⟨Or.inr ⟨r, rfl⟩, needinfo_append_ne_empty r⟩,
        fun h2 => Bool.noConfusion h2⟩
  · intro bugs k s hs
    have hmem := (sortedBucket_perm bugs k).subset hs
    obtain ⟨b, _, rfl⟩ := List.mem_map.1 hmem
    refine ⟨ignoreBug_reason_eq_empty_iff b, fun hlow => ?_⟩
    have hb : b.Severity = "low" := hlow
    simp [classify, ignoreBug, hb]

theorem reason_iff_ignored_witness :
    (((ignoreBug needinfoBug).2 = "low" ∨ ∃ r, (ignoreBug needinfoBug).2 = "needinfo:" ++ r) ∧
        (ignoreBug needinfoBug).2 ≠ "") ∧
      (((classify lowBug).ignoreReason = "" ↔ (classify lowBug).ignored = false) ∧
        ((classify lowBug).bug.Severity = "low" → (classify lowBug).ignored = true)) :=
  ⟨(reason_iff_ignored.1 needinfoBug).1 (by decide),
    reason_iff_ignored.2 [needinfoBug, lowBug] "bob" (classify lowBug) (by decide)⟩

/-! ## Severities that the comparator does not know -/

/-- C18: of two bugs with the same ignored status, one with a severity that is
not a key of the map `severityCode` is `Less` than one with a severity that is
a key: the lookup gives 0 for it, below the rank of "urgent". -/
theorem Less_unknown_severity (a b : bugState) (hign : a.ignored = b.ignored)
    (ha : a.bug.Severity ∉ severityKeys) (hb : b.bug.Severity ∈ severityKeys) :
    severityCode a.bug.Severity = 0 ∧ 1 ≤ severityCode b.bug.Severity ∧
      bugStateArray.Less a b = true := by
  have h0 : severityCode a.bug.Severity = 0 := by
    simp only [severityKeys, List.mem_cons, List.mem_singleton, List.not_mem_nil, or_false,
      not_or] at ha
    simp [severityCode, ha]
  have h1 : 1 ≤ severityCode b.bug.Severity := by
    simp only [severityKeys, List.mem_cons, List.mem_singleton, List.not_mem_nil, or_false] at hb
    rcases hb with h | h | h | h | h <;> rw [h] <;> decide
  refine ⟨h0, h1, ?_⟩
  rw [Less_same_ignored a b hign, h0]
  simp only [Bool.or_eq_true, decide_eq_true_eq]
  left
  omega

theorem Less_unknown_severity_witness :
    severityCode (plainState 9 "alice" "unspecified").bug.Severity = 0 ∧
      1 ≤ severityCode (plainState 1 "alice" "urgent").bug.Severity ∧
      bugStateArray.Less (plainState 9 "alice" "unspecified") (plainState 1 "alice" "urgent")
        = true :=
  Less_unknown_severity (plainState 9 "alice" "unspecified") (plainState 1 "alice" "urgent")
    (by decide) (by decide) (by decide)

/-! ## The lines of a section -/

theorem foldl_join_eq_go (sep : String) (es : List String) (acc : String) :
    es.foldl (fun acc s => acc ++ sep ++ s) acc = String.intercalate.go acc sep es := by
  induction es generalizing acc with
  | nil => rfl
  | cons e es ih => exact ih _

/-- The call `strings.Join` puts the separator between the elements. -/
theorem stringsJoin_eq_intercalate (elems : List String) (sep : String) :
    stringsJoin elems sep = sep.intercalate elems := by
  cases elems with
  | nil => rfl
  | cons e es => exact foldl_join_eq_go sep es e

theorem foldl_join_append (sep : String) (es : List String) (a b : String) :
    es.foldl (fun acc s => acc ++ sep ++ s) (a ++ b) =
      a ++ es.foldl (fun acc s => acc ++ sep ++ s) b := by
  induction es generalizing b with
  | nil => rfl
  | cons e es ih =>
    simp only [List.foldl_cons]
    rw [← ih]
    simp [String.append_assoc]

theorem stringsJoin_cons_cons (a b : String) (l : List String) (sep : String) :
    stringsJoin (a :: b :: l) sep = a ++ sep ++ stringsJoin (b :: l) sep := by
  simp only [stringsJoin, List.foldl_cons]
  rw [← foldl_join_append]

theorem ignoredCount_eq_countP (l : bugStateArray) :
    ignoredCount l = (l.countP (fun s => s.ignored) : Int) := by
  induction l with
  | nil => rfl
  | cons a l ih =>
    have hcons : ignoredCount (a :: l) = (if a.ignored then 1 else 0) + ignoredCount l := by
      simp [ignoredCount]
    rw [hcons, ih]
    cases ha : a.ignored
    · simp [List.countP_cons, ha]
    · simp only [List.countP_cons, ha, if_true]
      push_cast
      omega

/-- The prints of one iteration of the report loop, with the counts and the
identifiers written out. -/
theorem sectionPrints_eq (bugStates : BugStates) (k : String) :
    sectionPrints bugStates k =
      Printf.summary k
          (((sortedBucket bugStates k).length : Int) -
            ((sortedBucket bugStates k).countP (fun s => s.ignored) : Int))
          ((sortedBucket bugStates k).length : Int)
          ("%2C".intercalate ((sortedBucket bugStates k).map fun s => toString s.bug.ID)) ::
        ((sortedBucket bugStates k).map issueLine ++ [Printf.blank]) := by
  simp [sectionPrints, stringsJoin_eq_intercalate, ignoredCount_eq_countP]

/-- C14: each section starts with the summary print of the assignee, with the
size of the printed bucket as total, the size minus the number of ignored
elements as active count, and the decimal identifiers of the elements of the
bucket, in the order of the lines that follow, joined by "%2C"; the printed
bucket holds the fetched bugs of the assignee, each once; the text of the
summary print is the template of the source, and the join puts the separator
between the elements only. -/
theorem summary_lines (bugs : List Bug) :
    (∃ last : Printf, mainPrints bugs =
      (sectionAssignees (mainPrints bugs)).flatMap (fun k =>
        Printf.summary k
            (((sortedBucket (groupBugs bugs).bugStates k).length : Int) -
              ((sortedBucket (groupBugs bugs).bugStates k).countP (fun s => s.ignored) : Int))
            ((sortedBucket (groupBugs bugs).bugStates k).length : Int)
            ("%2C".intercalate
              ((sortedBucket (groupBugs bugs).bugStates k).map fun s => toString s.bug.ID)) ::
          ((sortedBucket (groupBugs bugs).bugStates k).map issueLine ++ [Printf.blank])) ++
        [last]) ∧
    (∀ k, (sortedBucket (groupBugs bugs).bugStates k).Perm
      ((bugs.filter fun b => b.AssignedTo = k).map classify)) ∧
    (∀ (k : String) (act tot : Int) (ids : String),
      (Printf.summary k act tot ids).render =
        k ++ ": " ++ toString act ++ "/" ++ toString tot ++
          ": https://bugzilla.redhat.com/buglist.cgi?f1=bug_id&list_id=11351541&o1=anyexact&v1=" ++
          ids ++ "\n") ∧
    (stringsJoin [] "%2C" = "" ∧ (∀ a, stringsJoin [a] "%2C" = a) ∧
      ∀ a b l, stringsJoin (a :: b :: l) "%2C" = a ++ "%2C" ++ stringsJoin (b :: l) "%2C") := by
  have hlast : ∃ last : Printf, mainPrints bugs =
      (sortStrings (groupBugs bugs).assignees).flatMap
        (sectionPrints (groupBugs bugs).bugStates) ++ [last] := ⟨_, mainPrints_eq bugs⟩
  obtain ⟨last, hlast⟩ := hlast
  refine ⟨⟨last, ?_⟩, fun k => sortedBucket_perm bugs k, fun _ _ _ _ => rfl,
    rfl, fun _ => rfl, fun a b l => stringsJoin_cons_cons a b l "%2C"⟩
  rw [sectionAssignees_mainPrints]
  simp only [← sectionPrints_eq]
  exact hlast

theorem issueLine_render_active (s : bugState) (hs : s.ignored = false) :
    (issueLine s).render =
      "\t  " ++ s.bug.Status ++ " https://bugzilla.redhat.com/show_bug.cgi?id=" ++
        toString s.bug.ID ++ "\n" := by
  apply String.ext
  simp [issueLine, Printf.render, hs]

theorem issueLine_render_ignored (s : bugState) (hs : s.ignored = true) :
    (issueLine s).render =
      "\t [" ++ s.ignoreReason ++ "] " ++ s.bug.Status ++
        " https://bugzilla.redhat.com/show_bug.cgi?id=" ++ toString s.bug.ID ++ "\n" := by
  apply String.ext
  simp [issueLine, Printf.render, hs]

/-- C17: in each section the summary print is followed by one print for each
element of the printed bucket, in order, and by the empty line; the text of
the print of an element is a tab, a space, the reason field, a space, the
status, a space and the address of the bug with its decimal identifier, where
the reason field is the reason that `ignoreBug` gave in brackets when the
element is ignored and empty when it is not. -/
theorem issue_lines (bugs : List Bug) :
    (∃ (heads : String → Printf) (last : Printf), mainPrints bugs =
      (sectionAssignees (mainPrints bugs)).flatMap (fun k =>
        heads k ::
          ((sortedBucket (groupBugs bugs).bugStates k).map (fun s =>
              Printf.issue (if s.ignored then "[" ++ s.ignoreReason ++ "]" else "")
                s.bug.Status s.bug.ID) ++
            [Printf.blank])) ++
        [last]) ∧
    (∀ (reason status : String) (id : Int),
      (Printf.issue reason status id).render =
        "\t " ++ reason ++ " " ++ status ++ " https://bugzilla.redhat.com/show_bug.cgi?id=" ++
          toString id ++ "\n") ∧
    (∀ s : bugState, s.ignored = true →
      (issueLine s).render =
        "\t [" ++ s.ignoreReason ++ "] " ++ s.bug.Status ++
          " https://bugzilla.redhat.com/show_bug.cgi?id=" ++ toString s.bug.ID ++ "\n") ∧
    (∀ s : bugState, s.ignored = false →
      (issueLine s).render =
        "\t  " ++ s.bug.Status ++ " https://bugzilla.redhat.com/show_bug.cgi?id=" ++
          toString s.bug.ID ++ "\n") ∧
    Printf.blank.render = "\n" ∧
    (∀ (k : String) (s : bugState), s ∈ sortedBucket (groupBugs bugs).bugStates k →
      s.bug ∈ bugs ∧ s.bug.AssignedTo = k ∧
        s.ignored = (ignoreBug s.bug).1 ∧ s.ignoreReason = (ignoreBug s.bug).2) := by
  have hlast : ∃ last : Printf, mainPrints bugs =
      (sortStrings (groupBugs bugs).assignees).flatMap
        (sectionPrints (groupBugs bugs).bugStates) ++ [last] := ⟨_, mainPrints_eq bugs⟩
  obtain ⟨last, hlast⟩ := hlast
  refine ⟨⟨fun k => Printf.summary k
      (((sortedBucket (groupBugs bugs).bugStates k).length : Int) -
        ((sortedBucket (groupBugs bugs).bugStates k).countP (fun s => s.ignored) : Int))
      ((sortedBucket (groupBugs bugs).bugStates k).length : Int)
      ("%2C".intercalate
        ((sortedBucket (groupBugs bugs).bugStates k).map fun s => toString s.bug.ID)),
      last, ?_⟩, fun _ _ _ => rfl, issueLine_render_ignored, issueLine_render_active, rfl, ?_⟩
  · rw [sectionAssignees_mainPrints, hlast]
    congr 2
    funext k
    exact sectionPrints_eq _ k
  · intro k s hs
    have hmem := (sortedBucket_perm bugs k).subset hs
    obtain ⟨b, hb, rfl⟩ := List.mem_map.1 hmem
    have hb2 := List.mem_filter.1 hb
    exact ⟨hb2.1, by simpa using hb2.2, rfl, rfl⟩

theorem issue_lines_witness :
    (issueLine (classify lowBug)).render =
        "\t [" ++ (classify lowBug).ignoreReason ++ "] " ++ (classify lowBug).bug.Status ++
          " https://bugzilla.redhat.com/show_bug.cgi?id=" ++
          toString (classify lowBug).bug.ID ++ "\n" ∧
      (issueLine (plainState 12 "bob" "high")).render =
        "\t  " ++ (plainState 12 "bob" "high").bug.Status ++
          " https://bugzilla.redhat.com/show_bug.cgi?id=" ++
          toString (plainState 12 "bob" "high").bug.ID ++ "\n" ∧
      ((classify lowBug).bug ∈ threeBugs ∧ (classify lowBug).bug.AssignedTo = "bob" ∧
        (classify lowBug).ignored = (ignoreBug (classify lowBug).bug).1 ∧
        (classify lowBug).ignoreReason = (ignoreBug (classify lowBug).bug).2) :=
  ⟨(issue_lines threeBugs).2.2.1 (classify lowBug) (by decide),
    (issue_lines threeBugs).2.2.2.1 (plainState 12 "bob" "high") (by decide),
    (issue_lines threeBugs).2.2.2.2.2 "bob" (classify lowBug) (by decide)⟩

end Teambugs
